import Mathlib

set_option maxHeartbeats 1000000

/-!
Shallow embedding of the graph library (src/graph) in Lean 4.

The C heap is modelled as a list of optional vertices indexed by allocation
order: `heap[i] = some v` means vertex `i` is allocated, `none` means the slot
was freed (`free(vertex)`) or never allocated.  Pointers to vertices become
`Nat` indices; the `NULL` pointer becomes `Option.none`.  The user-supplied
`data_is_equal` callback stored in `graph_t` is passed as an explicit
function parameter `eq : α → α → Bool`; the `print_data` callback is modelled
by returning the list of payloads printed, in order.
-/

namespace GraphC

/-- Model of `struct vertex_s` (graph.c lines 39-44): an adjacency list of
vertex references, the opaque stored data, and the transient visited flag. -/
structure Vertex (α : Type) where
  adjacent_vertex_list : List Nat
  data : α
  visited : Bool
deriving DecidableEq

/-- Model of `struct graph_s` (graph.h): the single entry-vertex reference
(`vertex`), plus the heap of all allocated vertices (implicit in C, explicit
here).  The two callback fields are modelled as function parameters of the
operations instead. -/
structure Graph (α : Type) where
  heap : List (Option (Vertex α))
  vertex : Option Nat
deriving DecidableEq

variable {α : Type}

/-- Dereference a vertex pointer: `some v` when index `i` holds a live vertex. -/
def getV (g : Graph α) (i : Nat) : Option (Vertex α) :=
  match g.heap.get? i with
  | some o => o
  | none => none

/-- Overwrite the vertex stored at index `i` (no-op when `i` is out of range,
which never happens for live indices). -/
def setV (g : Graph α) (i : Nat) (v : Vertex α) : Graph α :=
  ⟨g.heap.set i (some v), g.vertex⟩

/-- Model of `free(vertex)`: the heap slot becomes unallocated. -/
def freeV (g : Graph α) (i : Nat) : Graph α :=
  ⟨g.heap.set i none, g.vertex⟩

/-- Adjacency list of the vertex at `i` (empty for a dangling reference; the C
code would dereference freed memory there). -/
def adjOf (g : Graph α) (i : Nat) : List Nat :=
  match getV g i with
  | some v => v.adjacent_vertex_list
  | none => []

/-- Payload stored at vertex `i`, when live. -/
def dataOf (g : Graph α) (i : Nat) : Option α :=
  (getV g i).map Vertex.data

/-- Model of `is_visited` (graph.c lines 160-167): `FALSE` for `NULL`. -/
def is_visited (g : Graph α) (i : Nat) : Bool :=
  match getV g i with
  | some v => v.visited
  | none => false

/-- Model of `mark_visited` (graph.c lines 174-179). -/
def mark_visited (g : Graph α) (i : Nat) : Graph α :=
  match getV g i with
  | some v => setV g i ⟨v.adjacent_vertex_list, v.data, true⟩
  | none => g

/-- Model of `mark_not_visited` (graph.c lines 186-191). -/
def mark_not_visited (g : Graph α) (i : Nat) : Graph α :=
  match getV g i with
  | some v => setV g i ⟨v.adjacent_vertex_list, v.data, false⟩
  | none => g

/-- Replace the adjacency list of vertex `i` (models writing through
`&vertex->adjacent_vertex_list`). -/
def setAdj (g : Graph α) (i : Nat) (l : List Nat) : Graph α :=
  match getV g i with
  | some v => setV g i ⟨l, v.data, v.visited⟩
  | none => g

/-- Model of `add_to_list` (list.c lines 29-42): insert at the front of the
list (allocation is assumed to succeed). -/
def add_to_list (head : List Nat) (d : Nat) : List Nat :=
  d :: head

/-- Modelled from the spec: `delete_from_list` is called by
`delete_vertex_from_graph` (graph.c lines 465-466) but its definition is not
among the sources; per the spec the list collaborator provides
`remove(list, ref) -> bool` (true if present and removed).  We model removal
of the first occurrence. -/
def delete_from_list : List Nat → Nat → Bool × List Nat
  | [], _ => (false, [])
  | y :: ys, d =>
    if y = d then (true, ys)
    else
      let r := delete_from_list ys d
      (r.1, y :: r.2)

/-- Model of `push_to_queue` (queue.c lines 58-77): append at the back. -/
def push_to_queue (q : List Nat) (d : Nat) : List Nat :=
  q ++ [d]

/-- Model of `push_to_stack` (stack.c lines 54-71): push at the front. -/
def push_to_stack (s : List Nat) (d : Nat) : List Nat :=
  d :: s

/-- Model of `pop_from_queue` / `pop_from_stack`: both remove the front
element of the modelled list (the queue pops its first element, the stack its
top), returning `none` when empty. -/
def pop_front : List Nat → Option Nat × List Nat
  | [] => (none, [])
  | x :: xs => (some x, xs)

/-- Stop condition of the search loops (graph.c lines 281, 304, 404, 427):
`graph->data_is_equal(data, vertex->data)` with the target payload already
curried in (`eqd = eq data`).  For the traversal loops `eqd` is the constant
false predicate, since they have no early exit. -/
def stopCheck (eqd : α → Bool) (g : Graph α) (i : Nat) : Bool :=
  match dataOf g i with
  | some d => eqd d
  | none => false

/-- Model of the inner `for` loop of the marking pass (e.g. graph.c lines
285-291): walk an adjacency list, and for each not-yet-visited neighbour mark
it and push it onto the frontier.  `push` is `push_to_queue` for BFS and
`push_to_stack` for DFS. -/
def discover (push : List Nat → Nat → List Nat) :
    Graph α → List Nat → List Nat → Graph α × List Nat
  | g, fr, [] => (g, fr)
  | g, fr, j :: rest =>
    if is_visited g j then discover push g fr rest
    else discover push (mark_visited g j) (push fr j) rest

/-- Model of the inner `for` loop of the cleanup pass (e.g. graph.c lines
308-314): walk an adjacency list, and for each still-visited neighbour unmark
it and push it onto the frontier. -/
def undiscover (push : List Nat → Nat → List Nat) :
    Graph α → List Nat → List Nat → Graph α × List Nat
  | g, fr, [] => (g, fr)
  | g, fr, j :: rest =>
    if is_visited g j then undiscover push (mark_not_visited g j) (push fr j) rest
    else undiscover push g fr rest

/-- Model of the pass-1 (work pass) `while (vertex)` loop shared by
`breadth_first_traversal`, `breadth_first_search`, `depth_first_traversal`
and `depth_first_search` (graph.c lines 221-236, 279-293, 344-359, 402-416).
Returns the final graph, the list of processed vertices in order (each one
having been marked and, for traversals, printed), and the loop's final
`vertex` value (`some i` exactly when the search `break` fired at `i`).
`fuel` is a termination bound; `graphFuel` below always suffices, so the
C loop and the model agree on every run that matters. -/
def pass1 (push : List Nat → Nat → List Nat) (eqd : α → Bool) :
    Nat → Graph α → Option Nat → List Nat → Graph α × List Nat × Option Nat
  | _, g, none, _ => (g, [], none)
  | 0, g, some _, _ => (g, [], none)
  | fuel + 1, g, some i, fr =>
    let g1 := mark_visited g i
    if stopCheck eqd g1 i then (g1, [i], some i)
    else
      let d := discover push g1 fr (adjOf g1 i)
      let p := pop_front d.2
      let r := pass1 push eqd fuel d.1 p.1 p.2
      (r.1, i :: r.2.1, r.2.2)

/-- Model of the pass-2 (cleanup pass) `while (vertex)` loop (graph.c lines
244-254, 302-316, 367-377, 425-439).  For traversals `eqd` is constant false
(their cleanup loop has no early exit); for searches it is the same equality
check as pass 1. -/
def pass2 (push : List Nat → Nat → List Nat) (eqd : α → Bool) :
    Nat → Graph α → Option Nat → List Nat → Graph α × List Nat × Option Nat
  | _, g, none, _ => (g, [], none)
  | 0, g, some _, _ => (g, [], none)
  | fuel + 1, g, some i, fr =>
    let g1 := mark_not_visited g i
    if stopCheck eqd g1 i then (g1, [i], some i)
    else
      let d := undiscover push g1 fr (adjOf g1 i)
      let p := pop_front d.2
      let r := pass2 push eqd fuel d.1 p.1 p.2
      (r.1, i :: r.2.1, r.2.2)

/-- Termination bound for the traversal loops: each iteration either consumes
a frontier entry that was freshly marked when pushed, or is the very first
one, so `2 * number of heap slots + 1` iterations always suffice. -/
def graphFuel (g : Graph α) : Nat :=
  2 * g.heap.length + 1

/-- Model of `breadth_first_search` (graph.c lines 270-320): the marking pass
from the entry vertex with early exit on payload match, then the cleanup
pass, returning the looked-up vertex and the resulting graph. -/
def breadth_first_search (eq : α → α → Bool) (g : Graph α) (data : α) :
    Option Nat × Graph α :=
  let r1 := pass1 push_to_queue (eq data) (graphFuel g) g g.vertex []
  let r2 := pass2 push_to_queue (eq data) (graphFuel r1.1) r1.1 r1.1.vertex []
  (r1.2.2, r2.1)

/-- Model of `depth_first_search` (graph.c lines 393-443). -/
def depth_first_search (eq : α → α → Bool) (g : Graph α) (data : α) :
    Option Nat × Graph α :=
  let r1 := pass1 push_to_stack (eq data) (graphFuel g) g g.vertex []
  let r2 := pass2 push_to_stack (eq data) (graphFuel r1.1) r1.1 r1.1.vertex []
  (r1.2.2, r2.1)

/-- Model of `breadth_first_traversal` (graph.c lines 212-256): the processed
order of pass 1 is the print order; pass 2 then unmarks.  Returns the list of
printed vertices (in order) and the resulting graph. -/
def breadth_first_traversal (g : Graph α) : List Nat × Graph α :=
  let r1 := pass1 push_to_queue (fun _ => false) (graphFuel g) g g.vertex []
  let r2 := pass2 push_to_queue (fun _ => false) (graphFuel r1.1) r1.1 r1.1.vertex []
  (r1.2.1, r2.1)

/-- Model of `depth_first_traversal` (graph.c lines 335-379). -/
def depth_first_traversal (g : Graph α) : List Nat × Graph α :=
  let r1 := pass1 push_to_stack (fun _ => false) (graphFuel g) g g.vertex []
  let r2 := pass2 push_to_stack (fun _ => false) (graphFuel r1.1) r1.1 r1.1.vertex []
  (r1.2.1, r2.1)

/-- Payloads printed by a traversal, in print order (`graph->print_data` is
called on `vertex->data` of each processed vertex). -/
def printedPayloads (g : Graph α) (ord : List Nat) : List α :=
  ord.filterMap (dataOf g)

/-- Model of `create_graph` (graph.c lines 52-65): an empty heap and a `NULL`
entry vertex (allocation assumed to succeed; the callbacks are parameters of
the other operations). -/
def create_graph (α : Type) : Graph α :=
  ⟨[], none⟩

/-- Model of `make_vertices_adjacent` (graph.c lines 74-78): add each vertex
to the front of the other's adjacency list. -/
def make_vertices_adjacent (g : Graph α) (v1 v2 : Nat) : Graph α :=
  let g1 := setAdj g v1 (add_to_list (adjOf g v1) v2)
  setAdj g1 v2 (add_to_list (adjOf g1 v2) v1)

/-- Model of the neighbour-resolution loop of `add_vertex_to_graph` (graph.c
lines 115-121): look each neighbour payload up with a BFS search, failing on
the first one not found (`goto fail`). -/
def resolve_adjacent (eq : α → α → Bool) :
    Graph α → List α → Option (List Nat) × Graph α
  | g, [] => (some [], g)
  | g, d :: rest =>
    let s := breadth_first_search eq g d
    match s.1 with
    | none => (none, s.2)
    | some v =>
      let r := resolve_adjacent eq s.2 rest
      match r.1 with
      | none => (none, r.2)
      | some vs => (some (v :: vs), r.2)

/-- Model of `add_vertex_to_graph` (graph.c lines 96-151): reject a duplicate
payload (found by BFS from the entry), resolve every neighbour payload to an
existing vertex (else fail with no mutation), then allocate the new vertex,
link it symmetrically to each resolved neighbour in order, and make it the
entry vertex if the graph had none.  Allocation is assumed to succeed. -/
def add_vertex_to_graph (eq : α → α → Bool) (g : Graph α) (data : α)
    (adj_vertex_data : List α) : Bool × Graph α :=
  let dup := breadth_first_search eq g data
  match dup.1 with
  | some _ => (false, dup.2)
  | none =>
    let res := resolve_adjacent eq dup.2 adj_vertex_data
    match res.1 with
    | none => (false, res.2)
    | some ids =>
      let newId := res.2.heap.length
      let g3 : Graph α := ⟨res.2.heap ++ [some ⟨[], data, false⟩], res.2.vertex⟩
      let g4 := ids.foldl (fun h j => make_vertices_adjacent h j newId) g3
      match g4.vertex with
      | none => (true, ⟨g4.heap, some newId⟩)
      | some _ => (true, g4)

/-- Model of the link-removal loop of `delete_vertex_from_graph` (graph.c
lines 463-467): for each entry of the target's adjacency list, remove the
target from that neighbour's list and the neighbour from the target's list.
The returned boolean records whether every asserted `delete_from_list` call
returned `TRUE`.  (The C loop keeps following the `next` pointer of the node
it just unlinked and freed; since `delete_from_list` removes the first
occurrence, that node is exactly the current head of the remaining suffix, so
iterating over the original list is behaviourally equivalent.) -/
def removeLinks (g : Graph α) (v : Nat) : List Nat → Graph α × Bool
  | [] => (g, true)
  | a :: rest =>
    let r1 := delete_from_list (adjOf g a) v
    let g1 := setAdj g a r1.2
    let r2 := delete_from_list (adjOf g1 v) a
    let g2 := setAdj g1 v r2.2
    let r := removeLinks g2 v rest
    (r.1, r1.1 && r2.1 && r.2)

/-- Model of `delete_vertex_from_graph` (graph.c lines 453-473): `FALSE` for
`NULL`; otherwise unlink the vertex from every neighbour and free it.  The
second boolean records whether all the `assert`s (the two per-neighbour
`delete_from_list` successes and the final emptiness of the target's
adjacency list) passed. -/
def delete_vertex_from_graph (g : Graph α) :
    Option Nat → Bool × Graph α × Bool
  | none => (false, g, true)
  | some v =>
    let r := removeLinks g v (adjOf g v)
    (true, freeV r.1 v, r.2 && (adjOf r.1 v).isEmpty)

/-- Model of `delete_from_graph` (graph.c lines 488-494): locate the vertex
with a BFS search, then delete it. -/
def delete_from_graph (eq : α → α → Bool) (g : Graph α) (data : α) :
    Bool × Graph α :=
  let s := breadth_first_search eq g data
  let d := delete_vertex_from_graph s.2 s.1
  (d.1, d.2.1)

/-- Whether every `assert` in `delete_vertex_from_graph` passes on this call
(the C program would abort otherwise). -/
def delete_asserts (eq : α → α → Bool) (g : Graph α) (data : α) : Bool :=
  let s := breadth_first_search eq g data
  (delete_vertex_from_graph s.2 s.1).2.2

/-- Two graphs that agree on everything except possibly the visited flags. -/
def StructEq (g h : Graph α) : Prop :=
  g.heap.length = h.heap.length ∧ g.vertex = h.vertex ∧
    (∀ i, adjOf g i = adjOf h i) ∧ (∀ i, dataOf g i = dataOf h i)

/-- Reachability through an adjacency map: `t` can be reached from `s` by
following adjacency-list links. -/
def Reaches (adjF : Nat → List Nat) (s t : Nat) : Prop :=
  Relation.ReflTransGen (fun a b => b ∈ adjF a) s t

/-- Reachability from the graph's entry vertex, the root of every traversal. -/
def ReachesEntry (g : Graph α) (t : Nat) : Prop :=
  ∃ e, g.vertex = some e ∧ Reaches (adjOf g) e t

/-- Every vertex reachable from the entry is unmarked: the precondition of
every public operation in the visited-flag protocol. -/
def CleanReach (g : Graph α) : Prop :=
  ∀ x, ReachesEntry g x → is_visited g x = false

/-- Adjacency lists of reachable vertices only reference live vertices (the
structural validity the C code relies on: following a dangling neighbour
pointer would be undefined behaviour). -/
def ClosedReach (g : Graph α) : Prop :=
  ∀ x, ReachesEntry g x → ∀ j, j ∈ adjOf g x → (getV g j).isSome = true

/-- The set of live, unmarked vertices: the core of the termination measure
of the traversal loops. -/
def unmarkedF (g : Graph α) : Finset Nat :=
  (Finset.range g.heap.length).filter
    (fun i => (getV g i).isSome = true ∧ is_visited g i = false)

/-- The payload stored at vertex `w` is equal, per the user callback, to the
payload `d` being searched for. -/
def dataMatch (eq : α → α → Bool) (g : Graph α) (d : α) (w : Nat) : Prop :=
  ∃ a, dataOf g w = some a ∧ eq d a = true

/-- Executable check that every allocated vertex is unmarked. -/
def cleanB (g : Graph α) : Bool :=
  g.heap.all fun o =>
    match o with
    | some v => !v.visited
    | none => true

/-- Executable check that every adjacency entry references a live vertex. -/
def closedB (g : Graph α) : Bool :=
  g.heap.all fun o =>
    match o with
    | some v => v.adjacent_vertex_list.all fun j => (getV g j).isSome
    | none => true

/-- Well-formedness invariant maintained by every graph the library API can
produce: all flags clear, adjacency references live and non-self, adjacency
symmetric with multiplicity, and an in-range entry reference (possibly
dangling after the entry vertex was deleted). -/
structure Wf (g : Graph α) : Prop where
  clean : ∀ i, is_visited g i = false
  closed : ∀ x j, j ∈ adjOf g x → (getV g j).isSome = true
  noSelf : ∀ x j, j ∈ adjOf g x → j ≠ x
  sym : ∀ a b, (adjOf g a).count b = (adjOf g b).count a
  entry : ∀ e, g.vertex = some e → e < g.heap.length

/-- Reachable vertices carry pairwise non-equal payloads (per the callback);
holds for graphs built through the API when the callback is an equivalence. -/
def NoDupPayloads (eq : α → α → Bool) (g : Graph α) : Prop :=
  ∀ v w, ReachesEntry g v → ReachesEntry g w → v ≠ w →
    ∀ a b, dataOf g v = some a → dataOf g w = some b → eq a b = false

/-- The graphs reachable from `create_graph` by any sequence of insert and
delete calls (failed calls leave the graph unchanged, so they are covered
as well). -/
inductive ReachableState (eq : α → α → Bool) : Graph α → Prop where
  | init : ReachableState eq (create_graph α)
  | add (g : Graph α) (d : α) (adj : List α) : ReachableState eq g →
      ReachableState eq (add_vertex_to_graph eq g d adj).2
  | del (g : Graph α) (d : α) : ReachableState eq g →
      ReachableState eq (delete_from_graph eq g d).2

/-- Bounded reachability check: `t` is reachable from `s` in at most `n`
adjacency steps. -/
def reachInB (g : Graph α) : Nat → Nat → Nat → Bool
  | 0, s, t => s == t
  | n + 1, s, t => reachInB g n s t ||
      ((List.range g.heap.length).any fun u =>
        reachInB g n s u && (adjOf g u).contains t)

/-- Adjacency distance: `t` is at distance `n` from `s` when it is reachable
in `n` steps but not fewer. -/
def IsDist (g : Graph α) (s t n : Nat) : Prop :=
  reachInB g n s t = true ∧ ∀ m, m < n → reachInB g m s t = false

/-- Payload equality used by the demonstration scenarios (`string_is_same`
specialised to the numbered city payloads: 0 = Palo Alto, 1 = Mountain View,
2 = Sunnyvale). -/
def eqN : Nat → Nat → Bool := Nat.beq

/-- Scenario graph after inserting Palo Alto (payload 0) with no neighbours. -/
def gPA : Graph Nat := (add_vertex_to_graph eqN (create_graph Nat) 0 []).2

/-- Scenario graph after also inserting Mountain View (payload 1) with
neighbour list [Palo Alto]. -/
def gPAMV : Graph Nat := (add_vertex_to_graph eqN gPA 1 [0]).2

/-- Scenario graph after also inserting Sunnyvale (payload 2) with neighbour
list [Palo Alto, Mountain View]. -/
def gScenario : Graph Nat := (add_vertex_to_graph eqN gPAMV 2 [0, 1]).2

/-- Two-vertex graph in which payload 1 was inserted with an empty neighbour
list into a non-empty graph, so its vertex is unreachable from the entry. -/
def gIsolated : Graph Nat := (add_vertex_to_graph eqN gPA 1 []).2

/-- Executable check that payload `d` matches no allocated vertex at all. -/
def noMatchB (eq : α → α → Bool) (d : α) (g : Graph α) : Bool :=
  g.heap.all fun o =>
    match o with
    | some v => !(eq d v.data)
    | none => true

/-! ### Basic heap-access lemmas -/

/-- Equation lemma: pass 1 stops as soon as `pop` returned `NULL`. -/
theorem pass1_none (push : List Nat → Nat → List Nat) (eqd : α → Bool)
    (fuel : Nat) (g : Graph α) (fr : List Nat) :
    pass1 push eqd fuel g none fr = (g, [], none) := by
  cases fuel <;> rfl

/-- Equation lemma: pass 2 stops as soon as `pop` returned `NULL`. -/
theorem pass2_none (push : List Nat → Nat → List Nat) (eqd : α → Bool)
    (fuel : Nat) (g : Graph α) (fr : List Nat) :
    pass2 push eqd fuel g none fr = (g, [], none) := by
  cases fuel <;> rfl

/-- Equation lemma: pass 1 out of fuel (never reached from `graphFuel`). -/
theorem pass1_zero (push : List Nat → Nat → List Nat) (eqd : α → Bool)
    (g : Graph α) (c : Nat) (fr : List Nat) :
    pass1 push eqd 0 g (some c) fr = (g, [], none) := rfl

/-- Equation lemma: pass 2 out of fuel (never reached from `graphFuel`). -/
theorem pass2_zero (push : List Nat → Nat → List Nat) (eqd : α → Bool)
    (g : Graph α) (c : Nat) (fr : List Nat) :
    pass2 push eqd 0 g (some c) fr = (g, [], none) := rfl

theorem getV_eq_none_of_le (g : Graph α) {i : Nat} (h : g.heap.length ≤ i) :
    getV g i = none := by
  simp [getV, List.getElem?_eq_none_iff.mpr h]

theorem lt_of_getV_eq_some {g : Graph α} {i : Nat} {v : Vertex α}
    (h : getV g i = some v) : i < g.heap.length := by
  by_contra hn
  rw [getV_eq_none_of_le g (Nat.le_of_not_lt hn)] at h
  exact Option.noConfusion h

theorem heap_get?_eq (g : Graph α) (i : Nat) :
    g.heap.get? i = if i < g.heap.length then some (getV g i) else none := by
  by_cases h : i < g.heap.length
  · have := List.get?_eq_get (l := g.heap) h
    simp [h, getV, this]
  · simp [h, List.getElem?_eq_none_iff.mpr (Nat.le_of_not_lt h)]

theorem length_setV (g : Graph α) (i : Nat) (v : Vertex α) :
    (setV g i v).heap.length = g.heap.length := by
  simp [setV]

theorem vertex_setV (g : Graph α) (i : Nat) (v : Vertex α) :
    (setV g i v).vertex = g.vertex := rfl

theorem getV_setV_self {g : Graph α} {i : Nat} (h : i < g.heap.length)
    (v : Vertex α) : getV (setV g i v) i = some v := by
  simp [setV, getV, List.getElem?_set_eq h]

theorem getV_setV_ne (g : Graph α) {i j : Nat} (v : Vertex α) (h : i ≠ j) :
    getV (setV g i v) j = getV g j := by
  simp [setV, getV, List.getElem?_set_ne h]

theorem length_freeV (g : Graph α) (i : Nat) :
    (freeV g i).heap.length = g.heap.length := by
  simp [freeV]

theorem vertex_freeV (g : Graph α) (i : Nat) :
    (freeV g i).vertex = g.vertex := rfl

theorem getV_freeV_self (g : Graph α) (i : Nat) :
    getV (freeV g i) i = none := by
  by_cases h : i < g.heap.length
  · simp [freeV, getV, List.getElem?_set_eq h]
  · have : (freeV g i).heap.length ≤ i := by
      rw [length_freeV]; exact Nat.le_of_not_lt h
    exact getV_eq_none_of_le _ this

theorem getV_freeV_ne (g : Graph α) {i j : Nat} (h : i ≠ j) :
    getV (freeV g i) j = getV g j := by
  simp [freeV, getV, List.getElem?_set_ne h]

/-! ### How the flag updates act on the heap -/

theorem length_mark_visited (g : Graph α) (k : Nat) :
    (mark_visited g k).heap.length = g.heap.length := by
  unfold mark_visited
  cases h : getV g k <;> simp [length_setV]

theorem vertex_mark_visited (g : Graph α) (k : Nat) :
    (mark_visited g k).vertex = g.vertex := by
  unfold mark_visited
  cases h : getV g k <;> simp [vertex_setV]

theorem length_mark_not_visited (g : Graph α) (k : Nat) :
    (mark_not_visited g k).heap.length = g.heap.length := by
  unfold mark_not_visited
  cases h : getV g k <;> simp [length_setV]

theorem vertex_mark_not_visited (g : Graph α) (k : Nat) :
    (mark_not_visited g k).vertex = g.vertex := by
  unfold mark_not_visited
  cases h : getV g k <;> simp [vertex_setV]

theorem adjOf_mark_visited (g : Graph α) (k i : Nat) :
    adjOf (mark_visited g k) i = adjOf g i := by
  unfold mark_visited
  cases h : getV g k with
  | none => rfl
  | some v =>
    by_cases hik : k = i
    · subst hik
      simp [adjOf, getV_setV_self (lt_of_getV_eq_some h), h]
    · simp [adjOf, getV_setV_ne _ _ hik]

theorem dataOf_mark_visited (g : Graph α) (k i : Nat) :
    dataOf (mark_visited g k) i = dataOf g i := by
  unfold mark_visited
  cases h : getV g k with
  | none => rfl
  | some v =>
    by_cases hik : k = i
    · subst hik
      simp [dataOf, getV_setV_self (lt_of_getV_eq_some h), h]
    · simp [dataOf, getV_setV_ne _ _ hik]

theorem adjOf_mark_not_visited (g : Graph α) (k i : Nat) :
    adjOf (mark_not_visited g k) i = adjOf g i := by
  unfold mark_not_visited
  cases h : getV g k with
  | none => rfl
  | some v =>
    by_cases hik : k = i
    · subst hik
      simp [adjOf, getV_setV_self (lt_of_getV_eq_some h), h]
    · simp [adjOf, getV_setV_ne _ _ hik]

theorem dataOf_mark_not_visited (g : Graph α) (k i : Nat) :
    dataOf (mark_not_visited g k) i = dataOf g i := by
  unfold mark_not_visited
  cases h : getV g k with
  | none => rfl
  | some v =>
    by_cases hik : k = i
    · subst hik
      simp [dataOf, getV_setV_self (lt_of_getV_eq_some h), h]
    · simp [dataOf, getV_setV_ne _ _ hik]

theorem is_visited_mark_visited (g : Graph α) (k i : Nat) :
    is_visited (mark_visited g k) i =
      (is_visited g i || (decide (i = k) && (getV g k).isSome)) := by
  unfold mark_visited
  cases h : getV g k with
  | none => simp [is_visited]
  | some v =>
    by_cases hik : i = k
    · subst hik
      simp [is_visited, getV_setV_self (lt_of_getV_eq_some h), h]
    · simp [is_visited, getV_setV_ne _ _ (Ne.symm hik), hik]

theorem is_visited_mark_not_visited (g : Graph α) (k i : Nat) :
    is_visited (mark_not_visited g k) i =
      (is_visited g i && !(decide (i = k))) := by
  unfold mark_not_visited
  cases h : getV g k with
  | none =>
    by_cases hik : i = k
    · subst hik; simp [is_visited, h]
    · simp [is_visited, hik]
  | some v =>
    by_cases hik : i = k
    · subst hik
      simp [is_visited, getV_setV_self (lt_of_getV_eq_some h), h]
    · simp [is_visited, getV_setV_ne _ _ (Ne.symm hik), hik]

theorem is_visited_mark_visited_of_ne (g : Graph α) {k i : Nat} (h : i ≠ k) :
    is_visited (mark_visited g k) i = is_visited g i := by
  simp [is_visited_mark_visited, h]

theorem is_visited_mark_not_visited_of_ne (g : Graph α) {k i : Nat}
    (h : i ≠ k) : is_visited (mark_not_visited g k) i = is_visited g i := by
  simp [is_visited_mark_not_visited, h]

/-! ### Structure preservation: the traversal passes change only flags -/



theorem StructEq.refl (g : Graph α) : StructEq g g :=
  ⟨rfl, rfl, fun _ => rfl, fun _ => rfl⟩

theorem StructEq.trans {g h k : Graph α} (h1 : StructEq g h)
    (h2 : StructEq h k) : StructEq g k :=
  ⟨h1.1.trans h2.1, h1.2.1.trans h2.2.1,
    fun i => (h1.2.2.1 i).trans (h2.2.2.1 i),
    fun i => (h1.2.2.2 i).trans (h2.2.2.2 i)⟩

theorem StructEq.symm {g h : Graph α} (h1 : StructEq g h) : StructEq h g :=
  ⟨h1.1.symm, h1.2.1.symm, fun i => (h1.2.2.1 i).symm,
    fun i => (h1.2.2.2 i).symm⟩

theorem structEq_mark_visited (g : Graph α) (k : Nat) :
    StructEq g (mark_visited g k) :=
  ⟨(length_mark_visited g k).symm, (vertex_mark_visited g k).symm,
    fun i => (adjOf_mark_visited g k i).symm,
    fun i => (dataOf_mark_visited g k i).symm⟩

theorem structEq_mark_not_visited (g : Graph α) (k : Nat) :
    StructEq g (mark_not_visited g k) :=
  ⟨(length_mark_not_visited g k).symm, (vertex_mark_not_visited g k).symm,
    fun i => (adjOf_mark_not_visited g k i).symm,
    fun i => (dataOf_mark_not_visited g k i).symm⟩

theorem structEq_discover (push : List Nat → Nat → List Nat) :
    ∀ (l : List Nat) (g : Graph α) (fr : List Nat),
      StructEq g (discover push g fr l).1
  | [], g, fr => StructEq.refl g
  | j :: rest, g, fr => by
    unfold discover
    by_cases h : is_visited g j
    · simpa [h] using structEq_discover push rest g fr
    · simpa [h] using
        (structEq_mark_visited g j).trans
          (structEq_discover push rest (mark_visited g j) (push fr j))

theorem structEq_undiscover (push : List Nat → Nat → List Nat) :
    ∀ (l : List Nat) (g : Graph α) (fr : List Nat),
      StructEq g (undiscover push g fr l).1
  | [], g, fr => StructEq.refl g
  | j :: rest, g, fr => by
    unfold undiscover
    by_cases h : is_visited g j
    · simpa [h] using
        (structEq_mark_not_visited g j).trans
          (structEq_undiscover push rest (mark_not_visited g j) (push fr j))
    · simpa [h] using structEq_undiscover push rest g fr

theorem structEq_pass1 (push : List Nat → Nat → List Nat) (eqd : α → Bool) :
    ∀ (fuel : Nat) (g : Graph α) (cur : Option Nat) (fr : List Nat),
      StructEq g (pass1 push eqd fuel g cur fr).1
  | fuel, g, none, fr => by rw [pass1_none]; exact StructEq.refl g
  | 0, g, some _, _ => StructEq.refl g
  | fuel + 1, g, some i, fr => by
    unfold pass1
    by_cases h : stopCheck eqd (mark_visited g i) i
    · simpa [h] using structEq_mark_visited g i
    · simp only [h, if_neg, Bool.false_eq_true, not_false_iff]
      exact (structEq_mark_visited g i).trans
        ((structEq_discover push _ _ _).trans (structEq_pass1 push eqd fuel _ _ _))

theorem structEq_pass2 (push : List Nat → Nat → List Nat) (eqd : α → Bool) :
    ∀ (fuel : Nat) (g : Graph α) (cur : Option Nat) (fr : List Nat),
      StructEq g (pass2 push eqd fuel g cur fr).1
  | fuel, g, none, fr => by rw [pass2_none]; exact StructEq.refl g
  | 0, g, some _, _ => StructEq.refl g
  | fuel + 1, g, some i, fr => by
    unfold pass2
    by_cases h : stopCheck eqd (mark_not_visited g i) i
    · simpa [h] using structEq_mark_not_visited g i
    · simp only [h, if_neg, Bool.false_eq_true, not_false_iff]
      exact (structEq_mark_not_visited g i).trans
        ((structEq_undiscover push _ _ _).trans (structEq_pass2 push eqd fuel _ _ _))

theorem StructEq.isSome_getV {g h : Graph α} (hs : StructEq g h) (i : Nat) :
    (getV g i).isSome = (getV h i).isSome := by
  have := hs.2.2.2 i
  simpa [dataOf, Option.isSome_map'] using congrArg Option.isSome this

theorem is_visited_of_not_live {g : Graph α} {i : Nat}
    (h : (getV g i).isSome = false) : is_visited g i = false := by
  cases hg : getV g i with
  | none => simp [is_visited, hg]
  | some v => rw [hg] at h; exact Bool.noConfusion h

/-! ### Monotonicity of the marking pass -/

theorem is_visited_mark_visited_mono {g : Graph α} {i : Nat} (k : Nat)
    (h : is_visited g i = true) : is_visited (mark_visited g k) i = true := by
  rw [is_visited_mark_visited, h, Bool.true_or]

theorem is_visited_discover_mono (push : List Nat → Nat → List Nat) :
    ∀ (l : List Nat) (g : Graph α) (fr : List Nat) (i : Nat),
      is_visited g i = true → is_visited (discover push g fr l).1 i = true
  | [], g, fr, i, h => h
  | j :: rest, g, fr, i, h => by
    unfold discover
    by_cases hj : is_visited g j
    · simpa [hj] using is_visited_discover_mono push rest g fr i h
    · simpa [hj] using
        is_visited_discover_mono push rest (mark_visited g j) (push fr j) i
          (is_visited_mark_visited_mono j h)

theorem is_visited_pass1_mono (push : List Nat → Nat → List Nat)
    (eqd : α → Bool) :
    ∀ (fuel : Nat) (g : Graph α) (cur : Option Nat) (fr : List Nat) (i : Nat),
      is_visited g i = true →
      is_visited (pass1 push eqd fuel g cur fr).1 i = true
  | fuel, g, none, fr, i, h => by rw [pass1_none]; exact h
  | 0, g, some _, _, i, h => h
  | fuel + 1, g, some c, fr, i, h => by
    unfold pass1
    by_cases hs : stopCheck eqd (mark_visited g c) c
    · simpa [hs] using is_visited_mark_visited_mono c h
    · simpa [hs] using
        is_visited_pass1_mono push eqd fuel _ _ _ i
          (is_visited_discover_mono push _ _ _ i
            (is_visited_mark_visited_mono c h))

/-- Frontier elements produced by `discover` come from the initial frontier
or the scanned adjacency list (for any push discipline that only adds the
pushed element). -/
theorem mem_discover_frontier (push : List Nat → Nat → List Nat)
    (hpush : ∀ (fr : List Nat) (j x : Nat), x ∈ push fr j → x ∈ fr ∨ x = j) :
    ∀ (l : List Nat) (g : Graph α) (fr : List Nat) (x : Nat),
      x ∈ (discover push g fr l).2 → x ∈ fr ∨ x ∈ l
  | [], g, fr, x, h => Or.inl h
  | j :: rest, g, fr, x, h => by
    unfold discover at h
    by_cases hj : is_visited g j
    · simp only [hj, if_pos] at h
      rcases mem_discover_frontier push hpush rest g fr x h with h1 | h1
      · exact Or.inl h1
      · exact Or.inr (List.mem_cons_of_mem _ h1)
    · simp only [hj, Bool.false_eq_true, if_neg, not_false_iff] at h
      rcases mem_discover_frontier push hpush rest _ _ x h with h1 | h1
      · rcases hpush fr j x h1 with h2 | h2
        · exact Or.inl h2
        · exact Or.inr (h2 ▸ List.mem_cons_self j rest)
      · exact Or.inr (List.mem_cons_of_mem _ h1)

theorem push_to_queue_mem {fr : List Nat} {j x : Nat}
    (h : x ∈ push_to_queue fr j) : x ∈ fr ∨ x = j := by
  simpa [push_to_queue] using h

theorem push_to_stack_mem {fr : List Nat} {j x : Nat}
    (h : x ∈ push_to_stack fr j) : x ∈ fr ∨ x = j := by
  have := List.mem_cons.mp h
  tauto

/-! ### Reachability along a fixed adjacency structure -/









/-! ### Lockstep simulation of the cleanup pass against the work pass

The cleanup pass unmarks exactly what the work pass marked: pushing a
neighbour in pass 1 required it to be unvisited (and marked it), pushing in
pass 2 requires it to be visited (and unmarks it), so starting pass 2 from
the work pass's final flags makes both passes walk the same frontier.  The
flag relation threaded through the simulation is
`flagsB = (flagsP1 and not flagsA) or m`, where `flagsA` are the work pass's
flags at the matching moment, `flagsP1` its final flags, and `m` the initial
flags of vertices the run never touches (unreachable ones). -/

theorem lockstep_inner (push : List Nat → Nat → List Nat) (P1 : Graph α)
    (m : Nat → Bool) :
    ∀ (l : List Nat) (gA gB : Graph α) (fr : List Nat),
      (∀ i, is_visited gB i =
        ((is_visited P1 i && !(is_visited gA i)) || m i)) →
      (∀ j ∈ l, m j = false) →
      (∀ j ∈ l, (getV gA j).isSome = true) →
      (∀ i, is_visited (discover push gA fr l).1 i = true →
        is_visited P1 i = true) →
      (undiscover push gB fr l).2 = (discover push gA fr l).2 ∧
      (∀ i, is_visited (undiscover push gB fr l).1 i =
        ((is_visited P1 i && !(is_visited (discover push gA fr l).1 i)) || m i))
  | [], gA, gB, fr, hrel, _, _, _ => ⟨rfl, hrel⟩
  | j :: rest, gA, gB, fr, hrel, hm, hlive, hmono => by
    have hmj : m j = false := hm j (List.mem_cons_self j rest)
    by_cases ha : is_visited gA j = true
    · have hbj : is_visited gB j = false := by
        rw [hrel j, ha]; simp [hmj]
      have hrec :=
        lockstep_inner push P1 m rest gA gB fr hrel
          (fun x hx => hm x (List.mem_cons_of_mem _ hx))
          (fun x hx => hlive x (List.mem_cons_of_mem _ hx))
          (by
            intro i hi
            apply hmono i
            simpa [discover, ha] using hi)
      constructor
      · simpa [discover, undiscover, ha, hbj] using hrec.1
      · simpa [discover, undiscover, ha, hbj] using hrec.2
    · have ha' : is_visited gA j = false := by
        cases h : is_visited gA j
        · rfl
        · exact absurd h ha
      have hlivej : (getV gA j).isSome = true := hlive j (List.mem_cons_self j rest)
      have hmarked : is_visited (mark_visited gA j) j = true := by
        rw [is_visited_mark_visited]
        simp [hlivej]
      have hP1j : is_visited P1 j = true := by
        apply hmono j
        have h1 : is_visited (discover push (mark_visited gA j) (push fr j) rest).1 j = true :=
          is_visited_discover_mono push rest _ _ j hmarked
        simpa [discover, ha'] using h1
      have hbj : is_visited gB j = true := by
        rw [hrel j, ha', hP1j]
        simp
      have hrel' : ∀ i, is_visited (mark_not_visited gB j) i =
          ((is_visited P1 i && !(is_visited (mark_visited gA j) i)) || m i) := by
        intro i
        by_cases hij : i = j
        · subst hij
          rw [is_visited_mark_not_visited, is_visited_mark_visited]
          simp [hlivej, hmj]
        · rw [is_visited_mark_not_visited_of_ne gB hij,
            is_visited_mark_visited_of_ne gA hij, hrel i]
      have hrec :=
        lockstep_inner push P1 m rest (mark_visited gA j)
          (mark_not_visited gB j) (push fr j) hrel'
          (fun x hx => hm x (List.mem_cons_of_mem _ hx))
          (fun x hx => by
            rw [← (structEq_mark_visited gA j).isSome_getV x]
            exact hlive x (List.mem_cons_of_mem _ hx))
          (by
            intro i hi
            apply hmono i
            simpa [discover, ha'] using hi)
      constructor
      · simpa [discover, undiscover, ha', hbj] using hrec.1
      · simpa [discover, undiscover, ha', hbj] using hrec.2

/-- Outer lockstep simulation: running the cleanup loop from the work loop's
final flags, with the same current vertex and frontier, restores every flag
to its pre-run value `m` (`m` must be false on everything reachable from the
current vertex or frontier, which holds when the territory was clean before
the work pass). -/
theorem lockstep_pass (push : List Nat → Nat → List Nat)
    (hpush : ∀ (fr : List Nat) (j x : Nat), x ∈ push fr j → x ∈ fr ∨ x = j)
    (eqd : α → Bool) (adjF : Nat → List Nat) (liveF : Nat → Bool)
    (m : Nat → Bool) :
    ∀ (fuel : Nat) (gA gB : Graph α) (cur : Option Nat) (fr : List Nat),
      (∀ i, adjOf gA i = adjF i) →
      (∀ i, (getV gA i).isSome = liveF i) →
      (∀ i, adjOf gB i = adjF i) →
      (∀ i, dataOf gA i = dataOf gB i) →
      (∀ i, is_visited gB i =
        ((is_visited (pass1 push eqd fuel gA cur fr).1 i &&
          !(is_visited gA i)) || m i)) →
      (∀ x, (∃ r, (r ∈ cur.toList ++ fr) ∧ Reaches adjF r x) → m x = false) →
      (∀ x, (∃ r, (r ∈ cur.toList ++ fr) ∧ Reaches adjF r x) →
        ∀ j ∈ adjF x, liveF j = true) →
      ∀ i, is_visited (pass2 push eqd fuel gB cur fr).1 i = m i
  | fuel, gA, gB, none, fr, _, _, _, _, hrel, _, _ => by
    rw [pass2_none]
    intro i
    have := hrel i
    rw [pass1_none] at this
    rw [this]
    cases h : is_visited gA i <;> simp
  | 0, gA, gB, some c, fr, _, _, _, _, hrel, _, _ => by
    intro i
    have := hrel i
    rw [pass1_zero] at this
    rw [pass2_zero]
    show is_visited gB i = m i
    rw [this]
    cases h : is_visited gA i <;> simp
  | fuel + 1, gA, gB, some c, fr, hadjA, hliveA, hadjB, hdataAB, hrel, hm, hcl => by
    have hmc : m c = false :=
      hm c ⟨c, List.mem_cons_self _ _, Relation.ReflTransGen.refl⟩
    have hstopAB : stopCheck eqd (mark_not_visited gB c) c =
        stopCheck eqd (mark_visited gA c) c := by
      simp [stopCheck, dataOf_mark_visited, dataOf_mark_not_visited, hdataAB c]
    by_cases hstop : stopCheck eqd (mark_visited gA c) c = true
    · -- both passes break at `c`
      have hp1 : (pass1 push eqd (fuel + 1) gA (some c) fr).1 = mark_visited gA c := by
        simp [pass1, hstop]
      have hp2 : (pass2 push eqd (fuel + 1) gB (some c) fr).1 =
          mark_not_visited gB c := by
        simp [pass2, hstopAB, hstop]
      rw [hp2]
      intro i
      rw [is_visited_mark_not_visited]
      by_cases hic : i = c
      · subst hic
        simp [hmc]
      · have := hrel i
        rw [hp1, is_visited_mark_visited_of_ne gA hic] at this
        rw [this]
        simp only [hic, decide_False, Bool.not_false, Bool.and_true]
        cases h : is_visited gA i <;> simp
    · -- both passes continue past `c`
      have hstop' : stopCheck eqd (mark_visited gA c) c = false :=
        Bool.eq_false_iff.mpr hstop
      have hstopB : stopCheck eqd (mark_not_visited gB c) c = false :=
        hstopAB.trans hstop'
      have hadjc : adjOf (mark_visited gA c) c = adjF c := by
        rw [adjOf_mark_visited, hadjA]
      have hadjcB : adjOf (mark_not_visited gB c) c = adjF c := by
        rw [adjOf_mark_not_visited, hadjB]
      -- abbreviations for the one-step results
      have hp1 : (pass1 push eqd (fuel + 1) gA (some c) fr).1 =
          (pass1 push eqd fuel
            (discover push (mark_visited gA c) fr (adjF c)).1
            (pop_front (discover push (mark_visited gA c) fr (adjF c)).2).1
            (pop_front (discover push (mark_visited gA c) fr (adjF c)).2).2).1 := by
        simp [pass1, hstop', hadjc]
      have hp2 : (pass2 push eqd (fuel + 1) gB (some c) fr).1 =
          (pass2 push eqd fuel
            (undiscover push (mark_not_visited gB c) fr (adjF c)).1
            (pop_front (undiscover push (mark_not_visited gB c) fr (adjF c)).2).1
            (pop_front (undiscover push (mark_not_visited gB c) fr (adjF c)).2).2).1 := by
        simp [pass2, hstopB, hadjcB]
      set g1A := mark_visited gA c with hg1A
      set g1B := mark_not_visited gB c with hg1B
      set dA := discover push g1A fr (adjF c) with hdA
      set dB := undiscover push g1B fr (adjF c) with hdB
      set p := pop_front dA.2 with hp
      set P1 := (pass1 push eqd fuel dA.1 p.1 p.2).1 with hP1
      -- the inner lockstep over the adjacency list of `c`
      have hrel1 : ∀ i, is_visited g1B i =
          ((is_visited P1 i && !(is_visited g1A i)) || m i) := by
        intro i
        by_cases hic : i = c
        · rw [hic]
          rw [hg1B, is_visited_mark_not_visited]
          by_cases hlc : (getV gA c).isSome = true
          · have : is_visited g1A c = true := by
              rw [hg1A, is_visited_mark_visited]
              simp [hlc]
            rw [this]
            simp [hmc]
          · have hlc' : (getV gA c).isSome = false := Bool.eq_false_iff.mpr hlc
            have hdeadA : is_visited g1A c = false := by
              apply is_visited_of_not_live
              rw [← (structEq_mark_visited gA c).isSome_getV c]
              exact hlc'
            have hdeadP1 : is_visited P1 c = false := by
              apply is_visited_of_not_live
              rw [hP1, ← (structEq_pass1 push eqd fuel dA.1 p.1 p.2).isSome_getV c,
                ← (structEq_discover push (adjF c) g1A fr).isSome_getV c,
                ← (structEq_mark_visited gA c).isSome_getV c]
              exact hlc'
            rw [hdeadA, hdeadP1]
            simp [hmc]
        · rw [hg1B, is_visited_mark_not_visited_of_ne gB hic,
            hg1A, is_visited_mark_visited_of_ne gA hic]
          have := hrel i
          rw [hp1] at this
          exact this
      have hm1 : ∀ j ∈ adjF c, m j = false := by
        intro j hj
        exact hm j ⟨c, List.mem_cons_self _ _, Relation.ReflTransGen.single hj⟩
      have hlive1 : ∀ j ∈ adjF c, (getV g1A j).isSome = true := by
        intro j hj
        rw [hg1A, ← (structEq_mark_visited gA c).isSome_getV j] at *
        rw [hliveA j]
        exact hcl c ⟨c, List.mem_cons_self _ _, Relation.ReflTransGen.refl⟩ j hj
      have hmono1 : ∀ i, is_visited dA.1 i = true → is_visited P1 i = true := by
        intro i hi
        rw [hP1]
        exact is_visited_pass1_mono push eqd fuel dA.1 p.1 p.2 i hi
      obtain ⟨hfrEq, hrelPost⟩ :=
        lockstep_inner push P1 m (adjF c) g1A g1B fr hrel1 hm1 hlive1 hmono1
      -- hypotheses for the recursive call
      have hroots : ∀ r', r' ∈ p.1.toList ++ p.2 →
          ∃ r, (r ∈ (some c).toList ++ fr) ∧ Reaches adjF r r' := by
        intro r' hr'
        have hin : r' ∈ dA.2 := by
          rcases hq : dA.2 with _ | ⟨x, xs⟩
          · rw [hp, hq] at hr'
            simp [pop_front] at hr'
          · rw [hp, hq] at hr'
            simp [pop_front] at hr'
            rcases hr' with h1 | h1
            · exact h1 ▸ List.mem_cons_self _ _
            · exact List.mem_cons_of_mem _ h1
        rcases mem_discover_frontier push hpush (adjF c) g1A fr r' hin with h1 | h1
        · exact ⟨r', List.mem_cons_of_mem _ h1, Relation.ReflTransGen.refl⟩
        · exact ⟨c, List.mem_cons_self _ _, Relation.ReflTransGen.single h1⟩
      have hrec :=
        lockstep_pass push hpush eqd adjF liveF m fuel dA.1 dB.1 p.1 p.2
          (fun i => by
            rw [← (structEq_discover push (adjF c) g1A fr).2.2.1 i, hg1A,
              adjOf_mark_visited, hadjA])
          (fun i => by
            rw [← (structEq_discover push (adjF c) g1A fr).isSome_getV i, hg1A,
              ← (structEq_mark_visited gA c).isSome_getV i, hliveA])
          (fun i => by
            rw [← (structEq_undiscover push (adjF c) g1B fr).2.2.1 i, hg1B,
              adjOf_mark_not_visited, hadjB])
          (fun i => by
            rw [← (structEq_discover push (adjF c) g1A fr).2.2.2 i,
              ← (structEq_undiscover push (adjF c) g1B fr).2.2.2 i, hg1A, hg1B,
              dataOf_mark_visited, dataOf_mark_not_visited]
            exact hdataAB i)
          (fun i => hrelPost i)
          (fun x hx => by
            rcases hx with ⟨r', hr', hre⟩
            rcases hroots r' hr' with ⟨r, hr, hre'⟩
            exact hm x ⟨r, hr, hre'.trans hre⟩)
          (fun x hx => by
            rcases hx with ⟨r', hr', hre⟩
            rcases hroots r' hr' with ⟨r, hr, hre'⟩
            exact hcl x ⟨r, hr, hre'.trans hre⟩)
      intro i
      rw [hp2]
      have hfr' : pop_front dB.2 = p := by rw [hp, hfrEq]
      rw [show (pop_front dB.2).1 = p.1 from by rw [hfr'],
        show (pop_front dB.2).2 = p.2 from by rw [hfr']]
      exact hrec i

/-- Graph extensionality: equal structure and equal flags give equal graphs. -/
theorem Graph.eq_of_structEq_of_flags {g h : Graph α} (hs : StructEq g h)
    (hf : ∀ i, is_visited g i = is_visited h i) : g = h := by
  obtain ⟨hlen, hvert, hadj, hdata⟩ := hs
  have hget : ∀ i, getV g i = getV h i := by
    intro i
    cases hgv : getV g i with
    | none =>
      cases hhv : getV h i with
      | none => rfl
      | some w =>
        have := hdata i
        simp [dataOf, hgv, hhv] at this
    | some v =>
      cases hhv : getV h i with
      | none =>
        have := hdata i
        simp [dataOf, hgv, hhv] at this
      | some w =>
        have ha := hadj i
        have hd := hdata i
        have hv := hf i
        simp [adjOf, dataOf, is_visited, hgv, hhv] at ha hd hv
        cases v; cases w
        simp_all
  cases g with
  | mk gh gv =>
    cases h with
    | mk hh hv =>
      simp only [Graph.mk.injEq]
      constructor
      · apply List.ext_get?
        intro n
        have h1 := heap_get?_eq ⟨gh, gv⟩ n
        have h2 := heap_get?_eq ⟨hh, hv⟩ n
        simp only at h1 h2 hlen
        rw [h1, h2, hlen, hget n]
      · exact hvert

/-- The cleanup pass exactly undoes the work pass: on a graph whose reachable
vertices are all unmarked (and whose reachable adjacency lists hold only live
references), running pass 1 and then pass 2 as the library does returns the
very same graph. -/
theorem pass2_pass1_restore (push : List Nat → Nat → List Nat)
    (hpush : ∀ (fr : List Nat) (j x : Nat), x ∈ push fr j → x ∈ fr ∨ x = j)
    (eqd : α → Bool) (g : Graph α) (hclean : CleanReach g)
    (hclosed : ClosedReach g) :
    (pass2 push eqd (graphFuel (pass1 push eqd (graphFuel g) g g.vertex []).1)
      (pass1 push eqd (graphFuel g) g g.vertex []).1
      (pass1 push eqd (graphFuel g) g g.vertex []).1.vertex []).1 = g := by
  set P1 := (pass1 push eqd (graphFuel g) g g.vertex []).1 with hP1
  have hse : StructEq g P1 := structEq_pass1 push eqd (graphFuel g) g g.vertex []
  have hlen : graphFuel P1 = graphFuel g := by
    unfold graphFuel
    rw [hse.1]
  have hvert : P1.vertex = g.vertex := hse.2.1.symm
  rw [hlen, hvert]
  have hflags := lockstep_pass push hpush eqd (adjOf g)
    (fun i => (getV g i).isSome) (fun i => is_visited g i)
    (graphFuel g) g P1 g.vertex []
    (fun _ => rfl) (fun _ => rfl)
    (fun i => (hse.2.2.1 i).symm)
    (fun i => hse.2.2.2 i)
    (by
      intro i
      cases h : is_visited g i
      · simp [h]
      · simp [h, is_visited_pass1_mono push eqd (graphFuel g) g g.vertex [] i h])
    (by
      intro x hx
      rcases hx with ⟨r, hr, hre⟩
      simp only [List.append_nil] at hr
      apply hclean
      exact ⟨r, by cases he : g.vertex <;> simp [he] at hr <;> simp [he, hr], hre⟩)
    (by
      intro x hx
      rcases hx with ⟨r, hr, hre⟩
      simp only [List.append_nil] at hr
      apply hclosed
      exact ⟨r, by cases he : g.vertex <;> simp [he] at hr <;> simp [he, hr], hre⟩)
  have hs2 : StructEq P1 (pass2 push eqd (graphFuel g) P1 g.vertex []).1 :=
    structEq_pass2 push eqd (graphFuel g) P1 g.vertex []
  exact Graph.eq_of_structEq_of_flags ((hse.trans hs2).symm)
    (fun i => hflags i)

/-- On a clean well-formed graph, `breadth_first_search` computes its result
with the marking pass and hands back the graph unchanged. -/
theorem breadth_first_search_eq (eq : α → α → Bool) (g : Graph α) (d : α)
    (hclean : CleanReach g) (hclosed : ClosedReach g) :
    breadth_first_search eq g d =
      ((pass1 push_to_queue (eq d) (graphFuel g) g g.vertex []).2.2, g) := by
  unfold breadth_first_search
  rw [Prod.mk.injEq]
  exact ⟨rfl, pass2_pass1_restore push_to_queue
    (fun fr j x h => push_to_queue_mem h) (eq d) g hclean hclosed⟩

/-- On a clean well-formed graph, `depth_first_search` computes its result
with the marking pass and hands back the graph unchanged. -/
theorem depth_first_search_eq (eq : α → α → Bool) (g : Graph α) (d : α)
    (hclean : CleanReach g) (hclosed : ClosedReach g) :
    depth_first_search eq g d =
      ((pass1 push_to_stack (eq d) (graphFuel g) g g.vertex []).2.2, g) := by
  unfold depth_first_search
  rw [Prod.mk.injEq]
  exact ⟨rfl, pass2_pass1_restore push_to_stack
    (fun fr j x h => push_to_stack_mem h) (eq d) g hclean hclosed⟩

/-- On a clean well-formed graph, `breadth_first_traversal` prints the
processing order of the marking pass and hands back the graph unchanged. -/
theorem breadth_first_traversal_eq (g : Graph α)
    (hclean : CleanReach g) (hclosed : ClosedReach g) :
    breadth_first_traversal g =
      ((pass1 push_to_queue (fun _ => false) (graphFuel g) g g.vertex []).2.1, g) := by
  unfold breadth_first_traversal
  rw [Prod.mk.injEq]
  exact ⟨rfl, pass2_pass1_restore push_to_queue
    (fun fr j x h => push_to_queue_mem h) (fun _ => false) g hclean hclosed⟩

/-- On a clean well-formed graph, `depth_first_traversal` prints the
processing order of the marking pass and hands back the graph unchanged. -/
theorem depth_first_traversal_eq (g : Graph α)
    (hclean : CleanReach g) (hclosed : ClosedReach g) :
    depth_first_traversal g =
      ((pass1 push_to_stack (fun _ => false) (graphFuel g) g g.vertex []).2.1, g) := by
  unfold depth_first_traversal
  rw [Prod.mk.injEq]
  exact ⟨rfl, pass2_pass1_restore push_to_stack
    (fun fr j x h => push_to_stack_mem h) (fun _ => false) g hclean hclosed⟩

/-! ### Fuel accounting: the work pass terminates within `graphFuel` -/



theorem mem_unmarkedF {g : Graph α} {i : Nat} :
    i ∈ unmarkedF g ↔ (getV g i).isSome = true ∧ is_visited g i = false := by
  simp only [unmarkedF, Finset.mem_filter, Finset.mem_range]
  constructor
  · exact fun h => h.2
  · intro h
    refine ⟨?_, h⟩
    rcases Option.isSome_iff_exists.mp h.1 with ⟨v, hv⟩
    exact lt_of_getV_eq_some hv

theorem unmarkedF_mark_visited_subset (g : Graph α) (c : Nat) :
    unmarkedF (mark_visited g c) ⊆ unmarkedF g := by
  intro i hi
  rw [mem_unmarkedF] at hi ⊢
  refine ⟨by rw [(structEq_mark_visited g c).isSome_getV i]; exact hi.1, ?_⟩
  have := hi.2
  rw [is_visited_mark_visited] at this
  exact Bool.eq_false_iff.mpr fun h => by rw [h] at this; exact Bool.noConfusion this

theorem unmarkedF_mark_visited_erase {g : Graph α} {c : Nat}
    (hlive : (getV g c).isSome = true) (hunm : is_visited g c = false) :
    unmarkedF (mark_visited g c) = (unmarkedF g).erase c := by
  ext i
  rw [Finset.mem_erase, mem_unmarkedF, mem_unmarkedF,
    (structEq_mark_visited g c).isSome_getV i, is_visited_mark_visited]
  by_cases hic : i = c
  · subst hic
    simp [hlive]
  · simp [hic]

theorem card_unmarkedF_mark_visited_le (g : Graph α) (c : Nat) :
    (unmarkedF (mark_visited g c)).card ≤ (unmarkedF g).card :=
  Finset.card_le_card (unmarkedF_mark_visited_subset g c)

/-- Discovering an all-live adjacency list never increases the measure. -/
theorem discover_measure (push : List Nat → Nat → List Nat)
    (hpushLen : ∀ (fr : List Nat) (j : Nat), (push fr j).length = fr.length + 1) :
    ∀ (l : List Nat) (g : Graph α) (fr : List Nat),
      (∀ j ∈ l, (getV g j).isSome = true) →
      2 * (unmarkedF (discover push g fr l).1).card +
        (discover push g fr l).2.length ≤
      2 * (unmarkedF g).card + fr.length
  | [], g, fr, _ => le_refl _
  | j :: rest, g, fr, hlive => by
    by_cases hj : is_visited g j = true
    · have := discover_measure push hpushLen rest g fr
        (fun x hx => hlive x (List.mem_cons_of_mem _ hx))
      simpa [discover, hj] using this
    · have hj' : is_visited g j = false := Bool.eq_false_iff.mpr hj
      have hlj : (getV g j).isSome = true := hlive j (List.mem_cons_self _ _)
      have hmem : j ∈ unmarkedF g := mem_unmarkedF.mpr ⟨hlj, hj'⟩
      have hcard : (unmarkedF (mark_visited g j)).card = (unmarkedF g).card - 1 := by
        rw [unmarkedF_mark_visited_erase hlj hj', Finset.card_erase_of_mem hmem]
      have hpos : 1 ≤ (unmarkedF g).card := Finset.card_pos.mpr ⟨j, hmem⟩
      have hrec := discover_measure push hpushLen rest (mark_visited g j) (push fr j)
        (fun x hx => by
          rw [← (structEq_mark_visited g j).isSome_getV x]
          exact hlive x (List.mem_cons_of_mem _ hx))
      have h1 : 2 * (unmarkedF (mark_visited g j)).card + (push fr j).length ≤
          2 * (unmarkedF g).card + fr.length := by
        rw [hcard, hpushLen]
        omega
      have h2 := le_trans hrec h1
      simpa [discover, hj'] using h2

/-- Every element of an all-live scanned list is marked after `discover`. -/
theorem discover_covers (push : List Nat → Nat → List Nat) :
    ∀ (l : List Nat) (g : Graph α) (fr : List Nat),
      (∀ j ∈ l, (getV g j).isSome = true) →
      ∀ j ∈ l, is_visited (discover push g fr l).1 j = true
  | [], _, _, _, j, hj => absurd hj (List.not_mem_nil j)
  | x :: rest, g, fr, hlive, j, hj => by
    by_cases hx : is_visited g x = true
    · rcases List.mem_cons.mp hj with hjx | hjr
      · subst hjx
        simpa [discover, hx] using
          is_visited_discover_mono push rest g fr j hx
      · simpa [discover, hx] using
          discover_covers push rest g fr
            (fun y hy => hlive y (List.mem_cons_of_mem _ hy)) j hjr
    · have hx' : is_visited g x = false := Bool.eq_false_iff.mpr hx
      have hlx : (getV g x).isSome = true := hlive x (List.mem_cons_self _ _)
      have hmarked : is_visited (mark_visited g x) x = true := by
        rw [is_visited_mark_visited]
        simp [hlx]
      rcases List.mem_cons.mp hj with hjx | hjr
      · subst hjx
        simpa [discover, hx'] using
          is_visited_discover_mono push rest (mark_visited g j) (push fr j) j hmarked
      · simpa [discover, hx'] using
          discover_covers push rest (mark_visited g x) (push fr x)
            (fun y hy => by
              rw [← (structEq_mark_visited g x).isSome_getV y]
              exact hlive y (List.mem_cons_of_mem _ hy)) j hjr

/-- Frontier membership is preserved by `discover` (pushing only appends). -/
theorem mem_discover_frontier_of_mem (push : List Nat → Nat → List Nat)
    (hpushMono : ∀ (fr : List Nat) (j x : Nat), x ∈ fr → x ∈ push fr j) :
    ∀ (l : List Nat) (g : Graph α) (fr : List Nat) (x : Nat),
      x ∈ fr → x ∈ (discover push g fr l).2
  | [], _, _, x, hx => hx
  | j :: rest, g, fr, x, hx => by
    by_cases hj : is_visited g j = true
    · simpa [discover, hj] using
        mem_discover_frontier_of_mem push hpushMono rest g fr x hx
    · have hj' : is_visited g j = false := Bool.eq_false_iff.mpr hj
      simpa [discover, hj'] using
        mem_discover_frontier_of_mem push hpushMono rest (mark_visited g j)
          (push fr j) x (hpushMono fr j x hx)

/-- Every vertex marked by `discover` was already marked or is in the
resulting frontier. -/
theorem discover_marks (push : List Nat → Nat → List Nat)
    (hpushMono : ∀ (fr : List Nat) (j x : Nat), x ∈ fr → x ∈ push fr j)
    (hpushSelf : ∀ (fr : List Nat) (j : Nat), j ∈ push fr j) :
    ∀ (l : List Nat) (g : Graph α) (fr : List Nat) (j : Nat),
      is_visited (discover push g fr l).1 j = true →
      is_visited g j = true ∨ j ∈ (discover push g fr l).2
  | [], g, fr, j, h => Or.inl h
  | x :: rest, g, fr, j, h => by
    by_cases hx : is_visited g x = true
    · rw [show (discover push g fr (x :: rest)) = discover push g fr rest from by
        simp [discover, hx]] at h ⊢
      exact discover_marks push hpushMono hpushSelf rest g fr j h
    · have hx' : is_visited g x = false := Bool.eq_false_iff.mpr hx
      rw [show (discover push g fr (x :: rest)) =
          discover push (mark_visited g x) (push fr x) rest from by
        simp [discover, hx']] at h ⊢
      rcases discover_marks push hpushMono hpushSelf rest (mark_visited g x)
          (push fr x) j h with h1 | h1
      · by_cases hjx : j = x
        · subst hjx
          exact Or.inr (mem_discover_frontier_of_mem push hpushMono rest
            (mark_visited g j) (push fr j) j (hpushSelf fr j))
        · rw [is_visited_mark_visited_of_ne g hjx] at h1
          exact Or.inl h1
      · exact Or.inr h1

/-- All frontier elements are marked after `discover` runs on an all-live
list, provided they were marked before. -/
theorem discover_frontier_marked (push : List Nat → Nat → List Nat)
    (hpushMem : ∀ (fr : List Nat) (j x : Nat), x ∈ push fr j ↔ (x ∈ fr ∨ x = j)) :
    ∀ (l : List Nat) (g : Graph α) (fr : List Nat),
      (∀ x ∈ fr, is_visited g x = true) →
      (∀ j ∈ l, (getV g j).isSome = true) →
      ∀ x ∈ (discover push g fr l).2, is_visited (discover push g fr l).1 x = true
  | [], g, fr, hfr, _, x, hx => hfr x hx
  | j :: rest, g, fr, hfr, hlive, x, hx => by
    by_cases hj : is_visited g j = true
    · rw [show (discover push g fr (j :: rest)) = discover push g fr rest from by
        simp [discover, hj]] at hx ⊢
      exact discover_frontier_marked push hpushMem rest g fr hfr
        (fun y hy => hlive y (List.mem_cons_of_mem _ hy)) x hx
    · have hj' : is_visited g j = false := Bool.eq_false_iff.mpr hj
      have hlj : (getV g j).isSome = true := hlive j (List.mem_cons_self _ _)
      rw [show (discover push g fr (j :: rest)) =
          discover push (mark_visited g j) (push fr j) rest from by
        simp [discover, hj']] at hx ⊢
      refine discover_frontier_marked push hpushMem rest (mark_visited g j)
        (push fr j) ?_ ?_ x hx
      · intro y hy
        rcases (hpushMem fr j y).mp hy with h1 | h1
        · exact is_visited_mark_visited_mono j (hfr y h1)
        · subst h1
          rw [is_visited_mark_visited]
          simp [hlj]
      · intro y hy
        rw [← (structEq_mark_visited g j).isSome_getV y]
        exact hlive y (List.mem_cons_of_mem _ hy)

/-- Decomposition of a pop: the popped element and remaining frontier
together are the old frontier. -/
theorem pop_front_decomp (l : List Nat) :
    l = (pop_front l).1.toList ++ (pop_front l).2 := by
  cases l <;> rfl

theorem push_to_queue_iff (fr : List Nat) (j x : Nat) :
    x ∈ push_to_queue fr j ↔ (x ∈ fr ∨ x = j) := by
  simp [push_to_queue]

theorem push_to_stack_iff (fr : List Nat) (j x : Nat) :
    x ∈ push_to_stack fr j ↔ (x ∈ fr ∨ x = j) := by
  simp [push_to_stack, or_comm]

theorem push_to_queue_length (fr : List Nat) (j : Nat) :
    (push_to_queue fr j).length = fr.length + 1 := by
  simp [push_to_queue]

theorem push_to_stack_length (fr : List Nat) (j : Nat) :
    (push_to_stack fr j).length = fr.length + 1 := by
  simp [push_to_stack]

theorem stopCheck_congr {g h : Graph α} (eqd : α → Bool) (i : Nat)
    (hd : dataOf g i = dataOf h i) : stopCheck eqd g i = stopCheck eqd h i := by
  simp [stopCheck, hd]

/-- Master run lemma for a work pass that terminates without an early break:
with enough fuel, every root is processed, every neighbour of a processed
vertex ends marked, every mark is accounted for by the processing order,
no processed vertex satisfies the stop check, and every processed vertex is
reachable from the roots. -/
theorem pass1_run (push : List Nat → Nat → List Nat)
    (hpushMem : ∀ (fr : List Nat) (j x : Nat), x ∈ push fr j ↔ (x ∈ fr ∨ x = j))
    (hpushLen : ∀ (fr : List Nat) (j : Nat), (push fr j).length = fr.length + 1)
    (eqd : α → Bool) (adjF : Nat → List Nat) (liveF : Nat → Bool) :
    ∀ (fuel : Nat) (g : Graph α) (cur : Option Nat) (fr : List Nat),
      (∀ i, adjOf g i = adjF i) →
      (∀ i, (getV g i).isSome = liveF i) →
      (∀ x, (∃ r, (r ∈ cur.toList ++ fr) ∧ Reaches adjF r x) →
        ∀ j ∈ adjF x, liveF j = true) →
      (∀ x ∈ fr, is_visited g x = true) →
      (cur = none → fr = []) →
      (2 * (unmarkedF g).card + fr.length + cur.toList.length ≤ fuel) →
      (pass1 push eqd fuel g cur fr).2.2 = none →
      (∀ x, x ∈ cur.toList ++ fr → x ∈ (pass1 push eqd fuel g cur fr).2.1) ∧
      (∀ x ∈ (pass1 push eqd fuel g cur fr).2.1, ∀ j ∈ adjF x,
          is_visited (pass1 push eqd fuel g cur fr).1 j = true) ∧
      (∀ j, is_visited (pass1 push eqd fuel g cur fr).1 j = true →
          is_visited g j = true ∨ j ∈ (pass1 push eqd fuel g cur fr).2.1) ∧
      (∀ x ∈ (pass1 push eqd fuel g cur fr).2.1, stopCheck eqd g x = false) ∧
      (∀ x ∈ (pass1 push eqd fuel g cur fr).2.1,
          ∃ r, (r ∈ cur.toList ++ fr) ∧ Reaches adjF r x)
  | fuel, g, none, fr, _, _, _, _, hnone, _, _ => by
    rw [pass1_none]
    have hfr : fr = [] := hnone rfl
    subst hfr
    exact ⟨fun x hx => absurd hx (List.not_mem_nil x),
      fun x hx => absurd hx (List.not_mem_nil x),
      fun j hj => Or.inl hj,
      fun x hx => absurd hx (List.not_mem_nil x),
      fun x hx => absurd hx (List.not_mem_nil x)⟩
  | 0, g, some c, fr, _, _, _, _, _, hfuel, _ => by
    exfalso
    rw [show ((some c).toList.length) = 1 from rfl] at hfuel
    omega
  | fuel + 1, g, some c, fr, hadj, hlive, hcl, hfrm, _, hfuel, hfound => by
    have hcreach : ∃ r, (r ∈ (some c).toList ++ fr) ∧ Reaches adjF r c :=
      ⟨c, List.mem_cons_self _ _, Relation.ReflTransGen.refl⟩
    by_cases hstop : stopCheck eqd (mark_visited g c) c = true
    · exfalso
      have : (pass1 push eqd (fuel + 1) g (some c) fr).2.2 = some c := by
        simp [pass1, hstop]
      rw [hfound] at this
      exact Option.noConfusion this
    · have hstop' : stopCheck eqd (mark_visited g c) c = false :=
        Bool.eq_false_iff.mpr hstop
      have hadjc : adjOf (mark_visited g c) c = adjF c := by
        rw [adjOf_mark_visited, hadj]
      set g1 := mark_visited g c with hg1
      set dA := discover push g1 fr (adjF c) with hdA
      set p := pop_front dA.2 with hp
      have hlivec : ∀ j ∈ adjF c, (getV g1 j).isSome = true := by
        intro j hj
        rw [hg1, ← (structEq_mark_visited g c).isSome_getV j, hlive j]
        exact hcl c hcreach j hj
      -- the unfolded shape of this step
      have hunf : pass1 push eqd (fuel + 1) g (some c) fr =
          ((pass1 push eqd fuel dA.1 p.1 p.2).1,
           c :: (pass1 push eqd fuel dA.1 p.1 p.2).2.1,
           (pass1 push eqd fuel dA.1 p.1 p.2).2.2) := by
        simp only [pass1, hstop', Bool.false_eq_true, if_neg, not_false_iff,
          hadjc, hg1, hdA, hp]
      have hfound' : (pass1 push eqd fuel dA.1 p.1 p.2).2.2 = none := by
        rw [hunf] at hfound
        exact hfound
      -- roots of the recursive call trace back to the current roots
      have hroots : ∀ r', r' ∈ p.1.toList ++ p.2 →
          ∃ r, (r ∈ (some c).toList ++ fr) ∧ Reaches adjF r r' := by
        intro r' hr'
        have hin : r' ∈ dA.2 := by
          rw [hp] at hr'
          rw [pop_front_decomp dA.2]
          exact hr'
        rcases mem_discover_frontier push
            (fun fr j x h => (hpushMem fr j x).mp h) (adjF c) g1 fr r' hin with
          h1 | h1
        · exact ⟨r', List.mem_cons_of_mem _ h1, Relation.ReflTransGen.refl⟩
        · exact ⟨c, List.mem_cons_self _ _, Relation.ReflTransGen.single h1⟩
      -- fuel bookkeeping
      have hmeasure : 2 * (unmarkedF dA.1).card + p.2.length +
          p.1.toList.length ≤ fuel := by
        have h1 := discover_measure push hpushLen (adjF c) g1 fr hlivec
        rw [← hdA] at h1
        have h2 : (unmarkedF g1).card ≤ (unmarkedF g).card := by
          rw [hg1]
          exact card_unmarkedF_mark_visited_le g c
        have h3 : p.2.length + p.1.toList.length ≤ dA.2.length := by
          conv_rhs => rw [pop_front_decomp dA.2]
          rw [← hp, List.length_append]
          omega
        rw [show ((some c).toList.length) = 1 from rfl] at hfuel
        omega
      have hrec := pass1_run push hpushMem hpushLen eqd adjF liveF fuel dA.1 p.1 p.2
        (fun i => by
          rw [← (structEq_discover push (adjF c) g1 fr).2.2.1 i, hg1,
            adjOf_mark_visited, hadj])
        (fun i => by
          rw [← (structEq_discover push (adjF c) g1 fr).isSome_getV i, hg1,
            ← (structEq_mark_visited g c).isSome_getV i, hlive])
        (fun x hx => by
          rcases hx with ⟨r', hr', hre⟩
          rcases hroots r' hr' with ⟨r, hr, hre'⟩
          exact hcl x ⟨r, hr, hre'.trans hre⟩)
        (fun x hx => by
          have hx2 : x ∈ dA.2 := by
            rw [pop_front_decomp dA.2, ← hp]
            exact List.mem_append_right _ hx
          exact discover_frontier_marked push hpushMem (adjF c) g1 fr
            (fun y hy => by rw [hg1]; exact is_visited_mark_visited_mono c (hfrm y hy))
            hlivec x hx2)
        (fun hcn => by
          rw [hp] at hcn ⊢
          rcases hq : dA.2 with _ | ⟨y, ys⟩
          · rfl
          · rw [hq] at hcn
            exact Option.noConfusion hcn)
        hmeasure hfound'
      rw [hunf]
      obtain ⟨r1, r2, r3, r4, r5⟩ := hrec
      have hOrdEq : (pass1 push eqd (fuel + 1) g (some c) fr).2.1 =
          c :: (pass1 push eqd fuel dA.1 p.1 p.2).2.1 := by rw [hunf]
      refine ⟨?_, ?_, ?_, ?_, ?_⟩
      · -- every root is processed
        intro x hx
        rcases List.mem_cons.mp hx with hxc | hxf
        · exact hxc ▸ List.mem_cons_self _ _
        · refine List.mem_cons_of_mem _ (r1 x ?_)
          have hx2 : x ∈ dA.2 :=
            mem_discover_frontier_of_mem push
              (fun fr j x h => (hpushMem fr j x).mpr (Or.inl h)) (adjF c) g1 fr x hxf
          rw [hp, ← pop_front_decomp dA.2]
          exact hx2
      · -- neighbours of processed vertices end marked
        intro x hx j hj
        rcases List.mem_cons.mp hx with hxc | hxr
        · rw [hxc] at hj
          have := discover_covers push (adjF c) g1 fr hlivec j hj
          exact is_visited_pass1_mono push eqd fuel dA.1 p.1 p.2 j this
        · exact r2 x hxr j hj
      · -- marks are accounted for
        intro j hj
        rcases r3 j hj with h1 | h1
        · rcases discover_marks push
              (fun fr j x h => (hpushMem fr j x).mpr (Or.inl h))
              (fun fr j => (hpushMem fr j j).mpr (Or.inr rfl))
              (adjF c) g1 fr j h1 with h2 | h2
          · rw [hg1, is_visited_mark_visited] at h2
            rcases Bool.or_eq_true_iff.mp h2 with h3 | h3
            · exact Or.inl h3
            · have : j = c := by
                rcases Bool.and_eq_true_iff.mp h3 with ⟨h4, _⟩
                exact of_decide_eq_true h4
              exact Or.inr (this ▸ List.mem_cons_self _ _)
          · refine Or.inr (List.mem_cons_of_mem _ (r1 j ?_))
            rw [pop_front_decomp dA.2, ← hp] at h2
            exact h2
        · exact Or.inr (List.mem_cons_of_mem _ h1)
      · -- no processed vertex matches
        intro x hx
        rcases List.mem_cons.mp hx with hxc | hxr
        · subst hxc
          rw [stopCheck_congr eqd x (dataOf_mark_visited g x x).symm]
          exact hstop'
        · have := r4 x hxr
          rw [← stopCheck_congr eqd x
            ((structEq_mark_visited g c).2.2.2 x |>.trans
              ((structEq_discover push (adjF c) g1 fr).2.2.2 x))] at this
          exact this
      · -- processed vertices are reachable from the roots
        intro x hx
        rcases List.mem_cons.mp hx with hxc | hxr
        · exact hxc ▸ hcreach
        · rcases r5 x hxr with ⟨r', hr', hre⟩
          rcases hroots r' hr' with ⟨r, hr, hre'⟩
          exact ⟨r, hr, hre'.trans hre⟩

/-- Soundness of the search result: a work pass that breaks at `w` broke on
a true stop check, at a vertex reachable from the roots. -/
theorem pass1_found (push : List Nat → Nat → List Nat)
    (hpushMem : ∀ (fr : List Nat) (j x : Nat), x ∈ push fr j ↔ (x ∈ fr ∨ x = j))
    (eqd : α → Bool) (adjF : Nat → List Nat) :
    ∀ (fuel : Nat) (g : Graph α) (cur : Option Nat) (fr : List Nat) (w : Nat),
      (∀ i, adjOf g i = adjF i) →
      (pass1 push eqd fuel g cur fr).2.2 = some w →
      stopCheck eqd g w = true ∧ ∃ r, (r ∈ cur.toList ++ fr) ∧ Reaches adjF r w
  | fuel, g, none, fr, w, _, hfound => by
    rw [pass1_none] at hfound
    exact Option.noConfusion hfound
  | 0, g, some c, fr, w, _, hfound => Option.noConfusion hfound
  | fuel + 1, g, some c, fr, w, hadj, hfound => by
    by_cases hstop : stopCheck eqd (mark_visited g c) c = true
    · have : (pass1 push eqd (fuel + 1) g (some c) fr).2.2 = some c := by
        simp [pass1, hstop]
      rw [hfound] at this
      have hwc : w = c := (Option.some.injEq _ _).mp this
      subst hwc
      constructor
      · rw [stopCheck_congr eqd w (dataOf_mark_visited g w w).symm]
        exact hstop
      · exact ⟨w, List.mem_cons_self _ _, Relation.ReflTransGen.refl⟩
    · have hstop' : stopCheck eqd (mark_visited g c) c = false :=
        Bool.eq_false_iff.mpr hstop
      have hadjc : adjOf (mark_visited g c) c = adjF c := by
        rw [adjOf_mark_visited, hadj]
      set g1 := mark_visited g c with hg1
      set dA := discover push g1 fr (adjF c) with hdA
      set p := pop_front dA.2 with hp
      have hunf : (pass1 push eqd (fuel + 1) g (some c) fr).2.2 =
          (pass1 push eqd fuel dA.1 p.1 p.2).2.2 := by
        simp only [pass1, hstop', Bool.false_eq_true, if_neg, not_false_iff,
          hadjc, hg1, hdA, hp]
      rw [hunf] at hfound
      have hrec := pass1_found push hpushMem eqd adjF fuel dA.1 p.1 p.2 w
        (fun i => by
          rw [← (structEq_discover push (adjF c) g1 fr).2.2.1 i, hg1,
            adjOf_mark_visited, hadj])
        hfound
      constructor
      · rw [stopCheck_congr eqd w
          (((structEq_mark_visited g c).2.2.2 w).trans
            ((structEq_discover push (adjF c) g1 fr).2.2.2 w))]
        exact hrec.1
      · rcases hrec.2 with ⟨r', hr', hre⟩
        have hin : r' ∈ dA.2 := by
          rw [hp] at hr'
          rw [pop_front_decomp dA.2]
          exact hr'
        rcases mem_discover_frontier push
            (fun fr j x h => (hpushMem fr j x).mp h) (adjF c) g1 fr r' hin with
          h1 | h1
        · exact ⟨r', List.mem_cons_of_mem _ h1, hre⟩
        · exact ⟨c, List.mem_cons_self _ _, (Relation.ReflTransGen.single h1).trans hre⟩

/-- A vertex of the root list of a top-level pass (entry only). -/
theorem root_reachesEntry {g : Graph α} {r : Nat}
    (hr : r ∈ (g.vertex).toList ++ ([] : List Nat)) : g.vertex = some r := by
  cases he : g.vertex with
  | none => rw [he] at hr; simp at hr
  | some e =>
    rw [he] at hr
    simp at hr
    rw [hr]

/-- Top-level completeness bundle: a full (no-break) work pass from the entry
vertex of a clean well-formed graph processes exactly the reachable set, and
its stop check failed at every processed vertex. -/
theorem pass1_top_complete (push : List Nat → Nat → List Nat)
    (hpushMem : ∀ (fr : List Nat) (j x : Nat), x ∈ push fr j ↔ (x ∈ fr ∨ x = j))
    (hpushLen : ∀ (fr : List Nat) (j : Nat), (push fr j).length = fr.length + 1)
    (eqd : α → Bool) (g : Graph α)
    (hclean : CleanReach g) (hclosed : ClosedReach g)
    (hnone : (pass1 push eqd (graphFuel g) g g.vertex []).2.2 = none) :
    (∀ t, ReachesEntry g t →
      t ∈ (pass1 push eqd (graphFuel g) g g.vertex []).2.1) ∧
    (∀ x ∈ (pass1 push eqd (graphFuel g) g g.vertex []).2.1,
      stopCheck eqd g x = false) ∧
    (∀ x ∈ (pass1 push eqd (graphFuel g) g g.vertex []).2.1, ReachesEntry g x) := by
  have hfuel : 2 * (unmarkedF g).card + ([] : List Nat).length +
      (g.vertex).toList.length ≤ graphFuel g := by
    have h1 : (unmarkedF g).card ≤ g.heap.length := by
      have h2 : (unmarkedF g).card ≤ (Finset.range g.heap.length).card :=
        Finset.card_le_card (Finset.filter_subset _ _)
      simpa using h2
    have h3 : (g.vertex).toList.length ≤ 1 := by
      cases g.vertex <;> simp
    unfold graphFuel
    simp only [List.length_nil]
    omega
  have hbundle := pass1_run push hpushMem hpushLen eqd (adjOf g)
    (fun i => (getV g i).isSome) (graphFuel g) g g.vertex []
    (fun _ => rfl) (fun _ => rfl)
    (fun x hx => by
      rcases hx with ⟨r, hr, hre⟩
      have := root_reachesEntry hr
      exact fun j hj => hclosed x ⟨r, this, hre⟩ j hj)
    (fun x hx => absurd hx (List.not_mem_nil x))
    (fun h => rfl)
    hfuel hnone
  obtain ⟨r1, r2, r3, r4, r5⟩ := hbundle
  refine ⟨?_, r4, ?_⟩
  · intro t ht
    rcases ht with ⟨e, he, hre⟩
    induction hre with
    | refl =>
      apply r1
      rw [he]
      simp
    | tail hab hb ih =>
      rename_i a b
      have ha : a ∈ (pass1 push eqd (graphFuel g) g g.vertex []).2.1 := ih
      have hvb := r2 a ha b hb
      rcases r3 b hvb with h1 | h1
      · exfalso
        have hreachb : ReachesEntry g b := ⟨e, he, hab.tail hb⟩
        rw [hclean b hreachb] at h1
        exact Bool.noConfusion h1
      · exact h1
  · intro x hx
    rcases r5 x hx with ⟨r, hr, hre⟩
    exact ⟨r, root_reachesEntry hr, hre⟩



theorem stopCheck_iff_dataMatch (eq : α → α → Bool) (g : Graph α) (d : α)
    (w : Nat) : stopCheck (eq d) g w = true ↔ dataMatch eq g d w := by
  unfold stopCheck dataMatch
  cases h : dataOf g w with
  | none => simp
  | some a => simp

theorem breadth_first_search_found_sound (eq : α → α → Bool) (g : Graph α)
    (d : α) (w : Nat) (h : (breadth_first_search eq g d).1 = some w) :
    dataMatch eq g d w ∧ ReachesEntry g w := by
  have h' : (pass1 push_to_queue (eq d) (graphFuel g) g g.vertex []).2.2 = some w := h
  have := pass1_found push_to_queue push_to_queue_iff (eq d) (adjOf g)
    (graphFuel g) g g.vertex [] w (fun _ => rfl) h'
  refine ⟨(stopCheck_iff_dataMatch eq g d w).mp this.1, ?_⟩
  rcases this.2 with ⟨r, hr, hre⟩
  exact ⟨r, root_reachesEntry hr, hre⟩

theorem depth_first_search_found_sound (eq : α → α → Bool) (g : Graph α)
    (d : α) (w : Nat) (h : (depth_first_search eq g d).1 = some w) :
    dataMatch eq g d w ∧ ReachesEntry g w := by
  have h' : (pass1 push_to_stack (eq d) (graphFuel g) g g.vertex []).2.2 = some w := h
  have := pass1_found push_to_stack push_to_stack_iff (eq d) (adjOf g)
    (graphFuel g) g g.vertex [] w (fun _ => rfl) h'
  refine ⟨(stopCheck_iff_dataMatch eq g d w).mp this.1, ?_⟩
  rcases this.2 with ⟨r, hr, hre⟩
  exact ⟨r, root_reachesEntry hr, hre⟩

theorem breadth_first_search_found_complete (eq : α → α → Bool) (g : Graph α)
    (d : α) (v : Nat) (hclean : CleanReach g) (hclosed : ClosedReach g)
    (hv : ReachesEntry g v) (hm : dataMatch eq g d v) :
    ∃ w, (breadth_first_search eq g d).1 = some w := by
  cases hopt : (breadth_first_search eq g d).1 with
  | some w => exact ⟨w, rfl⟩
  | none =>
    exfalso
    have h' : (pass1 push_to_queue (eq d) (graphFuel g) g g.vertex []).2.2 = none := hopt
    have hc := pass1_top_complete push_to_queue push_to_queue_iff
      push_to_queue_length (eq d) g hclean hclosed h'
    have hvord := hc.1 v hv
    have := hc.2.1 v hvord
    rw [(stopCheck_iff_dataMatch eq g d v).mpr hm] at this
    exact Bool.noConfusion this

theorem depth_first_search_found_complete (eq : α → α → Bool) (g : Graph α)
    (d : α) (v : Nat) (hclean : CleanReach g) (hclosed : ClosedReach g)
    (hv : ReachesEntry g v) (hm : dataMatch eq g d v) :
    ∃ w, (depth_first_search eq g d).1 = some w := by
  cases hopt : (depth_first_search eq g d).1 with
  | some w => exact ⟨w, rfl⟩
  | none =>
    exfalso
    have h' : (pass1 push_to_stack (eq d) (graphFuel g) g g.vertex []).2.2 = none := hopt
    have hc := pass1_top_complete push_to_stack push_to_stack_iff
      push_to_stack_length (eq d) g hclean hclosed h'
    have hvord := hc.1 v hv
    have := hc.2.1 v hvord
    rw [(stopCheck_iff_dataMatch eq g d v).mpr hm] at this
    exact Bool.noConfusion this

/-! ### Executable checkers imply the Prop-level invariants -/

theorem getV_heap_get? {g : Graph α} {i : Nat} {v : Vertex α}
    (h : getV g i = some v) : g.heap.get? i = some (some v) := by
  unfold getV at h
  cases hq : g.heap.get? i with
  | none => rw [hq] at h; exact Option.noConfusion h
  | some o =>
    rw [hq] at h
    simp only [] at h
    rw [h]

theorem cleanB_spec {g : Graph α} (h : cleanB g = true) :
    ∀ i, is_visited g i = false := by
  intro i
  cases hg : getV g i with
  | none => simp [is_visited, hg]
  | some v =>
    have hmem : some v ∈ g.heap := List.get?_mem (getV_heap_get? hg)
    unfold cleanB at h
    rw [List.all_eq_true] at h
    have := h (some v) hmem
    simp at this
    simp [is_visited, hg, this]

theorem closedB_spec {g : Graph α} (h : closedB g = true) :
    ∀ x j, j ∈ adjOf g x → (getV g j).isSome = true := by
  intro x j hj
  cases hg : getV g x with
  | none => rw [adjOf, hg] at hj; exact absurd hj (List.not_mem_nil j)
  | some v =>
    rw [adjOf, hg] at hj
    have hmem : some v ∈ g.heap := List.get?_mem (getV_heap_get? hg)
    unfold closedB at h
    rw [List.all_eq_true] at h
    have h2 := h (some v) hmem
    simp only [List.all_eq_true] at h2
    exact h2 j hj

theorem cleanReach_of_cleanB {g : Graph α} (h : cleanB g = true) :
    CleanReach g := fun x _ => cleanB_spec h x

theorem closedReach_of_closedB {g : Graph α} (h : closedB g = true) :
    ClosedReach g := fun x _ j hj => closedB_spec h x j hj

/-! ### Frame facts for the compound operations -/

theorem structEq_breadth_first_search (eq : α → α → Bool) (g : Graph α)
    (d : α) : StructEq g (breadth_first_search eq g d).2 :=
  (structEq_pass1 push_to_queue (eq d) (graphFuel g) g g.vertex []).trans
    (structEq_pass2 push_to_queue (eq d) _ _ _ [])

theorem structEq_depth_first_search (eq : α → α → Bool) (g : Graph α)
    (d : α) : StructEq g (depth_first_search eq g d).2 :=
  (structEq_pass1 push_to_stack (eq d) (graphFuel g) g g.vertex []).trans
    (structEq_pass2 push_to_stack (eq d) _ _ _ [])

theorem vertex_setAdj (g : Graph α) (i : Nat) (l : List Nat) :
    (setAdj g i l).vertex = g.vertex := by
  unfold setAdj
  cases h : getV g i <;> simp [vertex_setV]

theorem vertex_removeLinks (g : Graph α) (v : Nat) :
    ∀ l, (removeLinks g v l).1.vertex = g.vertex
  | [] => rfl
  | a :: rest => by
    unfold removeLinks
    rw [vertex_removeLinks _ v rest, vertex_setAdj, vertex_setAdj]

/-- The claim C9: `delete_from_graph` never writes the graph's entry-vertex
field, and the vertex it deletes is freed, so a successful deletion of the
entry vertex leaves `graph->vertex` dangling at the released vertex. -/
theorem c9_delete_preserves_entry (eq : α → α → Bool) (g : Graph α) (d : α) :
    (delete_from_graph eq g d).2.vertex = g.vertex ∧
    (∀ w, (breadth_first_search eq g d).1 = some w →
      getV (delete_from_graph eq g d).2 w = none) := by
  have hsvert : (breadth_first_search eq g d).2.vertex = g.vertex :=
    (structEq_breadth_first_search eq g d).2.1.symm
  constructor
  · unfold delete_from_graph delete_vertex_from_graph
    cases hf : (breadth_first_search eq g d).1 with
    | none =>
      simp only [hf]
      exact hsvert
    | some v =>
      simp only [hf]
      rw [vertex_freeV, vertex_removeLinks]
      exact hsvert
  · intro w hw
    unfold delete_from_graph delete_vertex_from_graph
    simp only [hw]
    exact getV_freeV_self _ w

/-- Witness for C9: deleting the entry vertex of the demonstration graph
succeeds, leaves `graph->vertex` unchanged, and that reference now points at
the released slot. -/
theorem c9_delete_preserves_entry_witness :
    (delete_from_graph eqN gScenario 0).2.vertex = gScenario.vertex ∧
    getV (delete_from_graph eqN gScenario 0).2 0 = none :=
  ⟨(c9_delete_preserves_entry eqN gScenario 0).1,
    (c9_delete_preserves_entry eqN gScenario 0).2 0 (by decide)⟩

/-- The claim C2: starting from a graph in which every vertex reachable from
the entry has `visited = false` (and whose reachable adjacency lists hold
only live references, as any C execution requires), each of the four
traversal operations returns with every reachable vertex again unmarked —
the cleanup pass exactly undoes the work pass even when a search broke
early. -/
theorem c2_visited_restored (eq : α → α → Bool) (g : Graph α) (d : α)
    (hclean : CleanReach g) (hclosed : ClosedReach g) :
    (∀ t, ReachesEntry (breadth_first_traversal g).2 t →
      is_visited (breadth_first_traversal g).2 t = false) ∧
    (∀ t, ReachesEntry (depth_first_traversal g).2 t →
      is_visited (depth_first_traversal g).2 t = false) ∧
    (∀ t, ReachesEntry (breadth_first_search eq g d).2 t →
      is_visited (breadth_first_search eq g d).2 t = false) ∧
    (∀ t, ReachesEntry (depth_first_search eq g d).2 t →
      is_visited (depth_first_search eq g d).2 t = false) := by
  rw [breadth_first_traversal_eq g hclean hclosed,
    depth_first_traversal_eq g hclean hclosed,
    breadth_first_search_eq eq g d hclean hclosed,
    depth_first_search_eq eq g d hclean hclosed]
  exact ⟨fun t ht => hclean t ht, fun t ht => hclean t ht,
    fun t ht => hclean t ht, fun t ht => hclean t ht⟩

/-- Witness for C2 at the three-vertex demonstration graph. -/
theorem c2_visited_restored_witness :
    (∀ t, ReachesEntry (breadth_first_traversal gScenario).2 t →
      is_visited (breadth_first_traversal gScenario).2 t = false) ∧
    (∀ t, ReachesEntry (depth_first_traversal gScenario).2 t →
      is_visited (depth_first_traversal gScenario).2 t = false) ∧
    (∀ t, ReachesEntry (breadth_first_search eqN gScenario 1).2 t →
      is_visited (breadth_first_search eqN gScenario 1).2 t = false) ∧
    (∀ t, ReachesEntry (depth_first_search eqN gScenario 1).2 t →
      is_visited (depth_first_search eqN gScenario 1).2 t = false) :=
  c2_visited_restored eqN gScenario 1
    (cleanReach_of_cleanB (by decide))
    (closedReach_of_closedB (by decide))

/-- Counterexample to C7 as stated: after inserting Palo Alto (0), Mountain
View (1, neighbour [0]) and Sunnyvale (2, neighbours [0, 1]), breadth-first
traversal does not print Mountain View before Sunnyvale — adjacency lists
are built by insertion at the front, so the print order is 0, 2, 1. -/
theorem c7_counterexample :
    printedPayloads gScenario (breadth_first_traversal gScenario).1 ≠
      [0, 1, 2] := by decide

/-- The claim C7 as amended: in the scenario the traversal visits Palo Alto
first and then the remaining two cities in reverse adjacency-insertion order
(Sunnyvale before Mountain View), because `add_to_list` prepends. -/
theorem c7_amended_scenario_order :
    (add_vertex_to_graph eqN (create_graph Nat) 0 []).1 = true ∧
    (add_vertex_to_graph eqN gPA 1 [0]).1 = true ∧
    (add_vertex_to_graph eqN gPAMV 2 [0, 1]).1 = true ∧
    printedPayloads gScenario (breadth_first_traversal gScenario).1 =
      [0, 2, 1] := by decide

/-- Counterexample to C3 as stated: inserting payload 1 with an empty
neighbour list into the non-empty graph {0} succeeds, yet both searches for
payload 1 afterwards return `NULL` — the vertex is unreachable from the
entry vertex. -/
theorem c3_counterexample :
    (add_vertex_to_graph eqN gPA 1 []).1 = true ∧
    (breadth_first_search eqN gIsolated 1).1 = none ∧
    (depth_first_search eqN gIsolated 1).1 = none := by decide

/-- The claim C3 as amended: both searches return a vertex whose payload
matches (per the callback) exactly when some vertex reachable from the entry
matches the target payload; payloads matching no reachable vertex (in
particular payloads never inserted) yield `NULL`. -/
theorem c3_amended_search_correct (eq : α → α → Bool) (g : Graph α) (d : α)
    (hclean : CleanReach g) (hclosed : ClosedReach g) :
    ((∃ v, ReachesEntry g v ∧ dataMatch eq g d v) →
      (∃ w, (breadth_first_search eq g d).1 = some w ∧ dataMatch eq g d w) ∧
      (∃ w, (depth_first_search eq g d).1 = some w ∧ dataMatch eq g d w)) ∧
    ((∀ v, ReachesEntry g v → ¬dataMatch eq g d v) →
      (breadth_first_search eq g d).1 = none ∧
      (depth_first_search eq g d).1 = none) := by
  constructor
  · rintro ⟨v, hv, hm⟩
    constructor
    · obtain ⟨w, hw⟩ :=
        breadth_first_search_found_complete eq g d v hclean hclosed hv hm
      exact ⟨w, hw, (breadth_first_search_found_sound eq g d w hw).1⟩
    · obtain ⟨w, hw⟩ :=
        depth_first_search_found_complete eq g d v hclean hclosed hv hm
      exact ⟨w, hw, (depth_first_search_found_sound eq g d w hw).1⟩
  · intro hno
    constructor
    · cases hf : (breadth_first_search eq g d).1 with
      | none => rfl
      | some w =>
        exfalso
        have := breadth_first_search_found_sound eq g d w hf
        exact hno w this.2 this.1
    · cases hf : (depth_first_search eq g d).1 with
      | none => rfl
      | some w =>
        exfalso
        have := depth_first_search_found_sound eq g d w hf
        exact hno w this.2 this.1

/-- Witness for the amended C3: payload 1 is reachable in the demonstration
graph, and both searches do find a matching vertex for it. -/
theorem c3_amended_search_correct_witness :
    (∃ w, (breadth_first_search eqN gScenario 1).1 = some w ∧
      dataMatch eqN gScenario 1 w) ∧
    (∃ w, (depth_first_search eqN gScenario 1).1 = some w ∧
      dataMatch eqN gScenario 1 w) :=
  (c3_amended_search_correct eqN gScenario 1
    (cleanReach_of_cleanB (by decide))
    (closedReach_of_closedB (by decide))).1
    ⟨1, ⟨0, rfl, Relation.ReflTransGen.single (by decide)⟩,
      ⟨1, by decide, by decide⟩⟩

/-- The claim C4: inserting a payload equal (per the callback) to the payload
of a vertex already in the graph — i.e. owned by it, reachable from the
entry — always fails and leaves the graph (hence its vertex count)
completely unchanged. -/
theorem c4_duplicate_insert_fails (eq : α → α → Bool) (g : Graph α)
    (data : α) (adj : List α) (hclean : CleanReach g) (hclosed : ClosedReach g)
    (hdup : ∃ v, ReachesEntry g v ∧ dataMatch eq g data v) :
    add_vertex_to_graph eq g data adj = (false, g) := by
  rcases hdup with ⟨v, hv, hm⟩
  obtain ⟨w, hw⟩ :=
    breadth_first_search_found_complete eq g data v hclean hclosed hv hm
  have h2 : (breadth_first_search eq g data).2 = g := by
    rw [breadth_first_search_eq eq g data hclean hclosed]
  have hpair : breadth_first_search eq g data = (some w, g) := by
    have he : breadth_first_search eq g data =
        ((breadth_first_search eq g data).1, (breadth_first_search eq g data).2) :=
      Prod.mk.eta.symm
    rw [he, hw, h2]
  unfold add_vertex_to_graph
  rw [hpair]

/-- Witness for C4: re-inserting Mountain View's payload into the
demonstration graph fails and changes nothing. -/
theorem c4_duplicate_insert_fails_witness :
    add_vertex_to_graph eqN gScenario 1 [] = (false, gScenario) :=
  c4_duplicate_insert_fails eqN gScenario 1 []
    (cleanReach_of_cleanB (by decide))
    (closedReach_of_closedB (by decide))
    ⟨1, ⟨0, rfl, Relation.ReflTransGen.single (by decide)⟩,
      ⟨1, by decide, by decide⟩⟩

theorem noMatchB_spec {eq : α → α → Bool} {d : α} {g : Graph α}
    (h : noMatchB eq d g = true) :
    ∀ i v, getV g i = some v → eq d v.data = false := by
  intro i v hget
  have hmem : some v ∈ g.heap := List.get?_mem (getV_heap_get? hget)
  unfold noMatchB at h
  rw [List.all_eq_true] at h
  have := h (some v) hmem
  simpa using this

theorem not_dataMatch_of_noMatch {eq : α → α → Bool} {d : α} {g : Graph α}
    (h : ∀ i v, getV g i = some v → eq d v.data = false) :
    ∀ w, ¬dataMatch eq g d w := by
  rintro w ⟨a, hdata, heq⟩
  unfold dataOf at hdata
  cases hget : getV g w with
  | none => rw [hget] at hdata; exact Option.noConfusion hdata
  | some v =>
    rw [hget] at hdata
    simp at hdata
    rw [← hdata] at heq
    rw [h w v hget] at heq
    exact Bool.noConfusion heq

theorem breadth_first_search_snd (eq : α → α → Bool) (g : Graph α) (d : α)
    (hclean : CleanReach g) (hclosed : ClosedReach g) :
    (breadth_first_search eq g d).2 = g := by
  rw [breadth_first_search_eq eq g d hclean hclosed]

theorem breadth_first_search_pair (eq : α → α → Bool) (g : Graph α) (d : α)
    (hclean : CleanReach g) (hclosed : ClosedReach g) :
    breadth_first_search eq g d = ((breadth_first_search eq g d).1, g) := by
  have he : breadth_first_search eq g d =
      ((breadth_first_search eq g d).1, (breadth_first_search eq g d).2) :=
    Prod.mk.eta.symm
  nth_rewrite 1 [he]
  rw [breadth_first_search_snd eq g d hclean hclosed]

/-- When some neighbour payload matches no allocated vertex, the resolution
loop of `add_vertex_to_graph` fails and leaves the graph untouched. -/
theorem resolve_adjacent_fail (eq : α → α → Bool) :
    ∀ (adj : List α) (g : Graph α), CleanReach g → ClosedReach g →
      (∃ a, a ∈ adj ∧ ∀ i v, getV g i = some v → eq a v.data = false) →
      resolve_adjacent eq g adj = (none, g)
  | [], g, _, _, hex => by
    rcases hex with ⟨a, ha, _⟩
    exact absurd ha (List.not_mem_nil a)
  | d :: rest, g, hclean, hclosed, hex => by
    have hpair := breadth_first_search_pair eq g d hclean hclosed
    cases hf : (breadth_first_search eq g d).1 with
    | none =>
      rw [hf] at hpair
      unfold resolve_adjacent
      rw [hpair]
    | some v =>
      rcases hex with ⟨a, ha, hnom⟩
      rcases List.mem_cons.mp ha with had | har
      · exfalso
        have hsound := (breadth_first_search_found_sound eq g d v hf).1
        subst had
        exact not_dataMatch_of_noMatch hnom v hsound
      · rw [hf] at hpair
        have hrec := resolve_adjacent_fail eq rest g hclean hclosed ⟨a, har, hnom⟩
        unfold resolve_adjacent
        rw [hpair]
        simp only [hrec]

/-- Counterexample to C5 as stated: inserting payload 0 (already present and
reachable) with the unresolvable neighbour 5 fails with no mutation, yet the
"new" payload 0 is still found by a subsequent search — the final clause of
the claim fails whenever the rejected payload was already in the graph. -/
theorem c5_counterexample :
    (∃ a, a ∈ [(5 : Nat)] ∧
      ∀ i v, getV gPA i = some v → eqN a v.data = false) ∧
    (add_vertex_to_graph eqN gPA 0 [5]).1 = false ∧
    (add_vertex_to_graph eqN gPA 0 [5]).2 = gPA ∧
    (breadth_first_search eqN (add_vertex_to_graph eqN gPA 0 [5]).2 0).1 ≠
      none := by
  refine ⟨⟨5, List.mem_singleton.mpr rfl, noMatchB_spec (by decide)⟩,
    by decide, by decide, by decide⟩

/-- The claim C5 as amended: when at least one neighbour payload resolves to
no existing vertex, the insert fails and performs no mutation whatsoever, so
every subsequent search behaves exactly as before the call; in particular a
payload that matches no existing vertex is still absent afterwards (the
claim's final clause as stated fails only when the rejected payload already
matched a vertex present before the call). -/
theorem c5_amended_unknown_neighbor (eq : α → α → Bool) (g : Graph α)
    (data : α) (adj : List α) (hclean : CleanReach g) (hclosed : ClosedReach g)
    (hunres : ∃ a, a ∈ adj ∧ ∀ i v, getV g i = some v → eq a v.data = false) :
    add_vertex_to_graph eq g data adj = (false, g) ∧
    ((∀ i v, getV g i = some v → eq data v.data = false) →
      (breadth_first_search eq g data).1 = none ∧
      (depth_first_search eq g data).1 = none) := by
  constructor
  · have hpair := breadth_first_search_pair eq g data hclean hclosed
    cases hf : (breadth_first_search eq g data).1 with
    | some w =>
      rw [hf] at hpair
      unfold add_vertex_to_graph
      rw [hpair]
    | none =>
      rw [hf] at hpair
      have hres := resolve_adjacent_fail eq adj g hclean hclosed hunres
      unfold add_vertex_to_graph
      rw [hpair]
      simp only [hres]
  · intro hfresh
    constructor
    · cases hf : (breadth_first_search eq g data).1 with
      | none => rfl
      | some w =>
        exfalso
        exact not_dataMatch_of_noMatch hfresh w
          (breadth_first_search_found_sound eq g data w hf).1
    · cases hf : (depth_first_search eq g data).1 with
      | none => rfl
      | some w =>
        exfalso
        exact not_dataMatch_of_noMatch hfresh w
          (depth_first_search_found_sound eq g data w hf).1

/-- Witness for the amended C5 at the concrete unknown-neighbour scenario. -/
theorem c5_amended_unknown_neighbor_witness :
    add_vertex_to_graph eqN gPA 7 [5] = (false, gPA) ∧
    ((∀ i v, getV gPA i = some v → eqN 7 v.data = false) →
      (breadth_first_search eqN gPA 7).1 = none ∧
      (depth_first_search eqN gPA 7).1 = none) :=
  c5_amended_unknown_neighbor eqN gPA 7 [5]
    (cleanReach_of_cleanB (by decide))
    (closedReach_of_closedB (by decide))
    ⟨5, List.mem_singleton.mpr rfl, noMatchB_spec (by decide)⟩

/-! ### Appending an untouched vertex does not affect a traversal -/

theorem getV_heap_append {gA gE : Graph α} {o : Option (Vertex α)}
    (h : gE.heap = gA.heap ++ [o]) {i : Nat} (hi : i < gA.heap.length) :
    getV gE i = getV gA i := by
  unfold getV
  rw [h, List.get?_append hi]

theorem adjOf_heap_append {gA gE : Graph α} {o : Option (Vertex α)}
    (h : gE.heap = gA.heap ++ [o]) {i : Nat} (hi : i < gA.heap.length) :
    adjOf gE i = adjOf gA i := by
  unfold adjOf
  rw [getV_heap_append h hi]

theorem is_visited_heap_append {gA gE : Graph α} {o : Option (Vertex α)}
    (h : gE.heap = gA.heap ++ [o]) {i : Nat} (hi : i < gA.heap.length) :
    is_visited gE i = is_visited gA i := by
  unfold is_visited
  rw [getV_heap_append h hi]

theorem stopCheck_heap_append {gA gE : Graph α} {o : Option (Vertex α)}
    (eqd : α → Bool) (h : gE.heap = gA.heap ++ [o]) {i : Nat}
    (hi : i < gA.heap.length) : stopCheck eqd gE i = stopCheck eqd gA i := by
  unfold stopCheck dataOf
  rw [getV_heap_append h hi]

theorem mark_visited_heap_append {gA gE : Graph α} {o : Option (Vertex α)}
    (h : gE.heap = gA.heap ++ [o]) {c : Nat} (hc : c < gA.heap.length) :
    (mark_visited gE c).heap = (mark_visited gA c).heap ++ [o] := by
  unfold mark_visited
  rw [getV_heap_append h hc]
  cases hg : getV gA c with
  | none => exact h
  | some v =>
    unfold setV
    simp only
    rw [h, List.set_append_left _ _ hc]

/-- Extension lemma for `discover`: the appended slot is never touched when
the scanned list stays below the original heap length. -/
theorem discover_extend (push : List Nat → Nat → List Nat)
    {o : Option (Vertex α)} :
    ∀ (l : List Nat) (gA gE : Graph α) (fr : List Nat),
      gE.heap = gA.heap ++ [o] →
      (∀ j ∈ l, j < gA.heap.length) →
      (discover push gE fr l).2 = (discover push gA fr l).2 ∧
      (discover push gE fr l).1.heap = (discover push gA fr l).1.heap ++ [o]
  | [], gA, gE, fr, h, _ => ⟨rfl, h⟩
  | j :: rest, gA, gE, fr, h, hbound => by
    have hj : j < gA.heap.length := hbound j (List.mem_cons_self _ _)
    have hvis : is_visited gE j = is_visited gA j := is_visited_heap_append h hj
    by_cases hv : is_visited gA j = true
    · have := discover_extend push rest gA gE fr h
        (fun x hx => hbound x (List.mem_cons_of_mem _ hx))
      constructor
      · simpa [discover, hv, hvis] using this.1
      · simpa [discover, hv, hvis] using this.2
    · have hv' : is_visited gA j = false := Bool.eq_false_iff.mpr hv
      have hmarks : (mark_visited gE j).heap = (mark_visited gA j).heap ++ [o] :=
        mark_visited_heap_append h hj
      have hlen : (mark_visited gA j).heap.length = gA.heap.length :=
        length_mark_visited gA j
      have := discover_extend push rest (mark_visited gA j) (mark_visited gE j)
        (push fr j) hmarks
        (fun x hx => by rw [hlen]; exact hbound x (List.mem_cons_of_mem _ hx))
      constructor
      · simpa [discover, hv', hvis] using this.1
      · simpa [discover, hv', hvis] using this.2

/-- Extension lemma for the work pass: appending one vertex that is neither a
root nor referenced by any adjacency list leaves the processing order and the
search result unchanged (regardless of the extended side's extra fuel, as
long as the original fuel was sufficient). -/
theorem pass1_extend (push : List Nat → Nat → List Nat)
    (hpushMem : ∀ (fr : List Nat) (j x : Nat), x ∈ push fr j ↔ (x ∈ fr ∨ x = j))
    (hpushLen : ∀ (fr : List Nat) (j : Nat), (push fr j).length = fr.length + 1)
    (eqd : α → Bool) {o : Option (Vertex α)} :
    ∀ (fuelA k : Nat) (gA gE : Graph α) (cur : Option Nat) (fr : List Nat),
      gE.heap = gA.heap ++ [o] →
      (∀ x ∈ cur.toList ++ fr, x < gA.heap.length) →
      (∀ x j, j ∈ adjOf gA x → (getV gA j).isSome = true) →
      (2 * (unmarkedF gA).card + fr.length + cur.toList.length ≤ fuelA) →
      (pass1 push eqd (fuelA + k) gE cur fr).2.1 =
        (pass1 push eqd fuelA gA cur fr).2.1 ∧
      (pass1 push eqd (fuelA + k) gE cur fr).2.2 =
        (pass1 push eqd fuelA gA cur fr).2.2
  | fuelA, k, gA, gE, none, fr, _, _, _, _ => by
    rw [pass1_none, pass1_none]
    exact ⟨rfl, rfl⟩
  | 0, k, gA, gE, some c, fr, _, _, _, hfuel => by
    exfalso
    rw [show ((some c).toList.length) = 1 from rfl] at hfuel
    omega
  | fuelA + 1, k, gA, gE, some c, fr, h, hroots, hclosed, hfuel => by
    have hc : c < gA.heap.length := hroots c (List.mem_cons_self _ _)
    have hstopEq : stopCheck eqd (mark_visited gE c) c =
        stopCheck eqd (mark_visited gA c) c :=
      stopCheck_heap_append eqd (mark_visited_heap_append h hc)
        (by rw [length_mark_visited]; exact hc)
    have hadjEq : adjOf (mark_visited gE c) c = adjOf (mark_visited gA c) c := by
      rw [adjOf_mark_visited, adjOf_mark_visited]
      exact adjOf_heap_append h hc
    have hsucc : fuelA + 1 + k = (fuelA + k) + 1 := by omega
    by_cases hstop : stopCheck eqd (mark_visited gA c) c = true
    · constructor
      · rw [hsucc]
        simp [pass1, hstop, hstopEq.trans hstop]
      · rw [hsucc]
        simp [pass1, hstop, hstopEq.trans hstop]
    · have hstop' : stopCheck eqd (mark_visited gA c) c = false :=
        Bool.eq_false_iff.mpr hstop
      have hstopE : stopCheck eqd (mark_visited gE c) c = false :=
        hstopEq.trans hstop'
      have hadjbound : ∀ j ∈ adjOf gA c, j < gA.heap.length := by
        intro j hj
        rcases Option.isSome_iff_exists.mp (hclosed c j (by
          rw [← adjOf_mark_visited gA c c] at hj
          rw [← adjOf_mark_visited gA c c]
          exact hj)) with ⟨v, hv⟩
        exact lt_of_getV_eq_some hv
      have hadjc : adjOf (mark_visited gA c) c = adjOf gA c :=
        adjOf_mark_visited gA c c
      have hext := discover_extend push (adjOf gA c) (mark_visited gA c)
        (mark_visited gE c) fr (mark_visited_heap_append h hc)
        (by rw [length_mark_visited]; exact hadjbound)
      set dA := discover push (mark_visited gA c) fr (adjOf gA c) with hdA
      set dE := discover push (mark_visited gE c) fr (adjOf gA c) with hdE
      set p := pop_front dA.2 with hp
      have hfrEq : dE.2 = dA.2 := hext.1
      have hheap' : dE.1.heap = dA.1.heap ++ [o] := hext.2
      have hlenA : dA.1.heap.length = gA.heap.length := by
        rw [(structEq_discover push (adjOf gA c) (mark_visited gA c) fr).1.symm,
          length_mark_visited]
      have hroots' : ∀ x ∈ p.1.toList ++ p.2, x < dA.1.heap.length := by
        intro x hx
        rw [hlenA]
        have hin : x ∈ dA.2 := by
          rw [hp] at hx
          rw [pop_front_decomp dA.2]
          exact hx
        rcases mem_discover_frontier push
            (fun fr j x hxx => (hpushMem fr j x).mp hxx)
            (adjOf gA c) (mark_visited gA c) fr x hin with h1 | h1
        · exact hroots x (List.mem_cons_of_mem _ h1)
        · exact hadjbound x h1
      have hclosed' : ∀ x j, j ∈ adjOf dA.1 x → (getV dA.1 j).isSome = true := by
        intro x j hj
        rw [hdA] at hj ⊢
        rw [← (structEq_discover push (adjOf gA c) (mark_visited gA c) fr).2.2.1 x,
          ← (structEq_mark_visited gA c).2.2.1 x] at hj
        rw [← (structEq_discover push (adjOf gA c) (mark_visited gA c) fr).isSome_getV j,
          ← (structEq_mark_visited gA c).isSome_getV j]
        exact hclosed x j hj
      have hfuel' : 2 * (unmarkedF dA.1).card + p.2.length +
          p.1.toList.length ≤ fuelA := by
        have h1 := discover_measure push hpushLen (adjOf gA c) (mark_visited gA c) fr
          (fun j hj => by
            rw [← (structEq_mark_visited gA c).isSome_getV j]
            exact hclosed c j hj)
        rw [← hdA] at h1
        have h2 : (unmarkedF (mark_visited gA c)).card ≤ (unmarkedF gA).card :=
          card_unmarkedF_mark_visited_le gA c
        have h3 : p.2.length + p.1.toList.length ≤ dA.2.length := by
          conv_rhs => rw [pop_front_decomp dA.2]
          rw [← hp, List.length_append]
          omega
        rw [show ((some c).toList.length) = 1 from rfl] at hfuel
        omega
      have hrec := pass1_extend push hpushMem hpushLen eqd fuelA k dA.1 dE.1
        p.1 p.2 hheap' hroots' hclosed' hfuel'
      have hunfA : pass1 push eqd (fuelA + 1) gA (some c) fr =
          ((pass1 push eqd fuelA dA.1 p.1 p.2).1,
           c :: (pass1 push eqd fuelA dA.1 p.1 p.2).2.1,
           (pass1 push eqd fuelA dA.1 p.1 p.2).2.2) := by
        simp only [pass1, hstop', Bool.false_eq_true, if_neg, not_false_iff,
          hadjc, hdA, hp]
      have hunfE : pass1 push eqd (fuelA + 1 + k) gE (some c) fr =
          ((pass1 push eqd (fuelA + k) dE.1 p.1 p.2).1,
           c :: (pass1 push eqd (fuelA + k) dE.1 p.1 p.2).2.1,
           (pass1 push eqd (fuelA + k) dE.1 p.1 p.2).2.2) := by
        rw [hsucc]
        simp only [pass1, hstopE, Bool.false_eq_true, if_neg, not_false_iff]
        rw [show adjOf (mark_visited gE c) c = adjOf gA c from
          hadjEq.trans hadjc]
        rw [← hdE, hfrEq, ← hp]
      rw [hunfA, hunfE]
      exact ⟨by rw [hrec.1], hrec.2⟩

/-- The claim C10: on a non-empty graph, inserting a fresh payload with an
empty neighbour list succeeds (returns TRUE) but only appends a vertex with
an empty adjacency list: no existing adjacency list or the entry vertex is
changed, the new vertex is unreachable from the entry, both searches for its
payload return NULL, a delete of its payload returns FALSE with no change,
and the breadth-first traversal prints exactly what it printed before. -/
theorem c10_isolated_insert (eq : α → α → Bool) (g : Graph α) (data : α)
    (e : Nat) (hclean : CleanReach g)
    (hclosedAll : ∀ x j, j ∈ adjOf g x → (getV g j).isSome = true)
    (hentry : g.vertex = some e) (he : e < g.heap.length)
    (hfresh : ∀ i v, getV g i = some v → eq data v.data = false) :
    add_vertex_to_graph eq g data [] =
      (true, ⟨g.heap ++ [some ⟨[], data, false⟩], g.vertex⟩) ∧
    ¬ReachesEntry (⟨g.heap ++ [some ⟨[], data, false⟩], g.vertex⟩ : Graph α)
      g.heap.length ∧
    (breadth_first_search eq
      ⟨g.heap ++ [some ⟨[], data, false⟩], g.vertex⟩ data).1 = none ∧
    (depth_first_search eq
      ⟨g.heap ++ [some ⟨[], data, false⟩], g.vertex⟩ data).1 = none ∧
    delete_from_graph eq ⟨g.heap ++ [some ⟨[], data, false⟩], g.vertex⟩ data =
      (false, ⟨g.heap ++ [some ⟨[], data, false⟩], g.vertex⟩) ∧
    (breadth_first_traversal
      (⟨g.heap ++ [some ⟨[], data, false⟩], g.vertex⟩ : Graph α)).1 =
      (breadth_first_traversal g).1 := by
  have hclosed : ClosedReach g := fun x _ j hj => hclosedAll x j hj
  set gext : Graph α := ⟨g.heap ++ [some ⟨[], data, false⟩], g.vertex⟩ with hgext
  have hheap : gext.heap = g.heap ++ [some ⟨[], data, false⟩] := rfl
  have hvert : gext.vertex = g.vertex := rfl
  -- reachability in the extended graph stays within the old heap
  have hreachbound : ∀ t, Reaches (adjOf gext) e t →
      Reaches (adjOf g) e t ∧ t < g.heap.length := by
    intro t ht
    induction ht with
    | refl => exact ⟨Relation.ReflTransGen.refl, he⟩
    | tail hab hb ih =>
      rename_i a b
      obtain ⟨hra, hla⟩ := ih
      rw [adjOf_heap_append hheap hla] at hb
      have hlb : b < g.heap.length := by
        rcases Option.isSome_iff_exists.mp (hclosedAll a b hb) with ⟨v, hv⟩
        exact lt_of_getV_eq_some hv
      exact ⟨hra.tail hb, hlb⟩
  have hreachE : ∀ t, ReachesEntry gext t →
      ReachesEntry g t ∧ t < g.heap.length := by
    rintro t ⟨e', he', hre⟩
    rw [hvert, hentry] at he'
    have hee : e' = e := ((Option.some.injEq _ _).mp he').symm
    subst hee
    obtain ⟨h1, h2⟩ := hreachbound t hre
    exact ⟨⟨e', hentry, h1⟩, h2⟩
  have hcleanE : CleanReach gext := by
    intro x hx
    obtain ⟨h1, h2⟩ := hreachE x hx
    rw [is_visited_heap_append hheap h2]
    exact hclean x h1
  have hclosedE : ClosedReach gext := by
    intro x hx j hj
    obtain ⟨h1, h2⟩ := hreachE x hx
    rw [adjOf_heap_append hheap h2] at hj
    have := hclosedAll x j hj
    rcases Option.isSome_iff_exists.mp this with ⟨v, hv⟩
    rw [getV_heap_append hheap (lt_of_getV_eq_some hv)]
    exact this
  have hfreshE : ∀ w, ReachesEntry gext w → ¬dataMatch eq gext data w := by
    intro w hw hm
    obtain ⟨h1, h2⟩ := hreachE w hw
    rcases hm with ⟨a, hdata, heqd⟩
    unfold dataOf at hdata
    rw [getV_heap_append hheap h2] at hdata
    cases hget : getV g w with
    | none => rw [hget] at hdata; exact Option.noConfusion hdata
    | some v =>
      rw [hget] at hdata
      simp at hdata
      rw [← hdata, hfresh w v hget] at heqd
      exact Bool.noConfusion heqd
  have hbfsE : (breadth_first_search eq gext data).1 = none := by
    cases hf : (breadth_first_search eq gext data).1 with
    | none => rfl
    | some w =>
      exfalso
      have := breadth_first_search_found_sound eq gext data w hf
      exact hfreshE w this.2 this.1
  have hdfsE : (depth_first_search eq gext data).1 = none := by
    cases hf : (depth_first_search eq gext data).1 with
    | none => rfl
    | some w =>
      exfalso
      have := depth_first_search_found_sound eq gext data w hf
      exact hfreshE w this.2 this.1
  have hbfsg : (breadth_first_search eq g data).1 = none := by
    cases hf : (breadth_first_search eq g data).1 with
    | none => rfl
    | some w =>
      exfalso
      exact not_dataMatch_of_noMatch hfresh w
        (breadth_first_search_found_sound eq g data w hf).1
  refine ⟨?_, ?_, hbfsE, hdfsE, ?_, ?_⟩
  · -- the success equation
    have hpair := breadth_first_search_pair eq g data hclean hclosed
    rw [hbfsg] at hpair
    unfold add_vertex_to_graph
    rw [hpair]
    simp only [resolve_adjacent, List.foldl_nil, hentry]
    rw [hgext, hentry]
  · -- the new vertex is unreachable from the entry
    intro hre
    exact absurd (hreachE _ hre).2 (by omega)
  · -- deleting the fresh payload is a no-op returning FALSE
    have hpairE := breadth_first_search_pair eq gext data hcleanE hclosedE
    rw [hbfsE] at hpairE
    unfold delete_from_graph
    rw [hpairE]
    rfl
  · -- the printed traversal order is unchanged
    have hlenE : gext.heap.length = g.heap.length + 1 := by
      rw [hheap, List.length_append]
      rfl
    have hfuelE : graphFuel gext = graphFuel g + 2 := by
      unfold graphFuel
      rw [hlenE]
      omega
    have hfuelOK : 2 * (unmarkedF g).card + ([] : List Nat).length +
        (g.vertex).toList.length ≤ graphFuel g := by
      have h1 : (unmarkedF g).card ≤ g.heap.length := by
        have h2 : (unmarkedF g).card ≤ (Finset.range g.heap.length).card :=
          Finset.card_le_card (Finset.filter_subset _ _)
        simpa using h2
      have h3 : (g.vertex).toList.length ≤ 1 := by
        cases g.vertex <;> simp
      unfold graphFuel
      simp only [List.length_nil]
      omega
    have hext := pass1_extend push_to_queue push_to_queue_iff
      push_to_queue_length (fun _ => false) (graphFuel g) 2 g gext
      g.vertex [] hheap
      (fun x hx => by
        have := root_reachesEntry hx
        rw [hentry] at this
        rw [← (Option.some.injEq _ _).mp this]
        exact he)
      hclosedAll hfuelOK
    show (pass1 push_to_queue (fun _ => false) (graphFuel gext) gext
        gext.vertex []).2.1 =
      (pass1 push_to_queue (fun _ => false) (graphFuel g) g g.vertex []).2.1
    rw [hfuelE, hvert]
    exact hext.1

/-- Witness for C10 at the demonstration graph with fresh payload 7. -/
theorem c10_isolated_insert_witness :
    add_vertex_to_graph eqN gScenario 7 [] =
      (true, ⟨gScenario.heap ++ [some ⟨[], 7, false⟩], gScenario.vertex⟩) ∧
    ¬ReachesEntry
      (⟨gScenario.heap ++ [some ⟨[], 7, false⟩], gScenario.vertex⟩ : Graph Nat)
      gScenario.heap.length ∧
    (breadth_first_search eqN
      ⟨gScenario.heap ++ [some ⟨[], 7, false⟩], gScenario.vertex⟩ 7).1 = none ∧
    (depth_first_search eqN
      ⟨gScenario.heap ++ [some ⟨[], 7, false⟩], gScenario.vertex⟩ 7).1 = none ∧
    delete_from_graph eqN
      ⟨gScenario.heap ++ [some ⟨[], 7, false⟩], gScenario.vertex⟩ 7 =
      (false, ⟨gScenario.heap ++ [some ⟨[], 7, false⟩], gScenario.vertex⟩) ∧
    (breadth_first_traversal
      (⟨gScenario.heap ++ [some ⟨[], 7, false⟩], gScenario.vertex⟩ : Graph Nat)).1 =
      (breadth_first_traversal gScenario).1 :=
  c10_isolated_insert eqN gScenario 7 0
    (cleanReach_of_cleanB (by decide))
    (closedB_spec (by decide))
    rfl (by decide)
    (noMatchB_spec (by decide))

/-! ### Effects of `setAdj`, `make_vertices_adjacent` and the linking fold -/

theorem adjOf_setAdj_self {g : Graph α} {i : Nat}
    (h : (getV g i).isSome = true) (l : List Nat) :
    adjOf (setAdj g i l) i = l := by
  rcases Option.isSome_iff_exists.mp h with ⟨v, hv⟩
  unfold setAdj
  rw [hv]
  simp [adjOf, getV_setV_self (lt_of_getV_eq_some hv)]

theorem adjOf_setAdj_ne (g : Graph α) {i j : Nat} (l : List Nat) (h : i ≠ j) :
    adjOf (setAdj g i l) j = adjOf g j := by
  unfold setAdj
  cases hv : getV g i with
  | none => rfl
  | some v => simp [adjOf, getV_setV_ne _ _ h]

theorem dataOf_setAdj (g : Graph α) (i : Nat) (l : List Nat) (x : Nat) :
    dataOf (setAdj g i l) x = dataOf g x := by
  unfold setAdj
  cases hv : getV g i with
  | none => rfl
  | some v =>
    by_cases hix : i = x
    · subst hix
      simp [dataOf, getV_setV_self (lt_of_getV_eq_some hv), hv]
    · simp [dataOf, getV_setV_ne _ _ hix]

theorem is_visited_setAdj (g : Graph α) (i : Nat) (l : List Nat) (x : Nat) :
    is_visited (setAdj g i l) x = is_visited g x := by
  unfold setAdj
  cases hv : getV g i with
  | none => rfl
  | some v =>
    by_cases hix : i = x
    · subst hix
      simp [is_visited, getV_setV_self (lt_of_getV_eq_some hv), hv]
    · simp [is_visited, getV_setV_ne _ _ hix]

theorem isSome_getV_setAdj (g : Graph α) (i : Nat) (l : List Nat) (x : Nat) :
    (getV (setAdj g i l) x).isSome = (getV g x).isSome := by
  unfold setAdj
  cases hv : getV g i with
  | none => rfl
  | some v =>
    by_cases hix : i = x
    · subst hix
      simp [getV_setV_self (lt_of_getV_eq_some hv), hv]
    · simp [getV_setV_ne _ _ hix]

theorem length_setAdj (g : Graph α) (i : Nat) (l : List Nat) :
    (setAdj g i l).heap.length = g.heap.length := by
  unfold setAdj
  cases hv : getV g i with
  | none => rfl
  | some v => simp [length_setV]

theorem adjOf_make_vertices_adjacent {g : Graph α} {v1 v2 : Nat}
    (h1 : (getV g v1).isSome = true) (h2 : (getV g v2).isSome = true)
    (hne : v1 ≠ v2) (x : Nat) :
    adjOf (make_vertices_adjacent g v1 v2) x =
      if x = v1 then add_to_list (adjOf g v1) v2
      else if x = v2 then add_to_list (adjOf g v2) v1
      else adjOf g x := by
  unfold make_vertices_adjacent
  have h2' : (getV (setAdj g v1 (add_to_list (adjOf g v1) v2)) v2).isSome = true := by
    rw [isSome_getV_setAdj]
    exact h2
  by_cases hx1 : x = v1
  · subst hx1
    rw [if_pos rfl, adjOf_setAdj_ne _ _ (fun h => hne h.symm),
      adjOf_setAdj_self h1]
  · rw [if_neg hx1]
    by_cases hx2 : x = v2
    · subst hx2
      rw [if_pos rfl, adjOf_setAdj_self h2', adjOf_setAdj_ne _ _ (fun h => hx1 h.symm)]
    · rw [if_neg hx2, adjOf_setAdj_ne _ _ (fun h => hx2 h.symm),
        adjOf_setAdj_ne _ _ (fun h => hx1 h.symm)]

theorem dataOf_make_vertices_adjacent (g : Graph α) (v1 v2 x : Nat) :
    dataOf (make_vertices_adjacent g v1 v2) x = dataOf g x := by
  unfold make_vertices_adjacent
  rw [dataOf_setAdj, dataOf_setAdj]

theorem is_visited_make_vertices_adjacent (g : Graph α) (v1 v2 x : Nat) :
    is_visited (make_vertices_adjacent g v1 v2) x = is_visited g x := by
  unfold make_vertices_adjacent
  rw [is_visited_setAdj, is_visited_setAdj]

theorem isSome_getV_make_vertices_adjacent (g : Graph α) (v1 v2 x : Nat) :
    (getV (make_vertices_adjacent g v1 v2) x).isSome = (getV g x).isSome := by
  unfold make_vertices_adjacent
  rw [isSome_getV_setAdj, isSome_getV_setAdj]

theorem vertex_make_vertices_adjacent (g : Graph α) (v1 v2 : Nat) :
    (make_vertices_adjacent g v1 v2).vertex = g.vertex := by
  unfold make_vertices_adjacent
  rw [vertex_setAdj, vertex_setAdj]

theorem length_make_vertices_adjacent (g : Graph α) (v1 v2 : Nat) :
    (make_vertices_adjacent g v1 v2).heap.length = g.heap.length := by
  unfold make_vertices_adjacent
  rw [length_setAdj, length_setAdj]

/-- Shape of the adjacency lists after the linking loop of
`add_vertex_to_graph`: the new vertex's list holds the resolved neighbours in
reverse order, and each resolved neighbour's list gains one front copy of the
new vertex per occurrence. -/
theorem fold_make_adjacent_adjOf (newId : Nat) :
    ∀ (ids : List Nat) (h : Graph α),
      (∀ i ∈ ids, (getV h i).isSome = true ∧ i ≠ newId) →
      (getV h newId).isSome = true →
      ∀ x, adjOf (ids.foldl (fun acc j => make_vertices_adjacent acc j newId) h) x =
        if x = newId then ids.reverse ++ adjOf h newId
        else List.replicate (ids.count x) newId ++ adjOf h x
  | [], h, _, _, x => by
    by_cases hx : x = newId <;> simp [hx]
  | i :: rest, h, hids, hnew, x => by
    have hi := hids i (List.mem_cons_self _ _)
    have hih := fold_make_adjacent_adjOf newId rest (make_vertices_adjacent h i newId)
      (fun j hj => by
        rw [isSome_getV_make_vertices_adjacent]
        exact hids j (List.mem_cons_of_mem _ hj))
      (by rw [isSome_getV_make_vertices_adjacent]; exact hnew)
      x
    rw [List.foldl_cons, hih]
    have hshape := adjOf_make_vertices_adjacent hi.1 hnew hi.2
    by_cases hx : x = newId
    · subst hx
      rw [if_pos rfl, if_pos rfl, hshape x, if_neg (fun h => hi.2 h.symm), if_pos rfl]
      rw [List.reverse_cons, List.append_assoc]
      rfl
    · rw [if_neg hx, if_neg hx, hshape x]
      by_cases hxi : x = i
      · subst hxi
        rw [if_pos rfl]
        rw [List.count_cons_self]
        rw [List.replicate_succ']
        rw [List.append_assoc]
        rfl
      · rw [if_neg hxi, if_neg hx, List.count_cons_of_ne hxi]

theorem fold_make_adjacent_dataOf (newId : Nat) :
    ∀ (ids : List Nat) (h : Graph α) (x : Nat),
      dataOf (ids.foldl (fun acc j => make_vertices_adjacent acc j newId) h) x =
        dataOf h x
  | [], _, _ => rfl
  | i :: rest, h, x => by
    rw [List.foldl_cons, fold_make_adjacent_dataOf newId rest _ x,
      dataOf_make_vertices_adjacent]

theorem fold_make_adjacent_is_visited (newId : Nat) :
    ∀ (ids : List Nat) (h : Graph α) (x : Nat),
      is_visited (ids.foldl (fun acc j => make_vertices_adjacent acc j newId) h) x =
        is_visited h x
  | [], _, _ => rfl
  | i :: rest, h, x => by
    rw [List.foldl_cons, fold_make_adjacent_is_visited newId rest _ x,
      is_visited_make_vertices_adjacent]

theorem fold_make_adjacent_isSome (newId : Nat) :
    ∀ (ids : List Nat) (h : Graph α) (x : Nat),
      (getV (ids.foldl (fun acc j => make_vertices_adjacent acc j newId) h) x).isSome =
        (getV h x).isSome
  | [], _, _ => rfl
  | i :: rest, h, x => by
    rw [List.foldl_cons, fold_make_adjacent_isSome newId rest _ x,
      isSome_getV_make_vertices_adjacent]

theorem fold_make_adjacent_vertex (newId : Nat) :
    ∀ (ids : List Nat) (h : Graph α),
      (ids.foldl (fun acc j => make_vertices_adjacent acc j newId) h).vertex =
        h.vertex
  | [], _ => rfl
  | i :: rest, h => by
    rw [List.foldl_cons, fold_make_adjacent_vertex newId rest _,
      vertex_make_vertices_adjacent]

theorem fold_make_adjacent_length (newId : Nat) :
    ∀ (ids : List Nat) (h : Graph α),
      (ids.foldl (fun acc j => make_vertices_adjacent acc j newId) h).heap.length =
        h.heap.length
  | [], _ => rfl
  | i :: rest, h => by
    rw [List.foldl_cons, fold_make_adjacent_length newId rest _,
      length_make_vertices_adjacent]

/-! ### Behaviour of `delete_from_list` -/

theorem delete_from_list_head (l : List Nat) (d : Nat) :
    delete_from_list (d :: l) d = (true, l) := by
  simp [delete_from_list]

theorem delete_from_list_not_mem : ∀ {l : List Nat} {d : Nat}, d ∉ l →
    delete_from_list l d = (false, l)
  | [], d, _ => rfl
  | y :: ys, d, h => by
    have hy : y ≠ d := fun hyd => h (hyd ▸ List.mem_cons_self _ _)
    have hrec := delete_from_list_not_mem (fun hm => h (List.mem_cons_of_mem _ hm))
    simp [delete_from_list, hy, hrec]

theorem delete_from_list_spec : ∀ {l : List Nat} {d : Nat}, d ∈ l →
    (delete_from_list l d).1 = true ∧
    ∀ x, ((delete_from_list l d).2).count x =
      l.count x - (if x = d then 1 else 0)
  | [], d, h => absurd h (List.not_mem_nil d)
  | y :: ys, d, h => by
    by_cases hy : y = d
    · subst hy
      rw [delete_from_list_head]
      refine ⟨rfl, ?_⟩
      intro x
      by_cases hx : x = y
      · subst hx
        simp [List.count_cons_self]
      · simp [List.count_cons_of_ne hx, hx]
    · have hmem : d ∈ ys := by
        rcases List.mem_cons.mp h with h1 | h1
        · exact absurd h1.symm hy
        · exact h1
      obtain ⟨h1, h2⟩ := delete_from_list_spec hmem
      constructor
      · simp [delete_from_list, hy, h1]
      · intro x
        have : (delete_from_list (y :: ys) d).2 = y :: (delete_from_list ys d).2 := by
          simp [delete_from_list, hy]
        rw [this]
        by_cases hx : x = y
        · subst hx
          rw [List.count_cons_self, List.count_cons_self, h2 x]
          have hcount : ys.count x ≥ (if x = d then 1 else 0) := by
            by_cases hxd : x = d
            · exact absurd hxd hy
            · simp [hxd]
          omega
        · rw [List.count_cons_of_ne hx, List.count_cons_of_ne hx, h2 x]

theorem mem_delete_from_list : ∀ {l : List Nat} {d x : Nat},
    x ∈ (delete_from_list l d).2 → x ∈ l
  | [], d, x, h => h
  | y :: ys, d, x, h => by
    by_cases hy : y = d
    · subst hy
      rw [delete_from_list_head] at h
      exact List.mem_cons_of_mem _ h
    · have : (delete_from_list (y :: ys) d).2 = y :: (delete_from_list ys d).2 := by
        simp [delete_from_list, hy]
      rw [this] at h
      rcases List.mem_cons.mp h with h1 | h1
      · exact h1 ▸ List.mem_cons_self _ _
      · exact List.mem_cons_of_mem _ (mem_delete_from_list h1)

/-! ### Properties of the neighbour resolution loop -/

theorem resolve_adjacent_snd (eq : α → α → Bool) :
    ∀ (adj : List α) (g : Graph α), CleanReach g → ClosedReach g →
      (resolve_adjacent eq g adj).2 = g
  | [], g, _, _ => rfl
  | d :: rest, g, hclean, hclosed => by
    have hpair := breadth_first_search_pair eq g d hclean hclosed
    cases hf : (breadth_first_search eq g d).1 with
    | none =>
      rw [hf] at hpair
      unfold resolve_adjacent
      rw [hpair]
    | some v =>
      rw [hf] at hpair
      have hrec := resolve_adjacent_snd eq rest g hclean hclosed
      unfold resolve_adjacent
      rw [hpair]
      simp only []
      cases hr : (resolve_adjacent eq g rest).1 <;> simp [hr, hrec]

theorem resolve_adjacent_ids (eq : α → α → Bool) :
    ∀ (adj : List α) (g : Graph α) (ids : List Nat), CleanReach g →
      ClosedReach g → (resolve_adjacent eq g adj).1 = some ids →
      ∀ i ∈ ids, (getV g i).isSome = true ∧ ReachesEntry g i
  | [], g, ids, _, _, hres => by
    have : ids = [] := by
      simp [resolve_adjacent] at hres
      exact hres
    subst this
    exact fun i hi => absurd hi (List.not_mem_nil i)
  | d :: rest, g, ids, hclean, hclosed, hres => by
    have hpair := breadth_first_search_pair eq g d hclean hclosed
    cases hf : (breadth_first_search eq g d).1 with
    | none =>
      rw [hf] at hpair
      unfold resolve_adjacent at hres
      rw [hpair] at hres
      exact Option.noConfusion hres
    | some v =>
      rw [hf] at hpair
      have hsound := breadth_first_search_found_sound eq g d v hf
      have hvlive : (getV g v).isSome = true := by
        rcases hsound.1 with ⟨a, hdata, _⟩
        unfold dataOf at hdata
        cases hg : getV g v with
        | none => rw [hg] at hdata; exact Option.noConfusion hdata
        | some vv => simp
      unfold resolve_adjacent at hres
      rw [hpair] at hres
      simp only [] at hres
      cases hr : (resolve_adjacent eq g rest).1 with
      | none => rw [hr] at hres; exact Option.noConfusion hres
      | some vs =>
        rw [hr] at hres
        simp only [Option.some.injEq] at hres
        subst hres
        intro i hi
        rcases List.mem_cons.mp hi with h1 | h1
        · subst h1
          exact ⟨hvlive, hsound.2⟩
        · exact resolve_adjacent_ids eq rest g vs hclean hclosed hr i h1

/-! ### More heap helpers for the insertion analysis -/

theorem lt_of_isSome_getV {g : Graph α} {i : Nat}
    (h : (getV g i).isSome = true) : i < g.heap.length := by
  rcases Option.isSome_iff_exists.mp h with ⟨v, hv⟩
  exact lt_of_getV_eq_some hv

theorem adjOf_of_ge {g : Graph α} {a : Nat} (h : g.heap.length ≤ a) :
    adjOf g a = [] := by
  rw [adjOf, getV_eq_none_of_le g h]

theorem count_adjOf_of_ge {g : Graph α}
    (hclosed : ∀ x j, j ∈ adjOf g x → (getV g j).isSome = true) {b : Nat}
    (hb : g.heap.length ≤ b) (x : Nat) : (adjOf g x).count b = 0 :=
  List.count_eq_zero.mpr fun hm => by
    have := hclosed x b hm
    rw [getV_eq_none_of_le g hb] at this
    exact Bool.noConfusion this

theorem getV_append_at (g : Graph α) (o : Option (Vertex α)) (w : Option Nat) :
    getV (⟨g.heap ++ [o], w⟩ : Graph α) g.heap.length = o := by
  unfold getV
  simp only
  rw [List.get?_append_right (le_refl _), Nat.sub_self]
  rfl

theorem getV_append_gt (g : Graph α) (o : Option (Vertex α)) (w : Option Nat)
    {i : Nat} (h : g.heap.length < i) :
    getV (⟨g.heap ++ [o], w⟩ : Graph α) i = none := by
  apply getV_eq_none_of_le
  simp only [List.length_append, List.length_singleton]
  omega

theorem count_replicate_self_nat (n x : Nat) :
    (List.replicate n x).count x = n := by
  induction n with
  | zero => rfl
  | succ m ih => rw [List.replicate_succ, List.count_cons_self, ih]

theorem count_replicate_of_ne {x b : Nat} (h : b ≠ x) (n : Nat) :
    (List.replicate n x).count b = 0 :=
  List.count_eq_zero.mpr fun hm => h (List.eq_of_mem_replicate hm)

/-- Invariant bundle for the graph produced by a successful insertion: the
allocation of the fresh vertex followed by the symmetric linking fold. -/
theorem wf_insert_core (g : Graph α) (dta : α) (ids : List Nat)
    (gR : Graph α) (hw : Wf g)
    (hids : ∀ i ∈ ids, (getV g i).isSome = true)
    (hgR : gR = ids.foldl
      (fun acc j => make_vertices_adjacent acc j g.heap.length)
      ⟨g.heap ++ [some ⟨[], dta, false⟩], g.vertex⟩) :
    (∀ i, is_visited gR i = false) ∧
    (∀ x j, j ∈ adjOf gR x → (getV gR j).isSome = true) ∧
    (∀ x j, j ∈ adjOf gR x → j ≠ x) ∧
    (∀ a b, (adjOf gR a).count b = (adjOf gR b).count a) ∧
    gR.vertex = g.vertex ∧
    gR.heap.length = g.heap.length + 1 := by
  set n := g.heap.length with hn
  set g3 : Graph α := ⟨g.heap ++ [some ⟨[], dta, false⟩], g.vertex⟩ with hg3
  have hheap3 : g3.heap = g.heap ++ [some ⟨[], dta, false⟩] := rfl
  have hlt : ∀ i ∈ ids, i < n := fun i hi => lt_of_isSome_getV (hids i hi)
  have hne : ∀ i ∈ ids, i ≠ n := fun i hi => Nat.ne_of_lt (hlt i hi)
  have hg3at : getV g3 n = some ⟨[], dta, false⟩ := getV_append_at g _ _
  have hg3lt : ∀ {i}, i < n → getV g3 i = getV g i := fun h =>
    getV_heap_append hheap3 h
  have hg3gt : ∀ {i}, n < i → getV g3 i = none := fun h =>
    getV_append_gt g _ _ h
  have hlen3 : g3.heap.length = n + 1 := by
    rw [hheap3, List.length_append]
    rfl
  have hadj3 : ∀ x, adjOf g3 x = if x = n then [] else adjOf g x := by
    intro x
    rcases Nat.lt_trichotomy x n with h | h | h
    · rw [if_neg (Nat.ne_of_lt h), adjOf, hg3lt h, adjOf]
    · subst h
      rw [if_pos rfl, adjOf, hg3at]
    · rw [if_neg (Nat.ne_of_gt h), adjOf, hg3gt h,
        adjOf_of_ge (le_of_lt h)]
  have hvis3 : ∀ i, is_visited g3 i = false := by
    intro i
    rcases Nat.lt_trichotomy i n with h | h | h
    · rw [is_visited, hg3lt h]
      have := hw.clean i
      rw [is_visited] at this
      exact this
    · subst h
      rw [is_visited, hg3at]
    · rw [is_visited, hg3gt h]
  have hlive3 : ∀ i, (getV g3 i).isSome = true ↔
      ((getV g i).isSome = true ∨ i = n) := by
    intro i
    rcases Nat.lt_trichotomy i n with h | h | h
    · rw [hg3lt h]
      simp [Nat.ne_of_lt h]
    · subst h
      rw [hg3at]
      simp
    · rw [hg3gt h, getV_eq_none_of_le g (le_of_lt h)]
      simp [Nat.ne_of_gt h]
  have hfold := fold_make_adjacent_adjOf n ids g3
    (fun i hi => ⟨(hlive3 i).mpr (Or.inl (hids i hi)), hne i hi⟩)
    ((hlive3 n).mpr (Or.inr rfl))
  have hadj3n : adjOf g3 n = [] := by
    rw [hadj3 n, if_pos rfl]
  have hadjR : ∀ x, adjOf gR x =
      if x = n then ids.reverse
      else List.replicate (ids.count x) n ++ adjOf g x := by
    intro x
    rw [hgR, hfold x, hadj3n]
    by_cases hx : x = n
    · simp [hx]
    · rw [if_neg hx, if_neg hx, hadj3 x, if_neg hx]
  have hliveR : ∀ i, (getV gR i).isSome = (getV g3 i).isSome := by
    intro i
    rw [hgR, fold_make_adjacent_isSome]
  have hvisR : ∀ i, is_visited gR i = is_visited g3 i := by
    intro i
    rw [hgR, fold_make_adjacent_is_visited]
  refine ⟨?_, ?_, ?_, ?_, ?_, ?_⟩
  · intro i
    rw [hvisR i, hvis3 i]
  · intro x j hj
    rw [hadjR x] at hj
    rw [hliveR j]
    by_cases hx : x = n
    · rw [if_pos hx] at hj
      rw [List.mem_reverse] at hj
      exact (hlive3 j).mpr (Or.inl (hids j hj))
    · rw [if_neg hx] at hj
      rcases List.mem_append.mp hj with h1 | h1
      · rw [List.eq_of_mem_replicate h1]
        exact (hlive3 n).mpr (Or.inr rfl)
      · exact (hlive3 j).mpr (Or.inl (hw.closed x j h1))
  · intro x j hj
    rw [hadjR x] at hj
    by_cases hx : x = n
    · rw [if_pos hx] at hj
      rw [List.mem_reverse] at hj
      rw [hx]
      exact hne j hj
    · rw [if_neg hx] at hj
      rcases List.mem_append.mp hj with h1 | h1
      · rw [List.eq_of_mem_replicate h1]
        exact fun h => hx h.symm
      · exact hw.noSelf x j h1
  · intro a b
    rw [hadjR a, hadjR b]
    have hlen_le : g.heap.length ≤ n := le_of_eq hn.symm
    by_cases ha : a = n
    · subst ha
      by_cases hb : b = n
      · subst hb
        rfl
      · rw [if_pos rfl, if_neg hb, List.count_append, List.count_reverse,
          count_replicate_self_nat, count_adjOf_of_ge hw.closed hlen_le b]
        omega
    · by_cases hb : b = n
      · subst hb
        rw [if_neg ha, if_pos rfl, List.count_append, List.count_reverse,
          count_replicate_self_nat, count_adjOf_of_ge hw.closed hlen_le a]
        omega
      · rw [if_neg ha, if_neg hb, List.count_append, List.count_append,
          count_replicate_of_ne hb, count_replicate_of_ne ha, hw.sym a b]
  · rw [hgR, fold_make_adjacent_vertex]
  · rw [hgR, fold_make_adjacent_length, hlen3]

theorem cleanReach_of_wf {g : Graph α} (hw : Wf g) : CleanReach g :=
  fun x _ => hw.clean x

theorem closedReach_of_wf {g : Graph α} (hw : Wf g) : ClosedReach g :=
  fun x _ j hj => hw.closed x j hj

/-- Insertion preserves the well-formedness invariant. -/
theorem wf_add (eq : α → α → Bool) (g : Graph α) (d : α) (adj : List α)
    (hw : Wf g) : Wf (add_vertex_to_graph eq g d adj).2 := by
  have hclean := cleanReach_of_wf hw
  have hclosed := closedReach_of_wf hw
  have hpair := breadth_first_search_pair eq g d hclean hclosed
  cases hf : (breadth_first_search eq g d).1 with
  | some w =>
    rw [hf] at hpair
    unfold add_vertex_to_graph
    rw [hpair]
    exact hw
  | none =>
    rw [hf] at hpair
    have hsnd := resolve_adjacent_snd eq adj g hclean hclosed
    cases hres : (resolve_adjacent eq g adj).1 with
    | none =>
      have hrpair : resolve_adjacent eq g adj = (none, g) := by
        have he : resolve_adjacent eq g adj =
            ((resolve_adjacent eq g adj).1, (resolve_adjacent eq g adj).2) :=
          Prod.mk.eta.symm
        rw [he, hres, hsnd]
      unfold add_vertex_to_graph
      rw [hpair]
      simp only [hrpair]
      exact hw
    | some ids =>
      have hrpair : resolve_adjacent eq g adj = (some ids, g) := by
        have he : resolve_adjacent eq g adj =
            ((resolve_adjacent eq g adj).1, (resolve_adjacent eq g adj).2) :=
          Prod.mk.eta.symm
        rw [he, hres, hsnd]
      have hids : ∀ i ∈ ids, (getV g i).isSome = true := fun i hi =>
        (resolve_adjacent_ids eq adj g ids hclean hclosed hres i hi).1
      obtain ⟨hA, hB, hC, hD, hE, hF⟩ := wf_insert_core g d ids
        (ids.foldl (fun acc j => make_vertices_adjacent acc j g.heap.length)
          ⟨g.heap ++ [some ⟨[], d, false⟩], g.vertex⟩) hw hids rfl
      unfold add_vertex_to_graph
      rw [hpair]
      simp only [hrpair]
      set gR := ids.foldl
        (fun acc j => make_vertices_adjacent acc j g.heap.length)
        ⟨g.heap ++ [some ⟨[], d, false⟩], g.vertex⟩ with hgRdef
      cases hv : gR.vertex with
      | none =>
        simp only [hv]
        exact {
          clean := hA
          closed := hB
          noSelf := hC
          sym := hD
          entry := fun e he => by
            have : e = g.heap.length := by
              simpa using he.symm
            rw [this]
            show g.heap.length < (⟨gR.heap, _⟩ : Graph α).heap.length
            show g.heap.length < gR.heap.length
            omega }
      | some e0 =>
        simp only [hv]
        exact {
          clean := hA
          closed := hB
          noSelf := hC
          sym := hD
          entry := fun e he => by
            have he' : g.vertex = some e := hE.symm.trans he
            have := hw.entry e he'
            omega }

/-! ### Analysis of the deletion link-removal loop -/

theorem dataOf_removeLinks (g : Graph α) (v : Nat) :
    ∀ (l : List Nat) (x : Nat), dataOf (removeLinks g v l).1 x = dataOf g x
  | [], _ => rfl
  | a :: rest, x => by
    unfold removeLinks
    rw [dataOf_removeLinks _ v rest x, dataOf_setAdj, dataOf_setAdj]

theorem is_visited_removeLinks (g : Graph α) (v : Nat) :
    ∀ (l : List Nat) (x : Nat),
      is_visited (removeLinks g v l).1 x = is_visited g x
  | [], _ => rfl
  | a :: rest, x => by
    unfold removeLinks
    rw [is_visited_removeLinks _ v rest x, is_visited_setAdj, is_visited_setAdj]

theorem isSome_removeLinks (g : Graph α) (v : Nat) :
    ∀ (l : List Nat) (x : Nat),
      (getV (removeLinks g v l).1 x).isSome = (getV g x).isSome
  | [], _ => rfl
  | a :: rest, x => by
    unfold removeLinks
    rw [isSome_removeLinks _ v rest x, isSome_getV_setAdj, isSome_getV_setAdj]

theorem length_removeLinks (g : Graph α) (v : Nat) :
    ∀ (l : List Nat), (removeLinks g v l).1.heap.length = g.heap.length
  | [] => rfl
  | a :: rest => by
    unfold removeLinks
    rw [length_removeLinks _ v rest, length_setAdj, length_setAdj]

/-- Core accounting of `delete_vertex_from_graph`'s loop, run on the target's
own adjacency list under the symmetry invariant: the target's list is fully
consumed, exactly the matching back-references to the target disappear from
the neighbours' lists (nothing else changes), and every assert passes. -/
theorem removeLinks_spec (v : Nat) :
    ∀ (l : List Nat) (g : Graph α),
      (getV g v).isSome = true →
      adjOf g v = l →
      (∀ a ∈ l, (getV g a).isSome = true) →
      (∀ a ∈ l, a ≠ v) →
      (∀ a, a ≠ v → (adjOf g a).count v = l.count a) →
      adjOf (removeLinks g v l).1 v = [] ∧
      (∀ a, a ≠ v → ∀ b, b ≠ v →
        (adjOf (removeLinks g v l).1 a).count b = (adjOf g a).count b) ∧
      (∀ a, a ≠ v → (adjOf (removeLinks g v l).1 a).count v = 0) ∧
      (removeLinks g v l).2 = true
  | [], g, _, hl, _, _, hcnt => by
    refine ⟨hl, fun a _ b _ => rfl, fun a ha => ?_, rfl⟩
    show (adjOf g a).count v = 0
    rw [hcnt a ha]
    rfl
  | a0 :: rest, g, hv, hl, hlive, hne, hcnt => by
    have ha0 : a0 ∈ a0 :: rest := List.mem_cons_self _ _
    have ha0v : a0 ≠ v := hne a0 ha0
    have ha0live : (getV g a0).isSome = true := hlive a0 ha0
    -- the first delete: v is present in a0's list
    have hvin : v ∈ adjOf g a0 := by
      have h1 := hcnt a0 ha0v
      rw [List.count_cons_self] at h1
      have : 0 < (adjOf g a0).count v := by omega
      exact List.count_pos_iff_mem.mp this
    obtain ⟨hd1, hd1cnt⟩ := delete_from_list_spec hvin
    set r1 := delete_from_list (adjOf g a0) v with hr1
    set g1 := setAdj g a0 r1.2 with hg1
    -- a0's new list, v's list unchanged
    have hadj1 : ∀ x, adjOf g1 x = if x = a0 then r1.2 else adjOf g x := by
      intro x
      by_cases hx : x = a0
      · subst hx
        rw [if_pos rfl, hg1, adjOf_setAdj_self ha0live]
      · rw [if_neg hx, hg1, adjOf_setAdj_ne _ _ (fun h => hx h.symm)]
    have hadj1v : adjOf g1 v = a0 :: rest := by
      rw [hadj1 v, if_neg (fun h => ha0v h.symm), hl]
    -- the second delete removes the head of v's list
    have hd2 : delete_from_list (adjOf g1 v) a0 = (true, rest) := by
      rw [hadj1v, delete_from_list_head]
    set g2 := setAdj g1 v (delete_from_list (adjOf g1 v) a0).2 with hg2
    have hvlive1 : (getV g1 v).isSome = true := by
      rw [hg1, isSome_getV_setAdj]
      exact hv
    have hadj2 : ∀ x, adjOf g2 x =
        if x = v then rest else adjOf g1 x := by
      intro x
      by_cases hx : x = v
      · subst hx
        rw [if_pos rfl, hg2, hd2, adjOf_setAdj_self hvlive1]
      · rw [if_neg hx, hg2, adjOf_setAdj_ne _ _ (fun h => hx h.symm)]
    have hlive2 : ∀ x, (getV g2 x).isSome = (getV g x).isSome := by
      intro x
      rw [hg2, isSome_getV_setAdj, hg1, isSome_getV_setAdj]
    -- the recursive call's preconditions
    have hrec := removeLinks_spec v rest g2
      (by rw [hlive2]; exact hv)
      (by rw [hadj2 v, if_pos rfl])
      (fun a ha => by
        rw [hlive2]
        exact hlive a (List.mem_cons_of_mem _ ha))
      (fun a ha => hne a (List.mem_cons_of_mem _ ha))
      (fun a ha => by
        rw [hadj2 a, if_neg ha, hadj1 a]
        by_cases haa : a = a0
        · subst haa
          rw [if_pos rfl, hd1cnt v, if_pos rfl]
          have h1 := hcnt a ha
          rw [List.count_cons_self] at h1
          omega
        · rw [if_neg haa]
          have h1 := hcnt a ha
          rw [List.count_cons_of_ne haa] at h1
          exact h1)
    obtain ⟨hc1, hc2, hc3, hc4⟩ := hrec
    -- assemble for this level
    have hunf : removeLinks g v (a0 :: rest) =
        ((removeLinks g2 v rest).1,
          r1.1 && (delete_from_list (adjOf g1 v) a0).1 && (removeLinks g2 v rest).2) := by
      simp only [removeLinks, hr1, hg1, hg2]
    rw [hunf]
    refine ⟨hc1, ?_, hc3, ?_⟩
    · intro a ha b hb
      rw [hc2 a ha b hb, hadj2 a, if_neg ha, hadj1 a]
      by_cases haa : a = a0
      · subst haa
        rw [if_pos rfl, hd1cnt b, if_neg hb]
        omega
      · rw [if_neg haa]
    · rw [hd1, hd2, hc4]
      rfl

theorem isSome_of_dataMatch {eq : α → α → Bool} {g : Graph α} {d : α}
    {w : Nat} (h : dataMatch eq g d w) : (getV g w).isSome = true := by
  rcases h with ⟨a, hdata, _⟩
  unfold dataOf at hdata
  cases hg : getV g w with
  | none => rw [hg] at hdata; exact Option.noConfusion hdata
  | some v => simp

theorem adjOf_freeV_self (g : Graph α) (v : Nat) :
    adjOf (freeV g v) v = [] := by
  rw [adjOf, getV_freeV_self]

theorem adjOf_freeV_ne (g : Graph α) {i j : Nat} (h : i ≠ j) :
    adjOf (freeV g i) j = adjOf g j := by
  rw [adjOf, getV_freeV_ne g h, adjOf]

theorem is_visited_freeV (g : Graph α) (v x : Nat) :
    is_visited (freeV g v) x = (is_visited g x && !(decide (x = v))) := by
  by_cases hx : x = v
  · subst hx
    unfold is_visited
    rw [getV_freeV_self]
    simp
  · unfold is_visited
    rw [getV_freeV_ne g (fun h => hx h.symm)]
    simp [hx]

/-- Deletion preserves the well-formedness invariant. -/
theorem wf_delete (eq : α → α → Bool) (g : Graph α) (d : α) (hw : Wf g) :
    Wf (delete_from_graph eq g d).2 := by
  have hclean := cleanReach_of_wf hw
  have hclosed := closedReach_of_wf hw
  have hpair := breadth_first_search_pair eq g d hclean hclosed
  cases hf : (breadth_first_search eq g d).1 with
  | none =>
    rw [hf] at hpair
    unfold delete_from_graph
    rw [hpair]
    exact hw
  | some v =>
    rw [hf] at hpair
    have hvlive := isSome_of_dataMatch
      (breadth_first_search_found_sound eq g d v hf).1
    obtain ⟨hc1, hc2, hc3, _⟩ := removeLinks_spec v (adjOf g v) g hvlive rfl
      (fun a ha => hw.closed v a ha)
      (fun a ha => hw.noSelf v a ha)
      (fun a ha => hw.sym a v)
    set r := removeLinks g v (adjOf g v) with hr
    have hresult : (delete_from_graph eq g d).2 = freeV r.1 v := by
      unfold delete_from_graph
      rw [hpair]
      rfl
    rw [hresult]
    have hadjF : ∀ x, adjOf (freeV r.1 v) x =
        if x = v then [] else adjOf r.1 x := by
      intro x
      by_cases hx : x = v
      · subst hx
        rw [if_pos rfl, adjOf_freeV_self]
      · rw [if_neg hx, adjOf_freeV_ne _ (fun h => hx h.symm)]
    have hmemr : ∀ x j, x ≠ v → j ∈ adjOf r.1 x → j ≠ v ∧ j ∈ adjOf g x := by
      intro x j hx hj
      have hjv : j ≠ v := by
        intro hjv
        subst hjv
        have := hc3 x hx
        rw [List.count_eq_zero] at this
        exact this hj
      refine ⟨hjv, ?_⟩
      have hpos : 0 < (adjOf r.1 x).count j := List.count_pos_iff_mem.mpr hj
      rw [hc2 x hx j hjv] at hpos
      exact List.count_pos_iff_mem.mp hpos
    refine ⟨?_, ?_, ?_, ?_, ?_⟩
    · intro i
      rw [is_visited_freeV]
      rw [hr, is_visited_removeLinks, hw.clean i]
      rfl
    · intro x j hj
      rw [hadjF x] at hj
      by_cases hx : x = v
      · rw [if_pos hx] at hj
        exact absurd hj (List.not_mem_nil j)
      · rw [if_neg hx] at hj
        obtain ⟨hjv, hjg⟩ := hmemr x j hx hj
        rw [getV_freeV_ne _ (fun h => hjv h.symm), hr, isSome_removeLinks]
        exact hw.closed x j hjg
    · intro x j hj
      rw [hadjF x] at hj
      by_cases hx : x = v
      · rw [if_pos hx] at hj
        exact absurd hj (List.not_mem_nil j)
      · rw [if_neg hx] at hj
        exact hw.noSelf x j (hmemr x j hx hj).2
    · intro a b
      rw [hadjF a, hadjF b]
      by_cases ha : a = v
      · by_cases hb : b = v
        · rw [if_pos ha, if_pos hb]
          simp
        · rw [if_pos ha, if_neg hb]
          rw [show List.count b ([] : List Nat) = 0 from rfl, ha, hc3 b hb]
      · by_cases hb : b = v
        · rw [if_neg ha, if_pos hb]
          rw [show List.count a ([] : List Nat) = 0 from rfl, hb, hc3 a ha]
        · rw [if_neg ha, if_neg hb, hc2 a ha b hb, hc2 b hb a ha, hw.sym a b]
    · intro e he
      rw [vertex_freeV, hr, vertex_removeLinks] at he
      have h1 := hw.entry e he
      rw [length_freeV, hr, length_removeLinks]
      exact h1

/-- Every graph the public API can build satisfies the invariant. -/
theorem reachableState_wf (eq : α → α → Bool) :
    ∀ {g : Graph α}, ReachableState eq g → Wf g := by
  intro g h
  induction h with
  | init =>
    refine ⟨?_, ?_, ?_, ?_, ?_⟩
    · intro i
      rw [is_visited, getV_eq_none_of_le _ (Nat.zero_le i)]
    · intro x j hj
      rw [adjOf, getV_eq_none_of_le _ (Nat.zero_le x)] at hj
      exact absurd hj (List.not_mem_nil j)
    · intro x j hj
      rw [adjOf, getV_eq_none_of_le _ (Nat.zero_le x)] at hj
      exact absurd hj (List.not_mem_nil j)
    · intro a b
      rw [adjOf, adjOf, getV_eq_none_of_le _ (Nat.zero_le a),
        getV_eq_none_of_le _ (Nat.zero_le b)]
      simp
    · intro e he
      exact Option.noConfusion he
  | add g d adj hr ih => exact wf_add eq g d adj ih
  | del g d hr ih => exact wf_delete eq g d ih

theorem dataOf_freeV_ne (g : Graph α) {i j : Nat} (h : i ≠ j) :
    dataOf (freeV g i) j = dataOf g j := by
  rw [dataOf, getV_freeV_ne g h, dataOf]

theorem reaches_mono {f f' : Nat → List Nat}
    (hsub : ∀ x j, j ∈ f x → j ∈ f' x) {s t : Nat}
    (h : Reaches f s t) : Reaches f' s t := by
  induction h with
  | refl => exact Relation.ReflTransGen.refl
  | tail h1 h2 ih => exact Relation.ReflTransGen.tail ih (hsub _ _ h2)

/-- When the search locates a vertex, `delete_from_graph` reports success and
returns the graph with the found vertex's links removed and its slot freed. -/
theorem delete_found_result (eq : α → α → Bool) (g : Graph α) (d : α) (v : Nat)
    (hclean : CleanReach g) (hclosed : ClosedReach g)
    (hf : (breadth_first_search eq g d).1 = some v) :
    delete_from_graph eq g d =
      (true, freeV (removeLinks g v (adjOf g v)).1 v) := by
  have hpair := breadth_first_search_pair eq g d hclean hclosed
  rw [hf] at hpair
  unfold delete_from_graph
  rw [hpair]
  rfl

/-- When the search finds nothing, `delete_from_graph` reports failure and
leaves the graph untouched. -/
theorem delete_notfound_result (eq : α → α → Bool) (g : Graph α) (d : α)
    (hclean : CleanReach g) (hclosed : ClosedReach g)
    (hf : (breadth_first_search eq g d).1 = none) :
    delete_from_graph eq g d = (false, g) := by
  have hpair := breadth_first_search_pair eq g d hclean hclosed
  rw [hf] at hpair
  unfold delete_from_graph
  rw [hpair]
  rfl

theorem delete_asserts_found (eq : α → α → Bool) (g : Graph α) (d : α)
    (v : Nat) (hclean : CleanReach g) (hclosed : ClosedReach g)
    (hf : (breadth_first_search eq g d).1 = some v)
    (hr2 : (removeLinks g v (adjOf g v)).2 = true)
    (hr1 : adjOf (removeLinks g v (adjOf g v)).1 v = []) :
    delete_asserts eq g d = true := by
  have hpair := breadth_first_search_pair eq g d hclean hclosed
  rw [hf] at hpair
  unfold delete_asserts
  rw [hpair]
  show ((removeLinks g v (adjOf g v)).2 &&
    (adjOf (removeLinks g v (adjOf g v)).1 v).isEmpty) = true
  rw [hr2, hr1]
  rfl

/-- The claim C1: in every graph reachable by any sequence of insert and
delete operations, adjacency is symmetric — A is in B's adjacency list iff B
is in A's, with equal multiplicity when parallel edges exist. -/
theorem c1_adjacency_symmetric (eq : α → α → Bool) (g : Graph α)
    (h : ReachableState eq g) (a b : Nat) :
    (b ∈ adjOf g a ↔ a ∈ adjOf g b) ∧
    (adjOf g a).count b = (adjOf g b).count a := by
  have hw := reachableState_wf eq h
  have hcnt := hw.sym a b
  refine ⟨?_, hcnt⟩
  constructor
  · intro hmem
    have := List.count_pos_iff_mem.mpr hmem
    rw [hcnt] at this
    exact List.count_pos_iff_mem.mp this
  · intro hmem
    have := List.count_pos_iff_mem.mpr hmem
    rw [← hcnt] at this
    exact List.count_pos_iff_mem.mp this

/-- Witness for C1: symmetry of the Palo Alto / Mountain View edge in the
demonstration graph built by three inserts. -/
theorem c1_adjacency_symmetric_witness :
    (1 ∈ adjOf gScenario 0 ↔ 0 ∈ adjOf gScenario 1) ∧
    (adjOf gScenario 0).count 1 = (adjOf gScenario 1).count 0 :=
  c1_adjacency_symmetric eqN gScenario
    (ReachableState.add gPAMV 2 [0, 1]
      (ReachableState.add gPA 1 [0]
        (ReachableState.add (create_graph Nat) 0 []
          ReachableState.init))) 0 1

/-- The claim C8: on a well-formed graph whose reachable payloads are
pairwise distinct (per an equivalence callback), whenever delete_from_graph
succeeds, afterwards no vertex reachable from the entry has a payload equal
to the deleted one, no remaining adjacency list references the deleted
vertex, and every assert in the deletion passes; when no vertex matches, it
returns FALSE with the graph unchanged. -/
theorem c8_delete_removes_all_links (eq : α → α → Bool) (g : Graph α) (d : α)
    (hw : Wf g) (hnd : NoDupPayloads eq g)
    (heq : Equivalence (fun a b : α => eq a b = true)) :
    ((delete_from_graph eq g d).1 = true →
      ∃ v, (breadth_first_search eq g d).1 = some v ∧
        (∀ w, ReachesEntry (delete_from_graph eq g d).2 w →
          ¬ dataMatch eq (delete_from_graph eq g d).2 d w) ∧
        (∀ x, v ∉ adjOf (delete_from_graph eq g d).2 x) ∧
        delete_asserts eq g d = true) ∧
    ((delete_from_graph eq g d).1 = false →
      delete_from_graph eq g d = (false, g)) := by
  have hclean := cleanReach_of_wf hw
  have hclosed := closedReach_of_wf hw
  cases hf : (breadth_first_search eq g d).1 with
  | none =>
    have hres := delete_notfound_result eq g d hclean hclosed hf
    constructor
    · intro htrue
      rw [hres] at htrue
      simp at htrue
    · intro _
      exact hres
  | some v =>
    have hvsound := breadth_first_search_found_sound eq g d v hf
    have hvlive := isSome_of_dataMatch hvsound.1
    obtain ⟨hc1, hc2, hc3, hc4⟩ := removeLinks_spec v (adjOf g v) g hvlive rfl
      (fun a ha => hw.closed v a ha)
      (fun a ha => hw.noSelf v a ha)
      (fun a ha => hw.sym a v)
    have hres := delete_found_result eq g d v hclean hclosed hf
    set r := removeLinks g v (adjOf g v) with hr
    have hgd : (delete_from_graph eq g d).2 = freeV r.1 v := by
      rw [hres]
    constructor
    · intro _
      refine ⟨v, rfl, ?_, ?_, ?_⟩
      · intro w hwre hwm
        rw [hgd] at hwre hwm
        obtain ⟨a, hda, heqa⟩ := hwm
        have hwv : w ≠ v := by
          intro h
          subst h
          rw [dataOf, getV_freeV_self] at hda
          exact Option.noConfusion hda
        rw [dataOf_freeV_ne _ (fun h => hwv h.symm), hr,
          dataOf_removeLinks] at hda
        have hsub : ∀ x j, j ∈ adjOf (freeV r.1 v) x → j ∈ adjOf g x := by
          intro x j hj
          by_cases hx : x = v
          · rw [hx, adjOf_freeV_self] at hj
            exact absurd hj (List.not_mem_nil j)
          · rw [adjOf_freeV_ne _ (fun h => hx h.symm)] at hj
            have hjv : j ≠ v := by
              intro h
              subst h
              have h0 := hc3 x hx
              rw [List.count_eq_zero] at h0
              exact h0 hj
            have hpos : 0 < (adjOf r.1 x).count j :=
              List.count_pos_iff_mem.mpr hj
            rw [hc2 x hx j hjv] at hpos
            exact List.count_pos_iff_mem.mp hpos
        obtain ⟨e, he, hreach⟩ := hwre
        rw [vertex_freeV, hr, vertex_removeLinks] at he
        have hwreg : ReachesEntry g w := ⟨e, he, reaches_mono hsub hreach⟩
        obtain ⟨⟨av, hdav, heqav⟩, hvre⟩ := hvsound
        have hfalse := hnd v w hvre hwreg (fun h => hwv h.symm) av a hdav hda
        have h2 : eq av a = true := heq.trans (heq.symm heqav) heqa
        rw [hfalse] at h2
        exact Bool.noConfusion h2
      · intro x
        rw [hgd]
        by_cases hx : x = v
        · rw [hx, adjOf_freeV_self]
          exact List.not_mem_nil v
        · rw [adjOf_freeV_ne _ (fun h => hx h.symm)]
          intro hmem
          have h0 := hc3 x hx
          rw [List.count_eq_zero] at h0
          exact h0 hmem
      · exact delete_asserts_found eq g d v hclean hclosed hf hc4 hc1
    · intro hfalse
      rw [hres] at hfalse
      simp at hfalse

theorem eqN_equiv : Equivalence (fun a b : Nat => eqN a b = true) := by
  constructor
  · intro x
    exact Nat.beq_refl x
  · intro x y h
    have h1 := Nat.eq_of_beq_eq_true h
    subst h1
    exact Nat.beq_refl x
  · intro x y z h1 h2
    have e1 := Nat.eq_of_beq_eq_true h1
    subst e1
    exact h2

theorem noDup_gScenario : NoDupPayloads eqN gScenario := by
  intro v w hv hw hne a b ha hb
  have hlen : gScenario.heap.length = 3 := by decide
  have hv3 : v < 3 := by
    by_contra h
    rw [dataOf, getV_eq_none_of_le _ (by rw [hlen]; omega)] at ha
    exact Option.noConfusion ha
  have hw3 : w < 3 := by
    by_contra h
    rw [dataOf, getV_eq_none_of_le _ (by rw [hlen]; omega)] at hb
    exact Option.noConfusion hb
  have hdata : ∀ i, i < 3 → dataOf gScenario i = some i := by decide
  rw [hdata v hv3] at ha
  rw [hdata w hw3] at hb
  have hva := Option.some.inj ha
  have hwb := Option.some.inj hb
  subst hva
  subst hwb
  cases h : eqN v w with
  | false => rfl
  | true => exact absurd (Nat.eq_of_beq_eq_true h) hne

theorem wf_gScenario : Wf gScenario :=
  reachableState_wf eqN
    (ReachableState.add gPAMV 2 [0, 1]
      (ReachableState.add gPA 1 [0]
        (ReachableState.add (create_graph Nat) 0 []
          ReachableState.init)))

/-- Witness for C8: deleting Mountain View's payload from the demonstration
graph succeeds, afterwards no reachable vertex matches it, no adjacency list
references the freed vertex, and every assert passes. -/
theorem c8_delete_removes_all_links_witness :
    ((delete_from_graph eqN gScenario 1).1 = true →
      ∃ v, (breadth_first_search eqN gScenario 1).1 = some v ∧
        (∀ w, ReachesEntry (delete_from_graph eqN gScenario 1).2 w →
          ¬ dataMatch eqN (delete_from_graph eqN gScenario 1).2 1 w) ∧
        (∀ x, v ∉ adjOf (delete_from_graph eqN gScenario 1).2 x) ∧
        delete_asserts eqN gScenario 1 = true) ∧
    ((delete_from_graph eqN gScenario 1).1 = false →
      delete_from_graph eqN gScenario 1 = (false, gScenario)) :=
  c8_delete_removes_all_links eqN gScenario 1 wf_gScenario noDup_gScenario
    eqN_equiv

theorem pairwise_of_mem {R : Nat → Nat → Prop} :
    ∀ (l : List Nat), (∀ a ∈ l, ∀ b ∈ l, R a b) → l.Pairwise R
  | [], _ => List.Pairwise.nil
  | x :: xs, h => by
    refine List.pairwise_cons.mpr ⟨fun b hb => h x (List.mem_cons_self x xs) b
      (List.mem_cons_of_mem _ hb), pairwise_of_mem xs ?_⟩
    intro a ha b hb
    exact h a (List.mem_cons_of_mem _ ha) b (List.mem_cons_of_mem _ hb)

theorem reachInB_succ_of (g : Graph α) {n s t : Nat}
    (h : reachInB g n s t = true) : reachInB g (n + 1) s t = true := by
  unfold reachInB
  rw [h]
  rfl

theorem reachInB_step (g : Graph α) {n s u t : Nat}
    (h : reachInB g n s u = true) (ht : t ∈ adjOf g u) :
    reachInB g (n + 1) s t = true := by
  have hu : u < g.heap.length := by
    cases hg : getV g u with
    | none =>
      unfold adjOf at ht
      rw [hg] at ht
      exact absurd ht (List.not_mem_nil t)
    | some v => exact lt_of_isSome_getV (by rw [hg]; rfl)
  have hany : ((List.range g.heap.length).any fun w =>
      reachInB g n s w && (adjOf g w).contains t) = true := by
    rw [List.any_eq_true]
    refine ⟨u, List.mem_range.mpr hu, ?_⟩
    rw [Bool.and_eq_true]
    refine ⟨h, ?_⟩
    simpa using ht
  unfold reachInB
  rw [hany]
  simp

theorem reaches_of_reachInB (g : Graph α) :
    ∀ (n s t : Nat), reachInB g n s t = true → Reaches (adjOf g) s t
  | 0, s, t, h => by
    unfold reachInB at h
    have : s = t := eq_of_beq h
    subst this
    exact Relation.ReflTransGen.refl
  | n + 1, s, t, h => by
    unfold reachInB at h
    rcases Bool.or_eq_true_iff.mp h with h1 | h1
    · exact reaches_of_reachInB g n s t h1
    · rw [List.any_eq_true] at h1
      obtain ⟨u, _, hband⟩ := h1
      obtain ⟨hbu, hbc⟩ := Bool.and_eq_true_iff.mp hband
      have hmem : t ∈ adjOf g u := by simpa using hbc
      exact Relation.ReflTransGen.tail (reaches_of_reachInB g n s u hbu) hmem

theorem reachInB_of_reaches (g : Graph α) {s t : Nat}
    (h : Reaches (adjOf g) s t) : ∃ n, reachInB g n s t = true := by
  induction h with
  | refl => exact ⟨0, by unfold reachInB; simp⟩
  | tail h1 h2 ih =>
    obtain ⟨n, hn⟩ := ih
    exact ⟨n + 1, reachInB_step g hn h2⟩

theorem isDist_unique {g : Graph α} {e x d1 d2 : Nat}
    (h1 : IsDist g e x d1) (h2 : IsDist g e x d2) : d1 = d2 := by
  rcases Nat.lt_trichotomy d1 d2 with hlt | heq | hgt
  · have hb := h1.1
    rw [h2.2 d1 hlt] at hb
    exact Bool.noConfusion hb
  · exact heq
  · have hb := h2.1
    rw [h1.2 d2 hgt] at hb
    exact Bool.noConfusion hb

theorem isDist_exists {g : Graph α} {e x : Nat}
    (h : Reaches (adjOf g) e x) : ∃ d0, IsDist g e x d0 := by
  obtain ⟨n, hn⟩ := reachInB_of_reaches g h
  have hx : ∃ m, reachInB g m e x = true := ⟨n, hn⟩
  refine ⟨Nat.find hx, Nat.find_spec hx, ?_⟩
  intro m hm
  exact Bool.eq_false_iff.mpr (Nat.find_min hx hm)

/-- Exact effect of the BFS inner loop on an all-live adjacency list: the
unvisited scanned vertices are appended to the queue in scan order, without
duplicates, and become exactly the newly marked vertices. -/
theorem discover_queue_spec :
    ∀ (l : List Nat) (g : Graph α) (fr : List Nat),
      (∀ j ∈ l, (getV g j).isSome = true) →
      ∃ new : List Nat,
        (discover push_to_queue g fr l).2 = fr ++ new ∧
        new.Nodup ∧
        (∀ j, j ∈ new ↔ (j ∈ l ∧ is_visited g j = false)) ∧
        (∀ j, is_visited (discover push_to_queue g fr l).1 j =
          (is_visited g j || decide (j ∈ new)))
  | [], g, fr, _ =>
    ⟨[], by simp [discover], List.nodup_nil, fun j => by simp,
      fun j => by simp [discover]⟩
  | x :: rest, g, fr, hlive => by
    have hlx : (getV g x).isSome = true := hlive x (List.mem_cons_self _ _)
    by_cases hx : is_visited g x = true
    · have heq : discover push_to_queue g fr (x :: rest) =
          discover push_to_queue g fr rest := by
        simp [discover, hx]
      obtain ⟨new, h1, h2, h3, h4⟩ := discover_queue_spec rest g fr
        (fun j hj => hlive j (List.mem_cons_of_mem _ hj))
      refine ⟨new, by rw [heq]; exact h1, h2, ?_, fun j => by rw [heq]; exact h4 j⟩
      intro j
      rw [h3 j]
      constructor
      · rintro ⟨hj1, hj2⟩
        exact ⟨List.mem_cons_of_mem _ hj1, hj2⟩
      · rintro ⟨hj1, hj2⟩
        rcases List.mem_cons.mp hj1 with hjx | hjr
        · subst hjx
          rw [hx] at hj2
          exact Bool.noConfusion hj2
        · exact ⟨hjr, hj2⟩
    · have hx1 : is_visited g x = false := Bool.eq_false_iff.mpr hx
      have heq : discover push_to_queue g fr (x :: rest) =
          discover push_to_queue (mark_visited g x) (push_to_queue fr x) rest := by
        simp [discover, hx1]
      have hlive1 : ∀ j ∈ rest, (getV (mark_visited g x) j).isSome = true := by
        intro j hj
        rw [← (structEq_mark_visited g x).isSome_getV j]
        exact hlive j (List.mem_cons_of_mem _ hj)
      obtain ⟨new, h1, h2, h3, h4⟩ := discover_queue_spec rest (mark_visited g x)
        (push_to_queue fr x) hlive1
      have hmarkedx : is_visited (mark_visited g x) x = true := by
        rw [is_visited_mark_visited]
        simp [hlx]
      have hxnew : x ∉ new := by
        intro hxm
        obtain ⟨_, hfalse⟩ := (h3 x).mp hxm
        rw [hmarkedx] at hfalse
        exact Bool.noConfusion hfalse
      refine ⟨x :: new, ?_, List.nodup_cons.mpr ⟨hxnew, h2⟩, ?_, ?_⟩
      · rw [heq, h1]
        simp [push_to_queue]
      · intro j
        constructor
        · intro hj
          rcases List.mem_cons.mp hj with hjx | hjn
          · subst hjx
            exact ⟨List.mem_cons_self _ _, hx1⟩
          · obtain ⟨hj1, hj2⟩ := (h3 j).mp hjn
            refine ⟨List.mem_cons_of_mem _ hj1, ?_⟩
            by_contra hvg
            have hvg1 : is_visited g j = true := by
              cases hv : is_visited g j
              · exact absurd hv hvg
              · rfl
            rw [is_visited_mark_visited_mono x hvg1] at hj2
            exact Bool.noConfusion hj2
        · rintro ⟨hj1, hj2⟩
          by_cases hjx : j = x
          · rw [hjx]
            exact List.mem_cons_self _ _
          · rcases List.mem_cons.mp hj1 with hjx2 | hjr
            · exact absurd hjx2 hjx
            · refine List.mem_cons_of_mem _ ((h3 j).mpr ⟨hjr, ?_⟩)
              rw [is_visited_mark_visited_of_ne g hjx]
              exact hj2
      · intro j
        rw [heq, h4 j, is_visited_mark_visited, hlx]
        by_cases hjx : j = x <;> by_cases hjn : j ∈ new <;>
          simp [hjx, hjn, List.mem_cons]

/-- A work pass whose stop predicate is constantly false never breaks. -/
theorem pass1_no_stop (push : List Nat → Nat → List Nat) (eqd : α → Bool)
    (heqd : ∀ a, eqd a = false) :
    ∀ (fuel : Nat) (g : Graph α) (cur : Option Nat) (fr : List Nat),
      (pass1 push eqd fuel g cur fr).2.2 = none
  | fuel, g, none, fr => by rw [pass1_none]
  | 0, g, some c, fr => by rw [pass1_zero]
  | fuel + 1, g, some c, fr => by
    have hstop : stopCheck eqd (mark_visited g c) c = false := by
      unfold stopCheck
      cases dataOf (mark_visited g c) c with
      | none => rfl
      | some d => exact heqd d
    unfold pass1
    simpa [hstop] using pass1_no_stop push eqd heqd fuel _ _ _

/-- BFS queue invariant: with a FIFO frontier whose distances from the entry
are nondecreasing and spread at most one level, and with every vertex at or
below the head's level already marked, the work pass processes vertices in
nondecreasing distance order, each at most once. -/
theorem pass1_bfs (eqd : α → Bool) (heqd : ∀ a, eqd a = false)
    (adjF : Nat → List Nat) (liveF : Nat → Bool) (e : Nat) (dist : Nat → Nat)
    (hd_edge : ∀ u j, Reaches adjF e u → j ∈ adjF u → dist j ≤ dist u + 1)
    (hd_pred : ∀ x, Reaches adjF e x → ∀ n, dist x = n + 1 →
      ∃ u, Reaches adjF e u ∧ dist u ≤ n ∧ x ∈ adjF u) :
    ∀ (fuel : Nat) (g : Graph α) (c : Nat) (fr : List Nat),
      (∀ i, adjOf g i = adjF i) →
      (∀ i, (getV g i).isSome = liveF i) →
      (∀ x, (∃ r, r ∈ c :: fr ∧ Reaches adjF r x) →
        ∀ j ∈ adjF x, liveF j = true) →
      (∀ x ∈ c :: fr, liveF x = true) →
      (∀ x ∈ c :: fr, Reaches adjF e x) →
      (∀ x ∈ fr, is_visited g x = true) →
      List.Pairwise (fun a b => dist a ≤ dist b) (c :: fr) →
      (∀ b ∈ fr, dist b ≤ dist c + 1) →
      (∀ x, Reaches adjF e x → dist x ≤ dist c →
        (x = c ∨ is_visited g x = true)) →
      (∀ u, Reaches adjF e u → is_visited g u = true →
        (u ∈ c :: fr ∨ ∀ j ∈ adjF u, is_visited g j = true)) →
      (c :: fr).Nodup →
      List.Pairwise (fun a b => dist a ≤ dist b)
          (pass1 push_to_queue eqd fuel g (some c) fr).2.1 ∧
        (∀ x ∈ (pass1 push_to_queue eqd fuel g (some c) fr).2.1,
          dist c ≤ dist x) ∧
        (pass1 push_to_queue eqd fuel g (some c) fr).2.1.Nodup ∧
        (∀ x ∈ (pass1 push_to_queue eqd fuel g (some c) fr).2.1,
          x ∈ c :: fr ∨ is_visited g x = false)
  | 0, g, c, fr, _, _, _, _, _, _, _, _, _, _, _ => by
    rw [pass1_zero]
    exact ⟨List.Pairwise.nil, fun x hx => absurd hx (List.not_mem_nil x),
      List.nodup_nil, fun x hx => absurd hx (List.not_mem_nil x)⟩
  | fuel + 1, g, c, fr, hadj, hlive, hcl, hqlive, hreach, hfrm, hsorted,
      hspread, hlow, hdone, hnodup => by
    have hlivec : liveF c = true := hqlive c (List.mem_cons_self _ _)
    have hRc : Reaches adjF e c := hreach c (List.mem_cons_self _ _)
    have hstop : stopCheck eqd (mark_visited g c) c = false := by
      unfold stopCheck
      cases dataOf (mark_visited g c) c with
      | none => rfl
      | some d => exact heqd d
    have hadjc : adjOf (mark_visited g c) c = adjF c := by
      rw [adjOf_mark_visited, hadj]
    set g1 := mark_visited g c with hg1
    set dA := discover push_to_queue g1 fr (adjF c) with hdA
    set p := pop_front dA.2 with hp
    have hunf : pass1 push_to_queue eqd (fuel + 1) g (some c) fr =
        ((pass1 push_to_queue eqd fuel dA.1 p.1 p.2).1,
         c :: (pass1 push_to_queue eqd fuel dA.1 p.1 p.2).2.1,
         (pass1 push_to_queue eqd fuel dA.1 p.1 p.2).2.2) := by
      simp only [pass1, hstop, Bool.false_eq_true, if_neg, not_false_iff,
        hadjc, hg1, hdA, hp]
    have hlivadj : ∀ j ∈ adjF c, (getV g1 j).isSome = true := by
      intro j hj
      rw [hg1, ← (structEq_mark_visited g c).isSome_getV j, hlive j]
      exact hcl c ⟨c, List.mem_cons_self _ _, Relation.ReflTransGen.refl⟩ j hj
    obtain ⟨new, hnew1, hnew2, hnew3, hnew4⟩ :=
      discover_queue_spec (adjF c) g1 fr hlivadj
    rw [← hdA] at hnew1 hnew4
    have hg1flags : ∀ j, is_visited g1 j =
        (is_visited g j || decide (j = c)) := by
      intro j
      rw [hg1, is_visited_mark_visited, hlive c, hlivec]
      simp
    have hnewdist : ∀ j ∈ new, dist j = dist c + 1 := by
      intro j hj
      obtain ⟨hj1, hj2⟩ := (hnew3 j).mp hj
      have hjc : j ≠ c := by
        intro h
        rw [hg1flags j, h] at hj2
        simp at hj2
      have hjg : is_visited g j = false := by
        cases hv : is_visited g j
        · rfl
        · rw [hg1flags j, hv] at hj2
          simp at hj2
      have hRj : Reaches adjF e j := Relation.ReflTransGen.tail hRc hj1
      have hle : dist j ≤ dist c + 1 := hd_edge c j hRc hj1
      have hgt : ¬ dist j ≤ dist c := by
        intro hle2
        rcases hlow j hRj hle2 with h | h
        · exact hjc h
        · rw [h] at hjg
          exact Bool.noConfusion hjg
      omega
    have hnewreach : ∀ j ∈ new, Reaches adjF e j := fun j hj =>
      Relation.ReflTransGen.tail hRc ((hnew3 j).mp hj).1
    have hnewlive : ∀ j ∈ new, liveF j = true := fun j hj =>
      hcl c ⟨c, List.mem_cons_self _ _, Relation.ReflTransGen.refl⟩ j
        ((hnew3 j).mp hj).1
    have hfrge : ∀ b ∈ fr, dist c ≤ dist b := (List.pairwise_cons.mp hsorted).1
    have hfrpw : List.Pairwise (fun a b => dist a ≤ dist b) fr :=
      (List.pairwise_cons.mp hsorted).2
    have hqge : ∀ x ∈ fr ++ new, dist c ≤ dist x := by
      intro x hx
      rcases List.mem_append.mp hx with h | h
      · exact hfrge x h
      · rw [hnewdist x h]; omega
    have hqle : ∀ x ∈ fr ++ new, dist x ≤ dist c + 1 := by
      intro x hx
      rcases List.mem_append.mp hx with h | h
      · exact hspread x h
      · rw [hnewdist x h]
    have hqsorted : List.Pairwise (fun a b => dist a ≤ dist b) (fr ++ new) := by
      rw [List.pairwise_append]
      refine ⟨hfrpw, pairwise_of_mem new ?_, ?_⟩
      · intro a ha b hb
        rw [hnewdist a ha, hnewdist b hb]
      · intro a ha b hb
        rw [hnewdist b hb]
        exact hspread a ha
    have hqmarked : ∀ x ∈ fr ++ new, is_visited dA.1 x = true := by
      intro x hx
      rw [hnew4 x]
      rcases List.mem_append.mp hx with h | h
      · rw [hg1flags x, hfrm x h]
        rfl
      · simp [h]
    have hqreach : ∀ x ∈ fr ++ new, Reaches adjF e x := by
      intro x hx
      rcases List.mem_append.mp hx with h | h
      · exact hreach x (List.mem_cons_of_mem _ h)
      · exact hnewreach x h
    have hqlive2 : ∀ x ∈ fr ++ new, liveF x = true := by
      intro x hx
      rcases List.mem_append.mp hx with h | h
      · exact hqlive x (List.mem_cons_of_mem _ h)
      · exact hnewlive x h
    have hqnodup : (fr ++ new).Nodup := by
      rw [List.nodup_append]
      refine ⟨(List.nodup_cons.mp hnodup).2, hnew2, ?_⟩
      intro a ha hanew
      obtain ⟨_, hfalse⟩ := (hnew3 a).mp hanew
      rw [hg1flags a, hfrm a ha] at hfalse
      simp at hfalse
    have hcnotq : c ∉ fr ++ new := by
      intro hc
      rcases List.mem_append.mp hc with h | h
      · exact (List.nodup_cons.mp hnodup).1 h
      · obtain ⟨_, hfalse⟩ := (hnew3 c).mp h
        rw [hg1flags c] at hfalse
        simp at hfalse
    have hcovc : ∀ j ∈ adjF c, is_visited dA.1 j = true := fun j hj =>
      discover_covers push_to_queue (adjF c) g1 fr hlivadj j hj
    have hvisA : ∀ x, is_visited g x = true → is_visited dA.1 x = true := by
      intro x hx
      rw [hnew4 x, hg1flags x, hx]
      rfl
    have hvisc : is_visited dA.1 c = true := by
      rw [hnew4 c, hg1flags c]
      simp
    have hrec :
        List.Pairwise (fun a b => dist a ≤ dist b)
            (pass1 push_to_queue eqd fuel dA.1 p.1 p.2).2.1 ∧
          (∀ x ∈ (pass1 push_to_queue eqd fuel dA.1 p.1 p.2).2.1,
            dist c ≤ dist x) ∧
          (pass1 push_to_queue eqd fuel dA.1 p.1 p.2).2.1.Nodup ∧
          (∀ x ∈ (pass1 push_to_queue eqd fuel dA.1 p.1 p.2).2.1,
            x ∈ fr ++ new ∨ is_visited dA.1 x = false) := by
      cases hp1 : p.1 with
      | none =>
        rw [pass1_none]
        exact ⟨List.Pairwise.nil, fun x hx => absurd hx (List.not_mem_nil x),
          List.nodup_nil, fun x hx => absurd hx (List.not_mem_nil x)⟩
      | some c2 =>
        have hq2 : fr ++ new = c2 :: p.2 := by
          have hdec := pop_front_decomp dA.2
          rw [← hp, hp1] at hdec
          rw [← hnew1]
          exact hdec
        have hc2q : c2 ∈ fr ++ new := by
          rw [hq2]; exact List.mem_cons_self _ _
        have hc2ge : dist c ≤ dist c2 := hqge c2 hc2q
        have hc2le : dist c2 ≤ dist c + 1 := hqle c2 hc2q
        have hp2sub : ∀ x ∈ p.2, x ∈ fr ++ new := by
          intro x hx
          rw [hq2]
          exact List.mem_cons_of_mem _ hx
        have hsorted2 : List.Pairwise (fun a b => dist a ≤ dist b)
            (c2 :: p.2) := by
          rw [← hq2]
          exact hqsorted
        have hadjA : ∀ i, adjOf dA.1 i = adjF i := fun i => by
          rw [← (structEq_discover push_to_queue (adjF c) g1 fr).2.2.1 i, hg1,
            adjOf_mark_visited, hadj]
        have hliveA : ∀ i, (getV dA.1 i).isSome = liveF i := fun i => by
          rw [← (structEq_discover push_to_queue (adjF c) g1 fr).isSome_getV i,
            hg1, ← (structEq_mark_visited g c).isSome_getV i, hlive]
        have hclA : ∀ x, (∃ r, r ∈ c2 :: p.2 ∧ Reaches adjF r x) →
            ∀ j ∈ adjF x, liveF j = true := by
          rintro x ⟨r, hr, hre⟩ j hj
          have hrq : r ∈ fr ++ new := by
            rw [hq2]
            exact hr
          rcases List.mem_append.mp hrq with h | h
          · exact hcl x ⟨r, List.mem_cons_of_mem _ h, hre⟩ j hj
          · exact hcl x ⟨c, List.mem_cons_self _ _,
              (Relation.ReflTransGen.single ((hnew3 r).mp h).1).trans hre⟩ j hj
        have hqliveA : ∀ x ∈ c2 :: p.2, liveF x = true := by
          intro x hx
          rw [← hq2] at hx
          exact hqlive2 x hx
        have hreachA : ∀ x ∈ c2 :: p.2, Reaches adjF e x := by
          intro x hx
          rw [← hq2] at hx
          exact hqreach x hx
        have hfrmA : ∀ x ∈ p.2, is_visited dA.1 x = true := fun x hx =>
          hqmarked x (hp2sub x hx)
        have hspreadA : ∀ b ∈ p.2, dist b ≤ dist c2 + 1 := by
          intro b hb
          have := hqle b (hp2sub b hb)
          omega
        have hlowA : ∀ x, Reaches adjF e x → dist x ≤ dist c2 →
            (x = c2 ∨ is_visited dA.1 x = true) := by
          intro x hRx hdx
          rcases Nat.lt_or_ge (dist x) (dist c + 1) with hcase | hcase
          · have hdxc : dist x ≤ dist c := by omega
            rcases hlow x hRx hdxc with h | h
            · subst h
              exact Or.inr hvisc
            · exact Or.inr (hvisA x h)
          · have hdx1 : dist x = dist c + 1 := by omega
            obtain ⟨u, hRu, hule, hxu⟩ := hd_pred x hRx (dist c) hdx1
            rcases hlow u hRu hule with h | h
            · subst h
              exact Or.inr (hcovc x hxu)
            · rcases hdone u hRu h with hu | hu
              · rcases List.mem_cons.mp hu with huc | huf
                · subst huc
                  exact Or.inr (hcovc x hxu)
                · exfalso
                  have hud : dist u = dist c :=
                    Nat.le_antisymm hule (hfrge u huf)
                  have huq : u ∈ c2 :: p.2 := by
                    rw [← hq2]
                    exact List.mem_append_left _ huf
                  rcases List.mem_cons.mp huq with h2 | h2
                  · rw [h2] at hud
                    omega
                  · have := (List.pairwise_cons.mp hsorted2).1 u h2
                    omega
              · exact Or.inr (hvisA x (hu x hxu))
        have hdoneA : ∀ u, Reaches adjF e u → is_visited dA.1 u = true →
            (u ∈ c2 :: p.2 ∨ ∀ j ∈ adjF u, is_visited dA.1 j = true) := by
          intro u hRu hu
          rw [hnew4 u] at hu
          rcases Bool.or_eq_true_iff.mp hu with h1 | h1
          · rw [hg1flags u] at h1
            rcases Bool.or_eq_true_iff.mp h1 with h2 | h2
            · rcases hdone u hRu h2 with h3 | h3
              · rcases List.mem_cons.mp h3 with h4 | h4
                · subst h4
                  exact Or.inr (fun j hj => hcovc j hj)
                · refine Or.inl ?_
                  rw [← hq2]
                  exact List.mem_append_left _ h4
              · exact Or.inr (fun j hj => hvisA j (h3 j hj))
            · have h4 : u = c := of_decide_eq_true h2
              subst h4
              exact Or.inr (fun j hj => hcovc j hj)
          · have h2 : u ∈ new := of_decide_eq_true h1
            refine Or.inl ?_
            rw [← hq2]
            exact List.mem_append_right _ h2
        have hnodupA : (c2 :: p.2).Nodup := by
          rw [← hq2]
          exact hqnodup
        obtain ⟨i1, i2, i3, i4⟩ := pass1_bfs eqd heqd adjF liveF e dist
          hd_edge hd_pred fuel dA.1 c2 p.2 hadjA hliveA hclA hqliveA hreachA
          hfrmA hsorted2 hspreadA hlowA hdoneA hnodupA
        refine ⟨i1, fun x hx => Nat.le_trans hc2ge (i2 x hx), i3, ?_⟩
        intro x hx
        rcases i4 x hx with h | h
        · refine Or.inl ?_
          rw [hq2]
          exact h
        · exact Or.inr h
    rw [hunf]
    obtain ⟨i1, i2, i3, i4⟩ := hrec
    have hcnotF : c ∉ (pass1 push_to_queue eqd fuel dA.1 p.1 p.2).2.1 := by
      intro hc
      rcases i4 c hc with h | h
      · exact hcnotq h
      · rw [hvisc] at h
        exact Bool.noConfusion h
    refine ⟨?_, ?_, ?_, ?_⟩
    · exact List.pairwise_cons.mpr ⟨fun b hb => i2 b hb, i1⟩
    · intro x hx
      rcases List.mem_cons.mp hx with h | h
      · rw [h]
      · exact i2 x h
    · exact List.nodup_cons.mpr ⟨hcnotF, i3⟩
    · intro x hx
      rcases List.mem_cons.mp hx with h | h
      · refine Or.inl ?_
        rw [h]
        exact List.mem_cons_self _ _
      · rcases i4 x h with h2 | h2
        · rcases List.mem_append.mp h2 with h3 | h3
          · exact Or.inl (List.mem_cons_of_mem _ h3)
          · obtain ⟨_, hfalse⟩ := (hnew3 x).mp h3
            refine Or.inr ?_
            cases hv : is_visited g x
            · rfl
            · rw [hg1flags x, hv] at hfalse
              simp at hfalse
        · refine Or.inr ?_
          cases hv : is_visited g x
          · rfl
          · rw [hnew4 x, hg1flags x, hv] at h2
            simp at h2

/-- The claim C6: on a graph whose reachable vertices are clean and whose
reachable adjacency lists are live, breadth-first traversal processes (and
prints) exactly the vertices reachable from the entry, each exactly once, its
work loop never breaks early, and the order is level order: a vertex at
smaller adjacency-distance from the entry is always printed before one at
larger distance. -/
theorem c6_bfs_level_order (g : Graph α)
    (hclean : CleanReach g) (hclosed : ClosedReach g) :
    (∀ t, t ∈ (breadth_first_traversal g).1 ↔ ReachesEntry g t) ∧
    (breadth_first_traversal g).1.Nodup ∧
    (pass1 push_to_queue (fun _ : α => false) (graphFuel g) g g.vertex
      []).2.2 = none ∧
    (∀ e, g.vertex = some e →
      List.Pairwise (fun a b => ∀ da db, IsDist g e a da → IsDist g e b db →
        da ≤ db) (breadth_first_traversal g).1) := by
  have hnone : (pass1 push_to_queue (fun _ : α => false) (graphFuel g) g
      g.vertex []).2.2 = none :=
    pass1_no_stop push_to_queue _ (fun _ => rfl) (graphFuel g) g g.vertex []
  have hcomp := pass1_top_complete push_to_queue push_to_queue_iff
    push_to_queue_length (fun _ : α => false) g hclean hclosed hnone
  have hmain : (breadth_first_traversal g).1.Nodup ∧
      (∀ e, g.vertex = some e →
        List.Pairwise (fun a b => ∀ da db, IsDist g e a da →
          IsDist g e b db → da ≤ db) (breadth_first_traversal g).1) := by
    cases he : g.vertex with
    | none =>
      have h0 : (breadth_first_traversal g).1 = [] := by
        show (pass1 push_to_queue (fun _ : α => false) (graphFuel g) g
          g.vertex []).2.1 = []
        rw [he, pass1_none]
      rw [h0]
      exact ⟨List.nodup_nil, fun e2 he2 => Option.noConfusion he2⟩
    | some e =>
      cases hgve : getV g e with
      | none =>
        have hadje : adjOf g e = [] := by
          unfold adjOf
          rw [hgve]
        rcases hfu : graphFuel g with _ | fuel
        · exfalso
          unfold graphFuel at hfu
          omega
        · have hmv : mark_visited g e = g := by
            unfold mark_visited
            rw [hgve]
          have hstop0 : stopCheck (fun _ : α => false) (mark_visited g e) e =
              false := by
            unfold stopCheck
            cases dataOf (mark_visited g e) e with
            | none => rfl
            | some d => rfl
          have hstop0g : stopCheck (fun _ : α => false) g e = false := by
            unfold stopCheck
            cases dataOf g e with
            | none => rfl
            | some d => rfl
          have hadje1 : adjOf (mark_visited g e) e = [] := by
            rw [hmv, hadje]
          have hcompute : pass1 push_to_queue (fun _ : α => false) (fuel + 1)
              g (some e) [] = (g, [e], none) := by
            unfold pass1
            simp only [hstop0, hstop0g, Bool.false_eq_true, if_neg,
              not_false_iff, hadje1, hadje, hmv, discover, pop_front,
              pass1_none]
          have h0 : (breadth_first_traversal g).1 = [e] := by
            show (pass1 push_to_queue (fun _ : α => false) (graphFuel g) g
              g.vertex []).2.1 = [e]
            rw [he, hfu, hcompute]
          rw [h0]
          refine ⟨List.nodup_cons.mpr ⟨List.not_mem_nil e, List.nodup_nil⟩, ?_⟩
          intro e2 he2
          have he2e : e = e2 := Option.some.inj he2
          subst he2e
          exact List.pairwise_singleton _ _
      | some ve =>
        have hlivee : (getV g e).isSome = true := by rw [hgve]; rfl
        have hch : ∀ x, ∃ d0, Reaches (adjOf g) e x → IsDist g e x d0 := by
          intro x
          by_cases hx : Reaches (adjOf g) e x
          · obtain ⟨d0, hd0⟩ := isDist_exists hx
            exact ⟨d0, fun _ => hd0⟩
          · exact ⟨0, fun h => absurd h hx⟩
        choose dist hdist using hch
        have hd_edge : ∀ u j, Reaches (adjOf g) e u → j ∈ adjOf g u →
            dist j ≤ dist u + 1 := by
          intro u j hu hj
          have hRj : Reaches (adjOf g) e j := Relation.ReflTransGen.tail hu hj
          have h1 : reachInB g (dist u + 1) e j = true :=
            reachInB_step g (hdist u hu).1 hj
          by_contra hgt
          have h2 := (hdist j hRj).2 (dist u + 1) (by omega)
          rw [h2] at h1
          exact Bool.noConfusion h1
        have hd_pred : ∀ x, Reaches (adjOf g) e x → ∀ n, dist x = n + 1 →
            ∃ u, Reaches (adjOf g) e u ∧ dist u ≤ n ∧ x ∈ adjOf g u := by
          intro x hx n hdn
          have hdx := hdist x hx
          rw [hdn] at hdx
          have h1 := hdx.1
          have h0 := hdx.2 n (by omega)
          unfold reachInB at h1
          rw [h0] at h1
          simp only [Bool.false_or] at h1
          rw [List.any_eq_true] at h1
          obtain ⟨u, _, hband⟩ := h1
          obtain ⟨hbu, hbc⟩ := Bool.and_eq_true_iff.mp hband
          have hmem : x ∈ adjOf g u := by simpa using hbc
          have hRu : Reaches (adjOf g) e u := reaches_of_reachInB g n e u hbu
          refine ⟨u, hRu, ?_, hmem⟩
          by_contra hgt
          have h2 := (hdist u hRu).2 n (by omega)
          rw [h2] at hbu
          exact Bool.noConfusion hbu
        have hde : dist e = 0 := by
          have h1 := hdist e Relation.ReflTransGen.refl
          have h2 : IsDist g e e 0 :=
            ⟨by unfold reachInB; simp,
              fun m hm => absurd hm (Nat.not_lt_zero m)⟩
          exact isDist_unique h1 h2
        have hd0 : ∀ x, Reaches (adjOf g) e x → dist x = 0 → x = e := by
          intro x hx h0
          have h1 := (hdist x hx).1
          rw [h0] at h1
          unfold reachInB at h1
          exact (eq_of_beq h1).symm
        obtain ⟨hP, hge, hND, _⟩ := pass1_bfs (fun _ : α => false)
          (fun _ => rfl) (adjOf g) (fun i => (getV g i).isSome) e dist
          hd_edge hd_pred (graphFuel g) g e []
          (fun i => rfl) (fun i => rfl)
          (fun x hx j hj => by
            rcases hx with ⟨r, hr, hre⟩
            have hr2 : r = e := by
              rcases List.mem_cons.mp hr with h | h
              · exact h
              · exact absurd h (List.not_mem_nil r)
            rw [hr2] at hre
            exact hclosed x ⟨e, he, hre⟩ j hj)
          (fun x hx => by
            have hx2 : x = e := by
              rcases List.mem_cons.mp hx with h | h
              · exact h
              · exact absurd h (List.not_mem_nil x)
            rw [hx2]
            exact hlivee)
          (fun x hx => by
            have hx2 : x = e := by
              rcases List.mem_cons.mp hx with h | h
              · exact h
              · exact absurd h (List.not_mem_nil x)
            rw [hx2]
            exact Relation.ReflTransGen.refl)
          (fun x hx => absurd hx (List.not_mem_nil x))
          (List.pairwise_singleton _ _)
          (fun b hb => absurd hb (List.not_mem_nil b))
          (fun x hx hdx => by
            rw [hde] at hdx
            exact Or.inl (hd0 x hx (Nat.le_zero.mp hdx)))
          (fun u hu hvu => by
            rw [hclean u ⟨e, he, hu⟩] at hvu
            exact Bool.noConfusion hvu)
          (List.nodup_cons.mpr ⟨List.not_mem_nil e, List.nodup_nil⟩)
        have hordE : (breadth_first_traversal g).1 =
            (pass1 push_to_queue (fun _ : α => false) (graphFuel g) g
              (some e) []).2.1 := by
          show (pass1 push_to_queue (fun _ : α => false) (graphFuel g) g
            g.vertex []).2.1 = _
          rw [he]
        have hmemreach : ∀ x, x ∈ (pass1 push_to_queue (fun _ : α => false)
            (graphFuel g) g (some e) []).2.1 → Reaches (adjOf g) e x := by
          intro x hx
          have hre : ReachesEntry g x := by
            apply hcomp.2.2
            rw [he]
            exact hx
          rcases hre with ⟨e3, he3, hr⟩
          have : e3 = e := Option.some.inj (he3.symm.trans he)
          rw [← this]
          exact hr
        refine ⟨by rw [hordE]; exact hND, ?_⟩
        intro e2 he2
        have he2e : e = e2 := Option.some.inj he2
        subst he2e
        rw [hordE]
        refine hP.imp_of_mem ?_
        intro a b ha hb hab da db hda hdb
        have hra := hmemreach a ha
        have hrb := hmemreach b hb
        rw [isDist_unique hda (hdist a hra), isDist_unique hdb (hdist b hrb)]
        exact hab
  refine ⟨?_, hmain.1, hnone, hmain.2⟩
  intro t
  exact ⟨fun ht => hcomp.2.2 t ht, fun ht => hcomp.1 t ht⟩

/-- Witness for C6 at the three-vertex demonstration graph. -/
theorem c6_bfs_level_order_witness :
    (∀ t, t ∈ (breadth_first_traversal gScenario).1 ↔
      ReachesEntry gScenario t) ∧
    (breadth_first_traversal gScenario).1.Nodup ∧
    (pass1 push_to_queue (fun _ : Nat => false) (graphFuel gScenario)
      gScenario gScenario.vertex []).2.2 = none ∧
    (∀ e, gScenario.vertex = some e →
      List.Pairwise (fun a b => ∀ da db, IsDist gScenario e a da →
        IsDist gScenario e b db → da ≤ db)
        (breadth_first_traversal gScenario).1) :=
  c6_bfs_level_order gScenario
    (cleanReach_of_cleanB (by decide))
    (closedReach_of_closedB (by decide))

end GraphC
